import Mathlib

/-! Verification of the chunker, of the pipeline and of the query handler.

A shallow embedding of `src/internal/rag/chunker.go`, `src/internal/rag/pipeline.go`,
the methods of `QdrantClient` in `src/internal/rag/qdrant.go` and `QueryHandler` of
`src/internal/http/handlers.go`, and the properties of `Chunker.ChunkText`,
`Pipeline.Ingest`, `Pipeline.Retrieve`, `NewPipeline`, `QdrantClient.Search` and
`QueryHandler` stated in the specification.

Modelling conventions.

* A Go `string` is modelled by a Lean `String` (a sequence of Unicode code
  points); `len(s)` is the number of bytes of its UTF-8 encoding.  Strings that
  are not valid UTF-8 are not represented.
* A Go `int` is modelled by `Int`.  The only arithmetic of the chunker adds
  lengths of words of the input, which stay far below `2^63`, so no wrap-around
  is modelled.
* `strings.Fields`, `strings.Join` and `strings.TrimSpace` belong to the Go
  standard library; they are modelled after their documentation.
* The interfaces consumed by the pipeline are functions on a state of the outside
  world, and every run of the pipeline records its calls to the outside world.
-/

namespace Rag

/-! ## Standard library functions used by the chunker -/

/-- Go's `unicode.IsSpace`: the code points with the Unicode White_Space property. -/
def isSpace (c : Char) : Bool :=
  let n := c.toNat
  (9 ≤ n && n ≤ 13) || n == 32 || n == 0x85 || n == 0xA0 || n == 0x1680 ||
  (0x2000 ≤ n && n ≤ 0x200A) || n == 0x2028 || n == 0x2029 || n == 0x202F ||
  n == 0x205F || n == 0x3000

/-- Go's builtin `len` on a string: the number of bytes. -/
def len (s : String) : Int := s.utf8ByteSize

/-- Left-to-right scan of `strings.Fields`: `cur` holds the characters of the
field being read (empty when the scan is between fields). -/
def fieldsScan : List Char → List Char → List String
  | cur, [] => if cur.isEmpty then [] else [String.mk cur]
  | cur, c :: cs =>
    if isSpace c then
      if cur.isEmpty then fieldsScan [] cs else String.mk cur :: fieldsScan [] cs
    else fieldsScan (cur ++ [c]) cs

/-- Go's `strings.Fields`: splits the string around each run of one or more
white space characters; the result is empty when the string holds only white
space. -/
def Fields (s : String) : List String := fieldsScan [] s.data

/-- Go's `strings.Join`: concatenates the elements, placing `sep` between them. -/
def Join : List String → String → String
  | [], _ => ""
  | [w], _ => w
  | w :: v :: ws, sep => w ++ sep ++ Join (v :: ws) sep

/-! ## The chunker (`chunker.go`) -/

/-- The struct `Chunker`. -/
structure Chunker where
  chunkSize : Int
  chunkOverlap : Int

/-- The constructor `NewChunker`. -/
def NewChunker (chunkSize chunkOverlap : Int) : Chunker :=
  { chunkSize := chunkSize, chunkOverlap := chunkOverlap }

/-- The method `getOverlapWords`: the last `chunkOverlap` words (all of them when
there are fewer), nothing when `chunkOverlap <= 0`. -/
def Chunker.getOverlapWords (c : Chunker) (words : List String) : List String :=
  if c.chunkOverlap ≤ 0 then []
  else
    let overlapCount : Int :=
      if c.chunkOverlap > (words.length : Int) then (words.length : Int) else c.chunkOverlap
    words.drop (words.length - overlapCount.toNat)

/-- The method `calculateSize`: every word counts for its length plus one, and one
is taken off a positive total. -/
def Chunker.calculateSize (_c : Chunker) (words : List String) : Int :=
  let size := words.foldl (fun size word => size + (len word + 1)) 0
  if size > 0 then size - 1 else size

/-- The body of the `for i, word := range words` loop of `ChunkText`, run on the
words still to be read; the state is `chunks`, `currentChunk`, `currentSize`.
The test `i == len(words)-1` is the test that no word is left after `word`. -/
def Chunker.chunkLoop (c : Chunker) :
    List String → List String → List String → Int → List String
  | [], chunks, _, _ => chunks
  | word :: rest, chunks, currentChunk, currentSize =>
    let wordSize : Int := len word + 1
    let flushed : List String × List String × Int :=
      if currentSize + wordSize > c.chunkSize ∧ currentChunk.length > 0 then
        let chunks := chunks ++ [Join currentChunk " "]
        if c.chunkOverlap > 0 ∧ currentChunk.length > 0 then
          let overlapWords := c.getOverlapWords currentChunk
          (chunks, overlapWords, c.calculateSize overlapWords)
        else
          (chunks, [], 0)
      else (chunks, currentChunk, currentSize)
    let currentChunk := flushed.2.1 ++ [word]
    let currentSize := flushed.2.2 + wordSize
    let chunks :=
      if rest.isEmpty then flushed.1 ++ [Join currentChunk " "] else flushed.1
    c.chunkLoop rest chunks currentChunk currentSize

/-- The method `ChunkText`. -/
def Chunker.ChunkText (c : Chunker) (text : String) : List String :=
  if text = "" then []
  else
    let words := Fields text
    if words.length = 0 then [text]
    else c.chunkLoop words [] [] 0

/-! ## Word-level view of the loop

`ChunkText` stores every segment as a joined string.  The definitions below
describe the same loop by the word lists of the segments; `chunkLoop_eq_segWords`
proves that they agree with the code. -/

/-- The running total of the loop: every word counts for its length plus one. -/
def sumSize (words : List String) : Int := (words.map (fun w => len w + 1)).sum

/-- The seed of the segment that follows the segment `currentChunk`: the two
branches of the overlap handling of `ChunkText`. -/
def Chunker.seed (c : Chunker) (currentChunk : List String) : List String × Int :=
  if c.chunkOverlap > 0 ∧ currentChunk.length > 0 then
    (c.getOverlapWords currentChunk, c.calculateSize (c.getOverlapWords currentChunk))
  else ([], 0)

/-- The test of `ChunkText` that closes the pending segment before `word`. -/
def Chunker.closes (c : Chunker) (word : String) (currentChunk : List String)
    (currentSize : Int) : Prop :=
  currentSize + (len word + 1) > c.chunkSize ∧ currentChunk.length > 0

instance (c : Chunker) (word : String) (cur : List String) (sz : Int) :
    Decidable (c.closes word cur sz) := by
  unfold Chunker.closes; infer_instance

/-- The word lists of the segments which the loop appends when it reads `words`
from the state `currentChunk`, `currentSize`. -/
def Chunker.segWords (c : Chunker) : List String → List String → Int → List (List String)
  | [], _, _ => []
  | [word], cur, sz =>
    if c.closes word cur sz then [cur, (c.seed cur).1 ++ [word]] else [cur ++ [word]]
  | word :: next :: rest, cur, sz =>
    if c.closes word cur sz then
      cur :: c.segWords (next :: rest) ((c.seed cur).1 ++ [word]) ((c.seed cur).2 + (len word + 1))
    else c.segWords (next :: rest) (cur ++ [word]) (sz + (len word + 1))

/-- A list paired with the element before each element (`first` before the head). -/
def withPrev {α : Type} : Option α → List α → List (Option α × α)
  | _, [] => []
  | first, x :: xs => (first, x) :: withPrev (some x) xs

/-- The words carried over from the previous segment, none before the first one. -/
def Chunker.carried (c : Chunker) : Option (List String) → List String
  | none => []
  | some previous => c.getOverlapWords previous

/-- The state of the loop after the body has run on `word`: the pending words
and the running size. -/
def Chunker.advance (c : Chunker) (word : String) (cur : List String) (sz : Int) :
    List String × Int :=
  if c.closes word cur sz then ((c.seed cur).1 ++ [word], (c.seed cur).2 + (len word + 1))
  else (cur ++ [word], sz + (len word + 1))

/-- The word lists that follow a segment with the words `previous`, each without
its first `min(chunkOverlap, len(previous segment))` words, concatenated. -/
def remainders (chunkOverlap : Int) : List String → List (List String) → List String
  | _, [] => []
  | previous, L :: Ls =>
    L.drop (min chunkOverlap (previous.length : Int)).toNat ++ remainders chunkOverlap L Ls

/-- The word lists of a sequence of segments concatenated without the overlapping
portions: the first one whole, then the remainders of the others. -/
def withoutOverlaps (chunkOverlap : Int) : List (List String) → List String
  | [] => []
  | L :: Ls => L ++ remainders chunkOverlap L Ls

/-- A sequence of word lists concatenated, the first without its first `n` words
and the others without their overlapping portions. -/
def stripped (chunkOverlap : Int) (n : Nat) : List (List String) → List String
  | [] => []
  | L :: Ls => L.drop n ++ remainders chunkOverlap L Ls

/-- The word list of the segment before the `k`-th one, none before the first. -/
def previousWords (segments : List String) : Nat → Option (List String)
  | 0 => none
  | j + 1 => (segments[j]?).map Fields

/-- A word: a non-empty string free of white space. -/
def IsWord (w : String) : Prop := w.data ≠ [] ∧ ∀ c ∈ w.data, isSpace c = false

instance (w : String) : Decidable (IsWord w) := by
  unfold IsWord; infer_instance

/-! ## The pipeline (`pipeline.go`)

The interfaces `TextChunker`, `LLMClient` and `VectorDatabase` are implemented
outside the pipeline, so a method of an interface is a function that reads and
updates a state `σ` of the outside world.  Every function of the pipeline returns
its value, the new state, and the list of the calls it made to the outside world,
in order, each with the answer it got (`Event`).  A `float32` is a value of a type
`F` which the pipeline never inspects; `context.Context` arguments are left out. -/

/-- A Go `error`, given by its message; `fmt.Errorf("...: %w", err)` is the text
followed by the message of `err`. -/
abbrev Error := String

/-- The conversion `uint64(x)` of a signed integer: its value modulo `2^64`. -/
def uint64 (x : Int) : Nat := (x % 2 ^ 64).toNat

/-- The kinds of `qdrant.Value` that `qdrant.NewValueMap` builds from the payload
of `Ingest`: a string or an integer. -/
inductive Value where
  | StringValue (s : String)
  | IntegerValue (n : Int)

/-- The struct `qdrant.PointStruct`: a numeric id, a vector and a payload. -/
structure PointStruct (F : Type) where
  Id : Nat
  Vectors : List F
  Payload : List (String × Value)

/-- A call to the outside world together with the answer it got. -/
inductive Event (F : Type) where
  | ChunkText (text : String) (chunks : List String)
  | GenerateEmbedding (text : String) (result : Except Error (List F))
  | GenerateAnswer (contextText question : String) (result : Except Error String)
  | Now (unixNano : Int)
  | EnsureCollection (vectorSize : Nat) (err : Option Error)
  | UpsertPoints (pointsToUpsert : List (PointStruct F)) (err : Option Error)
  | Search (queryEmbedding : List F) (limit : Nat)
      (result : Except Error (List String × List F))

/-- The outcome of running a function of the pipeline: the returned value, the new
state of the outside world and the calls made. -/
structure Run (σ F α : Type) where
  value : α
  state : σ
  events : List (Event F)

/-- The interface `TextChunker`. -/
structure TextChunker (σ : Type) where
  ChunkText : String → σ → List String × σ

/-- The interface `LLMClient`. -/
structure LLMClient (σ F : Type) where
  GenerateEmbedding : String → σ → Except Error (List F) × σ
  GenerateAnswer : String → String → σ → Except Error String × σ

/-- The interface `VectorDatabase`; a returned `error` is `none` for `nil`. -/
structure VectorDatabase (σ F : Type) where
  EnsureCollection : Nat → σ → Option Error × σ
  UpsertPoints : List (PointStruct F) → σ → Option Error × σ
  Search : List F → Nat → σ → Except Error (List String × List F) × σ

/-- The struct `Pipeline`. -/
structure Pipeline (σ F : Type) where
  chunker : TextChunker σ
  llmClient : LLMClient σ F
  qdrantClient : VectorDatabase σ F
  searchLimit : Int

/-- The function `NewPipeline`; the returned pair is `(*Pipeline, error)`. -/
def NewPipeline {σ F : Type} (chunker : TextChunker σ) (llmClient : LLMClient σ F)
    (qdrantClient : VectorDatabase σ F) (searchLimit : Int) (s : σ) :
    Run σ F (Option (Pipeline σ F) × Option Error) :=
  let vectorSize : Nat := 3072
  match qdrantClient.EnsureCollection vectorSize s with
  | (some err, s1) =>
    { value := (none, some ("failed to ensure collection: " ++ err))
      state := s1
      events := [Event.EnsureCollection vectorSize (some err)] }
  | (none, s1) =>
    { value := (some { chunker := chunker, llmClient := llmClient,
                       qdrantClient := qdrantClient, searchLimit := searchLimit }, none)
      state := s1
      events := [Event.EnsureCollection vectorSize none] }

/-- The payload of the point of `chunk`, the `i`-th chunk of the document `docID`. -/
def pointPayload (chunk docID : String) (i : Nat) : List (String × Value) :=
  [("text", Value.StringValue chunk), ("doc_id", Value.StringValue docID),
   ("chunk_index", Value.IntegerValue (i : Int))]

/-- The `for i, chunk := range chunks` loop of `Ingest`, run on the chunks still to
be read, `i` being the index of the first of them.  `now` is
`time.Now().UnixNano()`.  The conversions `uint64(i)` and `int64(i)` keep the value
of an index; the sum `uint64(time.Now().UnixNano()) + uint64(i)` wraps around at
`2^64`. -/
def Pipeline.ingestLoop {σ F : Type} (p : Pipeline σ F) (now : σ → Int × σ)
    (docID : String) :
    List String → Nat → List (PointStruct F) → σ → Run σ F (Except Error (List (PointStruct F)))
  | [], _, pointsToUpsert, s => { value := .ok pointsToUpsert, state := s, events := [] }
  | chunk :: rest, i, pointsToUpsert, s =>
    match p.llmClient.GenerateEmbedding chunk s with
    | (.error err, s1) =>
      { value := .error ("failed to generate embedding for chunk " ++ toString i ++ ": " ++ err)
        state := s1
        events := [Event.GenerateEmbedding chunk (.error err)] }
    | (.ok embedding, s1) =>
      let pointID : Run σ F Nat :=
        if docID ≠ "" then { value := i, state := s1, events := [] }
        else
          { value := (uint64 (now s1).1 + i) % 2 ^ 64
            state := (now s1).2
            events := [Event.Now (now s1).1] }
      let point : PointStruct F :=
        { Id := pointID.value, Vectors := embedding, Payload := pointPayload chunk docID i }
      let r := p.ingestLoop now docID rest (i + 1) (pointsToUpsert ++ [point]) pointID.state
      { value := r.value
        state := r.state
        events := Event.GenerateEmbedding chunk (.ok embedding) :: (pointID.events ++ r.events) }

/-- The method `Ingest`; the returned `error` is `none` for `nil`. -/
def Pipeline.Ingest {σ F : Type} (p : Pipeline σ F) (now : σ → Int × σ)
    (text docID : String) (s : σ) : Run σ F (Option Error) :=
  let chunks := (p.chunker.ChunkText text s).1
  let s0 := (p.chunker.ChunkText text s).2
  if chunks.length = 0 then
    { value := some "no chunks created from text"
      state := s0
      events := [Event.ChunkText text chunks] }
  else
    let r := p.ingestLoop now docID chunks 0 [] s0
    match r.value with
    | .error err =>
      { value := some err, state := r.state, events := Event.ChunkText text chunks :: r.events }
    | .ok pointsToUpsert =>
      match p.qdrantClient.UpsertPoints pointsToUpsert r.state with
      | (some err, s2) =>
        { value := some ("failed to upsert points: " ++ err)
          state := s2
          events := Event.ChunkText text chunks ::
            (r.events ++ [Event.UpsertPoints pointsToUpsert (some err)]) }
      | (none, s2) =>
        { value := none
          state := s2
          events := Event.ChunkText text chunks ::
            (r.events ++ [Event.UpsertPoints pointsToUpsert none]) }

/-- Go's `strings.TrimSpace`: the string without its leading and trailing white
space, as defined by `unicode.IsSpace`. -/
def TrimSpace (s : String) : String :=
  String.mk ((s.data.dropWhile isSpace).reverse.dropWhile isSpace).reverse

/-- The text that `Retrieve` writes for the `i`-th result (`i` counted from 0):
`fmt.Sprintf("[Document %d, Score: %.4f]\n%s\n\n", i+1, score, text)`, where
`fmtScore` is the rendering `%.4f` of a `float32`. -/
def renderEntry {F : Type} (fmtScore : F → String) (i : Nat) (score : F) (text : String) :
    String :=
  "[Document " ++ toString (i + 1) ++ ", Score: " ++ fmtScore score ++ "]\n" ++ text ++ "\n\n"

/-- The `for i, text := range texts` loop of `Retrieve`, run on the texts still to
be read; `contextBuilder` is the text written so far.  The result is `none` when
`scores[i]` is out of range, where the Go program panics. -/
def renderLoop {F : Type} (fmtScore : F → String) (scores : List F) :
    List String → Nat → String → Option String
  | [], _, contextBuilder => some contextBuilder
  | text :: rest, i, contextBuilder =>
    match scores[i]? with
    | none => none
    | some score =>
      renderLoop fmtScore scores rest (i + 1) (contextBuilder ++ renderEntry fmtScore i score text)

/-- The method `Retrieve`.  The value is the returned pair `(string, error)`, or
`none` when the program panics on `scores[i]`. -/
def Pipeline.Retrieve {σ F : Type} (p : Pipeline σ F) (fmtScore : F → String)
    (query : String) (s : σ) : Run σ F (Option (String × Option Error)) :=
  match p.llmClient.GenerateEmbedding query s with
  | (.error err, s1) =>
    { value := some ("", some ("failed to generate query embedding: " ++ err))
      state := s1
      events := [Event.GenerateEmbedding query (.error err)] }
  | (.ok queryEmbedding, s1) =>
    match p.qdrantClient.Search queryEmbedding (uint64 p.searchLimit) s1 with
    | (.error err, s2) =>
      { value := some ("", some ("failed to search: " ++ err))
        state := s2
        events := [Event.GenerateEmbedding query (.ok queryEmbedding),
                   Event.Search queryEmbedding (uint64 p.searchLimit) (.error err)] }
    | (.ok (texts, scores), s2) =>
      { value :=
          if texts.length = 0 then some ("", some "no relevant documents found")
          else
            match renderLoop fmtScore scores texts 0 "" with
            | none => none
            | some contextBuilder => some (TrimSpace contextBuilder, none)
        state := s2
        events := [Event.GenerateEmbedding query (.ok queryEmbedding),
                   Event.Search queryEmbedding (uint64 p.searchLimit) (.ok (texts, scores))] }

/-! ## The Qdrant client wrapper (`qdrant.go`) -/

/-- The enumeration `qdrant.Distance`. -/
inductive Distance where
  | Cosine
  | Euclid
  | Dot
  | Manhattan

/-- The struct `qdrant.VectorParams`: the dimensionality of the vectors of a
collection and the distance used to compare them. -/
structure VectorParams where
  Size : Nat
  Distance : Distance

/-- The request `qdrant.CreateCollection`. -/
structure CreateCollection where
  CollectionName : String
  VectorsConfig : VectorParams

/-- The struct `qdrant.ScoredPoint`, a result of a query: its score and its
payload, a map from keys to values which may be `nil`, as may be the values. -/
structure ScoredPoint (F : Type) where
  Score : F
  Payload : Option (List (String × Option Value))

/-- The request `qdrant.QueryPoints`. -/
structure QueryPoints (F : Type) where
  CollectionName : String
  Query : List F
  Limit : Nat
  WithPayload : Bool

/-- The request `qdrant.UpsertPoints`. -/
structure UpsertPoints (F : Type) where
  CollectionName : String
  Points : List (PointStruct F)

/-- The method `GetStringValue` of `qdrant.Value`: the string of a string value,
the empty string for every other kind of value. -/
def Value.GetStringValue : Value → String
  | Value.StringValue s => s
  | Value.IntegerValue _ => ""

/-- The methods of the Qdrant Go client (`*qdrant.Client`) which `QdrantClient`
calls; `σ` is the state of the Qdrant server.  `GetCollectionInfo` answers with the
description of the collection, of which the vector parameters are kept; of the
answer of `Upsert` only the error is kept. -/
structure Client (σ F : Type) where
  GetCollectionInfo : String → σ → Except Error VectorParams × σ
  CreateCollection : CreateCollection → σ → Option Error × σ
  Upsert : UpsertPoints F → σ → Option Error × σ
  Query : QueryPoints F → σ → Except Error (List (ScoredPoint F)) × σ

/-- The struct `QdrantClient`. -/
structure QdrantClient (σ F : Type) where
  client : Client σ F
  collection : String

/-- The method `QdrantClient.EnsureCollection`; the returned `error` is `none` for
`nil`. -/
def QdrantClient.EnsureCollection {σ F : Type} (qc : QdrantClient σ F) (vectorSize : Nat)
    (s : σ) : Option Error × σ :=
  match qc.client.GetCollectionInfo qc.collection s with
  | (.ok _, s1) => (none, s1)
  | (.error _, s1) =>
    match qc.client.CreateCollection
        { CollectionName := qc.collection
          VectorsConfig := { Size := vectorSize, Distance := Distance.Cosine } } s1 with
    | (some err, s2) => (some ("failed to create collection: " ++ err), s2)
    | (none, s2) => (none, s2)

/-- The method `QdrantClient.UpsertPoints`. -/
def QdrantClient.UpsertPoints {σ F : Type} (qc : QdrantClient σ F)
    (pointsToUpsert : List (PointStruct F)) (s : σ) : Option Error × σ :=
  match qc.client.Upsert { CollectionName := qc.collection, Points := pointsToUpsert } s with
  | (some err, s1) => (some ("failed to upsert points: " ++ err), s1)
  | (none, s1) => (none, s1)

/-- The `for _, result := range searchResult` loop of `Search`, run on the results
still to be read; the state is `texts`, `scores`. -/
def searchLoop {F : Type} : List (ScoredPoint F) → List String → List F → List String × List F
  | [], texts, scores => (texts, scores)
  | result :: rest, texts, scores =>
    let score := result.Score
    match result.Payload with
    | none => searchLoop rest texts scores
    | some payload =>
      match payload.lookup "text" with
      | some (some textValue) =>
        if textValue.GetStringValue ≠ "" then
          searchLoop rest (texts ++ [textValue.GetStringValue]) (scores ++ [score])
        else searchLoop rest texts scores
      | _ => searchLoop rest texts scores

/-- The method `QdrantClient.Search`; the value is the returned triple
`([]string, []float32, error)`, an error standing alone. -/
def QdrantClient.Search {σ F : Type} (qc : QdrantClient σ F) (vector : List F) (limit : Nat)
    (s : σ) : Except Error (List String × List F) × σ :=
  match qc.client.Query
      { CollectionName := qc.collection, Query := vector, Limit := limit,
        WithPayload := true } s with
  | (.error err, s1) => (.error ("failed to search: " ++ err), s1)
  | (.ok searchResult, s1) =>
    if searchResult.length = 0 then (.ok ([], []), s1)
    else (.ok (searchLoop searchResult [] []), s1)

/-- A `QdrantClient` seen through the interface `VectorDatabase`. -/
def QdrantClient.toVectorDatabase {σ F : Type} (qc : QdrantClient σ F) :
    VectorDatabase σ F where
  EnsureCollection := qc.EnsureCollection
  UpsertPoints := qc.UpsertPoints
  Search := qc.Search

/-- The text which `Search` reads from a result: the string value under the key
"text" of its payload, empty when the payload, the key or the value is missing or
the value is not a string. -/
def ScoredPoint.text {F : Type} (result : ScoredPoint F) : String :=
  match result.Payload with
  | none => ""
  | some payload =>
    match payload.lookup "text" with
    | some (some textValue) => textValue.GetStringValue
    | _ => ""

/-- A Qdrant server reduced to what `EnsureCollection` can observe: the existing
collections by name, each with its vector parameters. -/
abbrev Store := List (String × VectorParams)

/-- The Qdrant client on a `Store`, after the documented behaviour of the server:
`GetCollectionInfo` fails for a collection that does not exist, `CreateCollection`
fails for one that exists and otherwise creates it as requested.  The store keeps
no point: `Upsert` and `Query` only check that the collection exists. -/
def storeClient : Client Store Nat where
  GetCollectionInfo := fun name st =>
    match st.lookup name with
    | some params => (.ok params, st)
    | none => (.error ("collection " ++ name ++ " not found"), st)
  CreateCollection := fun req st =>
    match st.lookup req.CollectionName with
    | some _ => (some ("collection " ++ req.CollectionName ++ " already exists"), st)
    | none => (none, (req.CollectionName, req.VectorsConfig) :: st)
  Upsert := fun req st =>
    match st.lookup req.CollectionName with
    | some _ => (none, st)
    | none => (some ("collection " ++ req.CollectionName ++ " not found"), st)
  Query := fun req st =>
    match st.lookup req.CollectionName with
    | some _ => (.ok [], st)
    | none => (.error ("collection " ++ req.CollectionName ++ " not found"), st)

/-- The dimensionality of the vectors of a collection of the store, if it exists. -/
def Store.vectorSize (st : Store) (name : String) : Option Nat :=
  (st.lookup name).map (fun params => params.Size)

/-! ## The HTTP handlers (`internal/http/handlers.go`)

The interfaces `RAGPipeline` and `LLMClient` of package `http` are functions on a
state of the outside world, as above; a pair `(string, error)` is returned as it
is.  A request is given by the outcome of decoding its JSON body, a response by
the status code, the content type and the value encoded into the body.  Logging is
left out. -/

/-- The interface `LLMClient` of package `http`. -/
structure Http.LLMClient (σ : Type) where
  GenerateAnswer : String → String → σ → (String × Option Error) × σ

/-- The interface `RAGPipeline` of package `http`. -/
structure Http.RAGPipeline (σ : Type) where
  Retrieve : String → σ → (String × Option Error) × σ
  Ingest : String → String → σ → Option Error × σ

/-- The struct `QueryReq`. -/
structure Http.QueryReq where
  Query : String

/-- The struct `types.ErrorResponse`. -/
structure Http.ErrorResponse where
  Error : String
  Message : String

/-- The struct `types.QueryResponse`; the handler sets only `Answer`. -/
structure Http.QueryResponse where
  Answer : String

/-- The value encoded into the body of a response. -/
inductive Http.Body where
  | ErrorResponse (response : Http.ErrorResponse)
  | QueryResponse (response : Http.QueryResponse)

/-- What a handler wrote to its `http.ResponseWriter`: the status code (200 when
`WriteHeader` is not called), the header `Content-Type` and the body. -/
structure Http.Response where
  Code : Nat
  ContentType : String
  Body : Http.Body

/-- A call of a handler to its collaborators, with the answer it got. -/
inductive Http.Call where
  | Retrieve (query : String) (contextText : String) (err : Option Error)
  | GenerateAnswer (contextText question : String) (answer : String) (err : Option Error)

/-- The outcome of running a handler: the response, the new state of the outside
world and the calls made, in order. -/
structure Http.HandlerRun (σ : Type) where
  response : Http.Response
  state : σ
  calls : List Http.Call

/-- The constant `http.StatusOK`. -/
def Http.StatusOK : Nat := 200

/-- The constant `http.StatusBadRequest`. -/
def Http.StatusBadRequest : Nat := 400

/-- The constant `http.StatusInternalServerError`. -/
def Http.StatusInternalServerError : Nat := 500

/-- Go's `http.StatusText`, on the status codes which the handlers use. -/
def Http.StatusText (code : Nat) : String :=
  if code = 200 then "OK"
  else if code = 400 then "Bad Request"
  else if code = 500 then "Internal Server Error"
  else ""

/-- The function `errorResponse`: the message is followed by the error, if any. -/
def Http.errorResponse (status : Nat) (message : String) (err : Option Error) :
    Http.Response :=
  let errorMsg :=
    match err with
    | some e => message ++ ": " ++ e
    | none => message
  { Code := status
    ContentType := "application/json"
    Body := Http.Body.ErrorResponse { Error := Http.StatusText status, Message := errorMsg } }

/-- The struct `Handler`. -/
structure Http.Handler (σ : Type) where
  ragPipeline : Http.RAGPipeline σ
  llmClient : Http.LLMClient σ

/-- The method `QueryHandler`; `decoded` is the outcome of
`json.NewDecoder(r.Body).Decode(&req)`. -/
def Http.Handler.QueryHandler {σ : Type} (h : Http.Handler σ)
    (decoded : Except Error Http.QueryReq) (s : σ) : Http.HandlerRun σ :=
  match decoded with
  | .error err =>
    { response := Http.errorResponse Http.StatusBadRequest "Invalid request body" (some err)
      state := s
      calls := [] }
  | .ok req =>
    if req.Query = "" then
      { response := Http.errorResponse Http.StatusBadRequest "Query is required" none
        state := s
        calls := [] }
    else
      match h.ragPipeline.Retrieve req.Query s with
      | ((contextText, some err), s1) =>
        { response :=
            Http.errorResponse Http.StatusInternalServerError "Failed to retrieve context"
              (some err)
          state := s1
          calls := [Http.Call.Retrieve req.Query contextText (some err)] }
      | ((contextText, none), s1) =>
        match h.llmClient.GenerateAnswer contextText req.Query s1 with
        | ((answer, some err), s2) =>
          { response :=
              Http.errorResponse Http.StatusInternalServerError "Failed to generate answer"
                (some err)
            state := s2
            calls := [Http.Call.Retrieve req.Query contextText none,
                      Http.Call.GenerateAnswer contextText req.Query answer (some err)] }
        | ((answer, none), s2) =>
          { response :=
              { Code := Http.StatusOK
                ContentType := "application/json"
                Body := Http.Body.QueryResponse { Answer := answer } }
            state := s2
            calls := [Http.Call.Retrieve req.Query contextText none,
                      Http.Call.GenerateAnswer contextText req.Query answer none] }

/-! ## Observations on the calls of a run -/

/-- The requests for an embedding among the calls, each with its answer. -/
def embedCalls {F : Type} (events : List (Event F)) :
    List (String × Except Error (List F)) :=
  events.filterMap (fun e =>
    match e with
    | Event.GenerateEmbedding text result => some (text, result)
    | _ => none)

/-- The calls of `UpsertPoints`, each with its answer. -/
def upsertCalls {F : Type} (events : List (Event F)) :
    List (List (PointStruct F) × Option Error) :=
  events.filterMap (fun e =>
    match e with
    | Event.UpsertPoints pointsToUpsert err => some (pointsToUpsert, err)
    | _ => none)

/-- The readings of the clock among the calls. -/
def clockReadings {F : Type} (events : List (Event F)) : List Int :=
  events.filterMap (fun e =>
    match e with
    | Event.Now unixNano => some unixNano
    | _ => none)

/-- The calls of `Search`, each with its answer. -/
def searchCalls {F : Type} (events : List (Event F)) :
    List (List F × Nat × Except Error (List String × List F)) :=
  events.filterMap (fun e =>
    match e with
    | Event.Search queryEmbedding limit result => some (queryEmbedding, limit, result)
    | _ => none)

/-- The calls of `EnsureCollection`, each with its answer. -/
def ensureCalls {F : Type} (events : List (Event F)) : List (Nat × Option Error) :=
  events.filterMap (fun e =>
    match e with
    | Event.EnsureCollection vectorSize err => some (vectorSize, err)
    | _ => none)

/-- The point ids handed to `UpsertPoints` during a run. -/
def upsertedIds {F : Type} (events : List (Event F)) : List Nat :=
  ((upsertCalls events).map (fun call => call.1.map (fun point => point.Id))).flatten

/-- The requests for the embeddings of `chunks`, answered by `embeddings`. -/
def okCalls {F : Type} (chunks : List String) (embeddings : List (List F)) :
    List (String × Except Error (List F)) :=
  List.zipWith (fun chunk embedding => (chunk, Except.ok embedding)) chunks embeddings

/-! ## The context blob, as the specification words it -/

/-- A list of characters without its trailing white space. -/
def trimRight (cs : List Char) : List Char := (cs.reverse.dropWhile isSpace).reverse

/-- The header of the entry of rank `k` (counted from 1):
"[Document k, Score: <score>]", where `fmtScore` renders the score with 4 decimal
places. -/
def renderHeader {F : Type} (fmtScore : F → String) (k : Nat) (score : F) : String :=
  "[Document " ++ toString k ++ ", Score: " ++ fmtScore score ++ "]"

/-- The concatenation, in the given order, of the entries of the results `pairs`:
for each result its header, a newline, its text and two newlines; `k` is the rank
of the first result. -/
def renderAll {F : Type} (fmtScore : F → String) : Nat → List (String × F) → String
  | _, [] => ""
  | k, (text, score) :: rest =>
    (renderHeader fmtScore k score ++ "\n" ++ text ++ "\n\n") ++ renderAll fmtScore (k + 1) rest

/-! ## A sample outside world

The state is the list of the future readings of the clock. -/

/-- A clock that gives the scripted readings one after the other. -/
def scriptedNow : List Int → Int × List Int
  | [] => (0, [])
  | t :: ts => (t, ts)

/-- A `Chunker` seen through the interface `TextChunker`: it leaves the outside
world as it is. -/
def Chunker.toTextChunker {σ : Type} (c : Chunker) : TextChunker σ where
  ChunkText := fun text s => (c.ChunkText text, s)

/-- An embedding service that fails on the text "bad". -/
def sampleLLM : LLMClient (List Int) Nat where
  GenerateEmbedding := fun text s =>
    if text = "bad" then (.error "API error", s) else (.ok [text.length], s)
  GenerateAnswer := fun _ _ s => (.ok "answer", s)

/-- A vector database that accepts everything and finds two documents. -/
def sampleDB : VectorDatabase (List Int) Nat where
  EnsureCollection := fun _ s => (none, s)
  UpsertPoints := fun _ s => (none, s)
  Search := fun _ _ s => (.ok (["Document 1", "Document 2"], [9000, 8000]), s)

/-- A pipeline on the sample outside world, chunking with chunkSize 10 and no
overlap. -/
def samplePipeline : Pipeline (List Int) Nat where
  chunker := (NewChunker 10 0).toTextChunker
  llmClient := sampleLLM
  qdrantClient := sampleDB
  searchLimit := 3

/-- The points which the sample pipeline builds for the text "one two three" of the
document "doc1". -/
def samplePoints : List (PointStruct Nat) :=
  [{ Id := 0, Vectors := [7], Payload := pointPayload "one two" "doc1" 0 },
   { Id := 1, Vectors := [5], Payload := pointPayload "three" "doc1" 1 }]

/-- A rendering of a score given in ten-thousandths below one. -/
def sampleFmtScore (score : Nat) : String := "0." ++ toString score

/-- Query results as a Qdrant server may give them: two with a text, the others
without payload, without the key "text", with an empty text, with a `nil` value
and with a value that is not a string. -/
def sampleResults : List (ScoredPoint Nat) :=
  [{ Score := 9000, Payload := some [("text", some (Value.StringValue "Document 1"))] },
   { Score := 8500, Payload := none },
   { Score := 8400, Payload := some [("doc_id", some (Value.StringValue "doc1"))] },
   { Score := 8300, Payload := some [("text", some (Value.StringValue ""))] },
   { Score := 8200, Payload := some [("text", none)] },
   { Score := 8100, Payload := some [("text", some (Value.IntegerValue 7))] },
   { Score := 8000,
     Payload := some [("doc_id", some (Value.StringValue "doc1")),
                      ("text", some (Value.StringValue "Document 2"))] }]

/-- A Qdrant client whose queries answer `sampleResults`. -/
def sampleClient : Client (List Int) Nat where
  GetCollectionInfo := fun _ s => (.ok { Size := 3072, Distance := Distance.Cosine }, s)
  CreateCollection := fun _ s => (none, s)
  Upsert := fun _ s => (none, s)
  Query := fun _ s => (.ok sampleResults, s)

/-- The wrapper of `sampleClient` for the collection "documents". -/
def sampleQdrant : QdrantClient (List Int) Nat where
  client := sampleClient
  collection := "documents"

/-- A handler whose pipeline finds a context for every query but "unknown", and
whose answer generator answers every question. -/
def sampleHandler : Http.Handler (List Int) where
  ragPipeline :=
    { Retrieve := fun query s =>
        if query = "unknown" then (("", some "no relevant documents found"), s)
        else (("Kubernetes is a container orchestration system", none), s)
      Ingest := fun _ _ s => (none, s) }
  llmClient :=
    { GenerateAnswer := fun _ _ s =>
        (("Kubernetes is a container orchestration platform", none), s) }

/-! ## Lengths, joining and splitting -/

theorem len_nonneg (s : String) : 0 ≤ len s := by
  unfold len; exact Int.ofNat_nonneg _

theorem len_append (a b : String) : len (a ++ b) = len a + len b := by
  cases a with
  | mk x =>
    cases b with
    | mk y =>
      show ((String.utf8Len (x ++ y) : Nat) : Int) = (String.utf8Len x : Int) + String.utf8Len y
      rw [String.utf8Len_append]; push_cast; rfl

theorem len_space : len " " = 1 := by decide

theorem len_empty : len "" = 0 := by decide

theorem len_pos_of_data_ne_nil (s : String) (h : s.data ≠ []) : 0 < len s := by
  cases s with
  | mk x =>
    have h0 : String.utf8Len x ≠ 0 := fun h1 => h (String.utf8Len_eq_zero.mp h1)
    show (0 : Int) < ((String.utf8Len x : Nat) : Int)
    exact Int.ofNat_pos.mpr (Nat.pos_of_ne_zero h0)

theorem IsWord.len_pos {w : String} (h : IsWord w) : 0 < len w :=
  len_pos_of_data_ne_nil w h.1

theorem fieldsScan_append_word (w : List Char) (hw : ∀ c ∈ w, isSpace c = false) :
    ∀ (cur rest : List Char), fieldsScan cur (w ++ rest) = fieldsScan (cur ++ w) rest := by
  induction w with
  | nil => intro cur rest; simp
  | cons c w ih =>
    intro cur rest
    have hc : isSpace c = false := hw c (List.mem_cons_self _ _)
    have hrest : ∀ d ∈ w, isSpace d = false := fun d hd => hw d (List.mem_cons_of_mem _ hd)
    show fieldsScan cur (c :: (w ++ rest)) = _
    rw [fieldsScan, if_neg (by simp [hc]), ih hrest]
    simp

theorem fieldsScan_space (cur rest : List Char) (hcur : cur ≠ []) :
    fieldsScan cur (' ' :: rest) = String.mk cur :: fieldsScan [] rest := by
  have hs : isSpace ' ' = true := by decide
  rw [fieldsScan, if_pos hs, if_neg (by simpa using hcur)]

theorem fieldsScan_isWord :
    ∀ (s cur : List Char), (∀ c ∈ cur, isSpace c = false) →
      ∀ x ∈ fieldsScan cur s, IsWord x := by
  intro s
  induction s with
  | nil =>
    intro cur hcur x hx
    unfold fieldsScan at hx
    by_cases he : cur = []
    · simp [he] at hx
    · have hx2 : x = String.mk cur := by simpa [he] using hx
      subst hx2
      exact ⟨he, hcur⟩
  | cons c cs ih =>
    intro cur hcur x hx
    unfold fieldsScan at hx
    by_cases hc : isSpace c = true
    · rw [if_pos hc] at hx
      by_cases he : cur = []
      · rw [if_pos (by simp [he])] at hx
        exact ih [] (by simp) x hx
      · rw [if_neg (by simpa using he)] at hx
        rcases List.mem_cons.mp hx with h1 | h1
        · subst h1; exact ⟨he, hcur⟩
        · exact ih [] (by simp) x h1
    · rw [if_neg hc] at hx
      refine ih (cur ++ [c]) ?_ x hx
      intro d hd
      rcases List.mem_append.mp hd with h1 | h1
      · exact hcur d h1
      · have : d = c := by simpa using h1
        subst this; simpa using hc

theorem Fields_isWord (s : String) : ∀ w ∈ Fields s, IsWord w :=
  fieldsScan_isWord s.data [] (by simp)

theorem fieldsScan_eq_nil_iff :
    ∀ (s cur : List Char), fieldsScan cur s = [] ↔ cur = [] ∧ ∀ c ∈ s, isSpace c = true := by
  intro s
  induction s with
  | nil => intro cur; unfold fieldsScan; by_cases he : cur = [] <;> simp [he]
  | cons c cs ih =>
    intro cur
    unfold fieldsScan
    by_cases hc : isSpace c = true
    · rw [if_pos hc]
      by_cases he : cur = []
      · rw [if_pos (by simp [he]), ih]; simp [he, hc]
      · rw [if_neg (by simpa using he)]; simp [he]
    · rw [if_neg hc, ih]; simp [hc]

theorem Fields_eq_nil_iff (s : String) :
    Fields s = [] ↔ ∀ c ∈ s.data, isSpace c = true := by
  unfold Fields; rw [fieldsScan_eq_nil_iff]; simp

theorem Join_cons_cons (w v : String) (ws : List String) (sep : String) :
    Join (w :: v :: ws) sep = w ++ sep ++ Join (v :: ws) sep := rfl

theorem fieldsScan_Join :
    ∀ (ws : List String), (∀ w ∈ ws, IsWord w) →
      ∀ (w : String) (cur : List Char), IsWord w →
        fieldsScan cur (Join (w :: ws) " ").data = String.mk (cur ++ w.data) :: ws := by
  intro ws
  induction ws with
  | nil =>
    intro _ w cur hw
    show fieldsScan cur w.data = _
    have h := fieldsScan_append_word w.data hw.2 cur []
    rw [List.append_nil] at h
    rw [h, fieldsScan]
    have hne : cur ++ w.data ≠ [] := by simp [hw.1]
    rw [if_neg (by simpa using hne)]
  | cons v ws ih =>
    intro hws w cur hw
    have hv : IsWord v := hws v (List.mem_cons_self _ _)
    have hws2 : ∀ x ∈ ws, IsWord x := fun x hx => hws x (List.mem_cons_of_mem _ hx)
    rw [Join_cons_cons, String.data_append, String.data_append]
    have hsp : (" " : String).data = [' '] := rfl
    rw [hsp, List.append_assoc, fieldsScan_append_word w.data hw.2]
    show fieldsScan (cur ++ w.data) (' ' :: (Join (v :: ws) " ").data) = _
    rw [fieldsScan_space _ _ (by simp [hw.1]), ih hws2 v [] hv]
    simp

/-- Splitting the single-space join of a list of words gives the words back. -/
theorem Fields_Join (ws : List String) (h : ∀ w ∈ ws, IsWord w) :
    Fields (Join ws " ") = ws := by
  cases ws with
  | nil => rfl
  | cons w ws =>
    have hw : IsWord w := h w (List.mem_cons_self _ _)
    have hws : ∀ x ∈ ws, IsWord x := fun x hx => h x (List.mem_cons_of_mem _ hx)
    unfold Fields
    rw [fieldsScan_Join ws hws w [] hw]
    simp

/-! ## The loop and its word-level view agree -/

theorem chunkLoop_eq_segWords (c : Chunker) :
    ∀ (words chunks cur : List String) (sz : Int),
      c.chunkLoop words chunks cur sz =
        chunks ++ (c.segWords words cur sz).map (fun L => Join L " ") := by
  intro words
  induction words with
  | nil => intro chunks cur sz; simp [Chunker.chunkLoop, Chunker.segWords]
  | cons word rest ih =>
    intro chunks cur sz
    cases rest with
    | nil =>
      by_cases h : c.closes word cur sz
      · have h2 := h
        unfold Chunker.closes at h2
        by_cases ho : c.chunkOverlap > 0
        · simp [Chunker.chunkLoop, Chunker.segWords, Chunker.seed, h, h2, ho]
        · simp [Chunker.chunkLoop, Chunker.segWords, Chunker.seed, h, h2, ho]
      · have h2 := h
        unfold Chunker.closes at h2
        simp [Chunker.chunkLoop, Chunker.segWords, h, h2]
    | cons next rest =>
      by_cases h : c.closes word cur sz
      · have h2 := h
        unfold Chunker.closes at h2
        by_cases ho : c.chunkOverlap > 0
        · have ho2 : c.chunkOverlap > 0 ∧ cur.length > 0 := ⟨ho, h2.2⟩
          rw [Chunker.chunkLoop, Chunker.segWords, if_pos h]
          simp only [if_pos h2, if_pos ho2, List.isEmpty_cons, Bool.false_eq_true, if_false]
          rw [ih]
          simp [Chunker.seed, ho2]
        · have ho2 : ¬ (c.chunkOverlap > 0 ∧ cur.length > 0) := fun hh => ho hh.1
          rw [Chunker.chunkLoop, Chunker.segWords, if_pos h]
          simp only [if_pos h2, if_neg ho2, List.isEmpty_cons, Bool.false_eq_true, if_false]
          rw [ih]
          simp [Chunker.seed, ho]
      · have h2 := h
        unfold Chunker.closes at h2
        rw [Chunker.chunkLoop, Chunker.segWords, if_neg h]
        simp only [if_neg h2, List.isEmpty_cons, Bool.false_eq_true, if_false]
        rw [ih]

/-! ## Sizes and overlap words -/

theorem sumSize_nil : sumSize [] = 0 := rfl

theorem sumSize_cons (w : String) (ws : List String) :
    sumSize (w :: ws) = (len w + 1) + sumSize ws := by
  simp [sumSize]

theorem sumSize_append (xs ys : List String) :
    sumSize (xs ++ ys) = sumSize xs + sumSize ys := by
  simp [sumSize]

theorem sumSize_nonneg (ws : List String) : 0 ≤ sumSize ws := by
  induction ws with
  | nil => simp [sumSize]
  | cons w ws ih => rw [sumSize_cons]; have := len_nonneg w; omega

theorem sumSize_pos (ws : List String) (h : ws ≠ []) : 0 < sumSize ws := by
  cases ws with
  | nil => exact absurd rfl h
  | cons w ws =>
    rw [sumSize_cons]
    have := len_nonneg w
    have := sumSize_nonneg ws
    omega

theorem foldl_size (ws : List String) :
    ∀ a : Int, ws.foldl (fun size word => size + (len word + 1)) a = a + sumSize ws := by
  induction ws with
  | nil => intro a; simp [sumSize]
  | cons w ws ih => intro a; rw [List.foldl_cons, ih, sumSize_cons]; omega

theorem calculateSize_eq (c : Chunker) (ws : List String) :
    c.calculateSize ws = if ws = [] then 0 else sumSize ws - 1 := by
  unfold Chunker.calculateSize
  simp only [foldl_size, zero_add]
  by_cases h : ws = []
  · subst h; simp [sumSize]
  · have := sumSize_pos ws h
    rw [if_neg h, if_pos (by omega)]

theorem calculateSize_nil (c : Chunker) : c.calculateSize [] = 0 := by
  rw [calculateSize_eq]; simp

theorem calculateSize_of_ne_nil (c : Chunker) (ws : List String) (h : ws ≠ []) :
    c.calculateSize ws = sumSize ws - 1 := by
  rw [calculateSize_eq, if_neg h]

/-- The rendered length of a joined segment is what `calculateSize` computes. -/
theorem len_Join (c : Chunker) (ws : List String) :
    len (Join ws " ") = c.calculateSize ws := by
  induction ws with
  | nil => rw [calculateSize_nil]; rfl
  | cons w ws ih =>
    cases ws with
    | nil =>
      rw [calculateSize_of_ne_nil c _ (by simp), sumSize_cons, sumSize_nil]
      show len w = _
      omega
    | cons v ws =>
      rw [Join_cons_cons, len_append, len_append, len_space, ih,
        calculateSize_of_ne_nil c _ (by simp), calculateSize_of_ne_nil c _ (by simp),
        sumSize_cons w]
      omega

theorem getOverlapWords_of_nonpos (c : Chunker) (ws : List String) (h : c.chunkOverlap ≤ 0) :
    c.getOverlapWords ws = [] := by
  unfold Chunker.getOverlapWords; rw [if_pos h]

/-- The overlap words are the last `min(chunkOverlap, len(words))` words. -/
theorem getOverlapWords_eq_drop (c : Chunker) (ws : List String) :
    c.getOverlapWords ws
      = ws.drop (ws.length - (min c.chunkOverlap (ws.length : Int)).toNat) := by
  unfold Chunker.getOverlapWords
  by_cases h : c.chunkOverlap ≤ 0
  · rw [if_pos h]
    have h1 : (min c.chunkOverlap (ws.length : Int)).toNat = 0 := by
      have : min c.chunkOverlap (ws.length : Int) ≤ 0 := le_trans (min_le_left _ _) h
      omega
    rw [h1]; simp
  · rw [if_neg h]
    by_cases h2 : c.chunkOverlap > (ws.length : Int)
    · simp only [if_pos h2]
      rw [min_eq_right (le_of_lt h2)]
    · simp only [if_neg h2]
      rw [min_eq_left (not_lt.mp h2)]

theorem getOverlapWords_length (c : Chunker) (ws : List String) :
    (c.getOverlapWords ws).length = (min c.chunkOverlap (ws.length : Int)).toNat := by
  rw [getOverlapWords_eq_drop, List.length_drop]
  have : (min c.chunkOverlap (ws.length : Int)) ≤ (ws.length : Int) := min_le_right _ _
  omega

theorem getOverlapWords_suffix (c : Chunker) (ws : List String) :
    c.getOverlapWords ws <:+ ws := by
  rw [getOverlapWords_eq_drop]; exact List.drop_suffix _ _

theorem getOverlapWords_subset (c : Chunker) (ws : List String) :
    ∀ x ∈ c.getOverlapWords ws, x ∈ ws :=
  fun _ hx => (getOverlapWords_suffix c ws).subset hx

theorem getOverlapWords_nil (c : Chunker) : c.getOverlapWords [] = [] := by
  rw [getOverlapWords_eq_drop]; simp

theorem getOverlapWords_ne_nil (c : Chunker) (ws : List String)
    (ho : 0 < c.chunkOverlap) (hws : ws ≠ []) : c.getOverlapWords ws ≠ [] := by
  intro h
  have h1 := getOverlapWords_length c ws
  rw [h, List.length_nil] at h1
  have h2 : 0 < ws.length := List.length_pos.mpr hws
  have h3 : 0 < min c.chunkOverlap (ws.length : Int) := lt_min ho (by exact_mod_cast h2)
  omega

theorem seed_fst (c : Chunker) (cur : List String) :
    (c.seed cur).1 = c.getOverlapWords cur := by
  unfold Chunker.seed
  by_cases h : c.chunkOverlap > 0 ∧ cur.length > 0
  · rw [if_pos h]
  · rw [if_neg h]
    by_cases h1 : c.chunkOverlap > 0
    · have h2 : cur = [] := by
        cases cur with
        | nil => rfl
        | cons a as => exact absurd ⟨h1, by simp⟩ h
      subst h2
      exact (getOverlapWords_nil c).symm
    · exact (getOverlapWords_of_nonpos c cur (not_lt.mp h1)).symm

theorem seed_snd (c : Chunker) (cur : List String) :
    (c.seed cur).2 = c.calculateSize (c.getOverlapWords cur) := by
  unfold Chunker.seed
  by_cases h : c.chunkOverlap > 0 ∧ cur.length > 0
  · rw [if_pos h]
  · rw [if_neg h]
    have h0 := seed_fst c cur
    unfold Chunker.seed at h0
    rw [if_neg h] at h0
    rw [← h0]
    exact (calculateSize_nil c).symm

/-! ## Unfolding the word-level view -/

theorem segWords_nil (c : Chunker) (cur : List String) (sz : Int) :
    c.segWords [] cur sz = [] := rfl

theorem segWords_cons (c : Chunker) (w : String) (rest cur : List String) (sz : Int) :
    c.segWords (w :: rest) cur sz
      = (if c.closes w cur sz then [cur] else []) ++
          (if rest = [] then [(c.advance w cur sz).1]
           else c.segWords rest (c.advance w cur sz).1 (c.advance w cur sz).2) := by
  cases rest with
  | nil =>
    by_cases h : c.closes w cur sz <;> simp [Chunker.segWords, Chunker.advance, h]
  | cons v rest =>
    by_cases h : c.closes w cur sz <;> simp [Chunker.segWords, Chunker.advance, h]

theorem advance_fst (c : Chunker) (w : String) (cur : List String) (sz : Int) :
    (c.advance w cur sz).1
      = (if c.closes w cur sz then c.getOverlapWords cur else cur) ++ [w] := by
  unfold Chunker.advance
  by_cases h : c.closes w cur sz
  · simp [h, seed_fst]
  · simp [h]

theorem advance_snd (c : Chunker) (w : String) (cur : List String) (sz : Int) :
    (c.advance w cur sz).2
      = (if c.closes w cur sz then c.calculateSize (c.getOverlapWords cur) else sz)
          + (len w + 1) := by
  unfold Chunker.advance
  by_cases h : c.closes w cur sz
  · simp [h, seed_snd]
  · simp [h]

/-! ## Basic facts on the segments -/

theorem advance_fst_ne_nil (c : Chunker) (w : String) (cur : List String) (sz : Int) :
    (c.advance w cur sz).1 ≠ [] := by
  rw [advance_fst]; simp

theorem segWords_all (c : Chunker) (P : String → Prop) :
    ∀ (ws cur : List String) (sz : Int), (∀ x ∈ cur, P x) → (∀ x ∈ ws, P x) →
      ∀ L ∈ c.segWords ws cur sz, ∀ x ∈ L, P x := by
  intro ws
  induction ws with
  | nil => intro cur sz _ _ L hL; simp [segWords_nil] at hL
  | cons w rest ih =>
    intro cur sz hcur hws L hL
    rw [segWords_cons] at hL
    have hadv : ∀ x ∈ (c.advance w cur sz).1, P x := by
      rw [advance_fst]
      intro x hx
      rcases List.mem_append.mp hx with h1 | h1
      · by_cases h : c.closes w cur sz
        · rw [if_pos h] at h1; exact hcur x (getOverlapWords_subset c cur x h1)
        · rw [if_neg h] at h1; exact hcur x h1
      · have h2 : x = w := by simpa using h1
        subst h2; exact hws _ (List.mem_cons_self _ _)
    rcases List.mem_append.mp hL with h1 | h1
    · by_cases h : c.closes w cur sz
      · rw [if_pos h] at h1
        have h2 : L = cur := by simpa using h1
        subst h2; exact hcur
      · rw [if_neg h] at h1; simp at h1
    · by_cases hr : rest = []
      · rw [if_pos hr] at h1
        have h2 : L = (c.advance w cur sz).1 := by simpa using h1
        subst h2; exact hadv
      · rw [if_neg hr] at h1
        exact ih _ _ hadv (fun x hx => hws x (List.mem_cons_of_mem _ hx)) L h1

theorem segWords_mem_ne_nil (c : Chunker) :
    ∀ (ws cur : List String) (sz : Int), ∀ L ∈ c.segWords ws cur sz, L ≠ [] := by
  intro ws
  induction ws with
  | nil => intro cur sz L hL; simp [segWords_nil] at hL
  | cons w rest ih =>
    intro cur sz L hL
    rw [segWords_cons] at hL
    rcases List.mem_append.mp hL with h1 | h1
    · by_cases h : c.closes w cur sz
      · rw [if_pos h] at h1
        have h2 : L = cur := by simpa using h1
        subst h2
        exact List.length_pos.mp h.2
      · rw [if_neg h] at h1; simp at h1
    · by_cases hr : rest = []
      · rw [if_pos hr] at h1
        have h2 : L = (c.advance w cur sz).1 := by simpa using h1
        subst h2; exact advance_fst_ne_nil c w cur sz
      · rw [if_neg hr] at h1
        exact ih _ _ L h1

theorem segWords_ne_nil (c : Chunker) :
    ∀ (ws cur : List String) (sz : Int), ws ≠ [] → c.segWords ws cur sz ≠ [] := by
  intro ws
  induction ws with
  | nil => intro cur sz h; exact absurd rfl h
  | cons w rest ih =>
    intro cur sz _
    rw [segWords_cons]
    by_cases hr : rest = []
    · rw [if_pos hr]; simp
    · rw [if_neg hr]
      have := ih (c.advance w cur sz).1 (c.advance w cur sz).2 hr
      simp [this]

theorem Fields_empty : Fields "" = [] := rfl

/-- On a text with at least one word, `ChunkText` is the word-level view, joined. -/
theorem ChunkText_eq_map_Join (c : Chunker) (text : String) (h : Fields text ≠ []) :
    c.ChunkText text = (c.segWords (Fields text) [] 0).map (fun L => Join L " ") := by
  have ht : text ≠ "" := by
    intro h0; subst h0; exact h Fields_empty
  have hl : ¬ (Fields text).length = 0 := fun h0 => h (List.length_eq_zero.mp h0)
  unfold Chunker.ChunkText
  rw [if_neg ht]
  simp only [if_neg hl]
  rw [chunkLoop_eq_segWords]
  simp

theorem segWords_Fields_isWord (c : Chunker) (text : String) :
    ∀ L ∈ c.segWords (Fields text) [] 0, ∀ x ∈ L, IsWord x :=
  segWords_all c IsWord (Fields text) [] 0 (by simp) (Fields_isWord text)

/-- The word lists of the segments of `ChunkText` are the word-level view. -/
theorem map_Fields_ChunkText (c : Chunker) (text : String) (h : Fields text ≠ []) :
    (c.ChunkText text).map Fields = c.segWords (Fields text) [] 0 := by
  rw [ChunkText_eq_map_Join c text h, List.map_map]
  have hw := segWords_Fields_isWord c text
  have : ∀ L ∈ c.segWords (Fields text) [] 0, (Fields ∘ fun L => Join L " ") L = id L := by
    intro L hL
    exact Fields_Join L (hw L hL)
  rw [List.map_congr_left this, List.map_id]

theorem ChunkText_of_no_words (c : Chunker) (text : String) (h : Fields text = []) :
    c.ChunkText text = if text = "" then [] else [text] := by
  unfold Chunker.ChunkText
  simp [h]

theorem Join_ne_empty (ws : List String) (h : ws ≠ []) (hw : ∀ w ∈ ws, IsWord w) :
    Join ws " " ≠ "" := by
  intro h0
  have h1 := Fields_Join ws hw
  rw [h0, Fields_empty] at h1
  exact h h1.symm

theorem segWords_fit (c : Chunker) :
    ∀ (ws cur : List String) (sz : Int), ws ≠ [] → sz + sumSize ws ≤ c.chunkSize →
      c.segWords ws cur sz = [cur ++ ws] := by
  intro ws
  induction ws with
  | nil => intro cur sz h; exact absurd rfl h
  | cons w rest ih =>
    intro cur sz _ hfit
    rw [sumSize_cons] at hfit
    have hrest := sumSize_nonneg rest
    have hno : ¬ c.closes w cur sz := by
      unfold Chunker.closes; intro h; omega
    rw [segWords_cons, if_neg hno, advance_fst, advance_snd, if_neg hno, if_neg hno]
    by_cases hr : rest = []
    · rw [if_pos hr, hr]; simp
    · rw [if_neg hr, ih _ _ hr (by omega)]; simp

/-- When the words `ws` fit after the pending words and the word `w` after them
does not, the loop reads `ws ++ [w]` without closing anything before `w`, closes
the pending segment at `w` and ends with the seed followed by `w`. -/
theorem segWords_split_at_last (c : Chunker) (w : String) :
    ∀ (ws cur : List String) (sz : Int), cur ++ ws ≠ [] →
      sz + sumSize ws ≤ c.chunkSize → sz + sumSize ws + (len w + 1) > c.chunkSize →
      c.segWords (ws ++ [w]) cur sz = [cur ++ ws, c.getOverlapWords (cur ++ ws) ++ [w]] := by
  intro ws
  induction ws with
  | nil =>
    intro cur sz hne _ hover
    rw [sumSize_nil] at hover
    have hcur : cur ≠ [] := by simpa using hne
    have hcl : c.closes w cur sz := by
      unfold Chunker.closes
      exact ⟨by omega, List.length_pos.mpr hcur⟩
    rw [List.nil_append, segWords_cons, if_pos hcl, if_pos rfl, advance_fst, if_pos hcl]
    simp
  | cons v rest ih =>
    intro cur sz _ hfit hover
    rw [sumSize_cons] at hfit hover
    have hrest := sumSize_nonneg rest
    have hno : ¬ c.closes v cur sz := by
      unfold Chunker.closes; intro h; omega
    have hr : rest ++ [w] ≠ [] := by simp
    rw [List.cons_append, segWords_cons, if_neg hno, if_neg hr, advance_fst, advance_snd,
      if_neg hno, if_neg hno, ih (cur ++ [v]) (sz + (len v + 1)) (by simp) (by omega) (by omega)]
    simp

/-! ## Totality and the edge cases of `ChunkText` -/

/-- C1: for every chunkSize, every chunkOverlap and every non-empty text,
`ChunkText` returns a non-empty sequence, and no element of it is the empty
string. -/
theorem ChunkText_total (c : Chunker) (text : String) (h : text ≠ "") :
    c.ChunkText text ≠ [] ∧ ∀ s ∈ c.ChunkText text, s ≠ "" := by
  by_cases hw : Fields text = []
  · rw [ChunkText_of_no_words c text hw, if_neg h]
    refine ⟨by simp, ?_⟩
    intro s hs
    have : s = text := by simpa using hs
    subst this; exact h
  · rw [ChunkText_eq_map_Join c text hw]
    refine ⟨?_, ?_⟩
    · intro h0
      exact segWords_ne_nil c (Fields text) [] 0 hw (List.map_eq_nil_iff.mp h0)
    · intro s hs
      obtain ⟨L, hL, rfl⟩ := List.mem_map.mp hs
      exact Join_ne_empty L (segWords_mem_ne_nil c _ _ _ L hL)
        (segWords_Fields_isWord c text L hL)

theorem ChunkText_total_witness :
    ("one two  three" : String) ≠ "" ∧
      ((NewChunker 5 1).ChunkText "one two  three" ≠ [] ∧
        ∀ s ∈ (NewChunker 5 1).ChunkText "one two  three", s ≠ "") :=
  ⟨by decide, ChunkText_total (NewChunker 5 1) "one two  three" (by decide)⟩

/-- C8: a text with at least one word whose whitespace-normalized form is
strictly shorter than chunkSize gives exactly one segment, the words of the text
rejoined with single spaces. -/
theorem ChunkText_shorter_than_chunkSize (c : Chunker) (text : String)
    (hw : Fields text ≠ [])
    (hlt : len (Join (Fields text) " ") < c.chunkSize) :
    c.ChunkText text = [Join (Fields text) " "] := by
  rw [len_Join c, calculateSize_of_ne_nil c _ hw] at hlt
  rw [ChunkText_eq_map_Join c text hw, segWords_fit c _ _ _ hw (by omega)]
  simp

theorem ChunkText_shorter_than_chunkSize_witness :
    Fields "This is \n a  short text" ≠ [] ∧
      len (Join (Fields "This is \n a  short text") " ") < (NewChunker 100 20).chunkSize ∧
      (NewChunker 100 20).ChunkText "This is \n a  short text"
        = [Join (Fields "This is \n a  short text") " "] :=
  ⟨by decide, by decide,
    ChunkText_shorter_than_chunkSize (NewChunker 100 20) "This is \n a  short text"
      (by decide) (by decide)⟩

/-- C9: for every chunkSize and chunkOverlap, `ChunkText("")` is the empty
sequence, not a sequence holding the empty string. -/
theorem ChunkText_empty_text (c : Chunker) : c.ChunkText "" = [] := by
  unfold Chunker.ChunkText
  rw [if_pos rfl]

/-- C10: a non-empty text made of white space only (it has no word) gives exactly
one segment, the text itself, unchanged. -/
theorem ChunkText_whitespace_only (c : Chunker) (text : String)
    (hne : text ≠ "") (hsp : ∀ ch ∈ text.data, isSpace ch = true) :
    Fields text = [] ∧ c.ChunkText text = [text] := by
  have hf : Fields text = [] := (Fields_eq_nil_iff text).mpr hsp
  refine ⟨hf, ?_⟩
  rw [ChunkText_of_no_words c text hf, if_neg hne]

theorem ChunkText_whitespace_only_witness :
    (" \t\n  " : String) ≠ "" ∧ (∀ ch ∈ (" \t\n  " : String).data, isSpace ch = true) ∧
      Fields " \t\n  " = [] ∧ (NewChunker 10 2).ChunkText " \t\n  " = [" \t\n  "] :=
  ⟨by decide, by decide,
    ChunkText_whitespace_only (NewChunker 10 2) " \t\n  " (by decide) (by decide)⟩

/-- C7, as stated, fails: "hello world" has a word and its normalized form is
exactly 11 long, yet with chunkSize 11 `ChunkText` returns the two segments
"hello" and "world", not the one segment "hello world".  The running size counts
a separator after every word, so it stands at 12 when "world" is read. -/
theorem ChunkText_exact_chunkSize_splits :
    Fields "hello world" ≠ [] ∧
      len (Join (Fields "hello world") " ") = (NewChunker 11 0).chunkSize ∧
      (NewChunker 11 0).ChunkText "hello world" = ["hello", "world"] ∧
      (NewChunker 11 0).ChunkText "hello world" ≠ [Join (Fields "hello world") " "] := by
  decide

/-- C7, amended: for a text with at least one word whose normalized form is
exactly chunkSize long, a one-word text gives the one segment that is the
normalized form, and a text of two or more words gives exactly two segments: all
words but the last, joined, and then the overlap words of those followed by the
last word, joined; so it never is the one segment of the normalized form. -/
theorem ChunkText_exact_chunkSize (c : Chunker) (text : String)
    (hw : Fields text ≠ [])
    (heq : len (Join (Fields text) " ") = c.chunkSize) :
    ((Fields text).length = 1 → c.ChunkText text = [Join (Fields text) " "]) ∧
      (2 ≤ (Fields text).length →
        c.ChunkText text
            = [Join (Fields text).dropLast " ",
               Join (c.getOverlapWords (Fields text).dropLast ++ [(Fields text).getLast hw])
                 " "] ∧
          c.ChunkText text ≠ [Join (Fields text) " "]) := by
  rw [len_Join c, calculateSize_of_ne_nil c _ hw] at heq
  rw [ChunkText_eq_map_Join c text hw]
  generalize Fields text = words at hw heq
  refine ⟨?_, ?_⟩
  · intro h1
    obtain ⟨w, rfl⟩ := List.length_eq_one.mp h1
    have hno : ¬ c.closes w [] 0 := by
      unfold Chunker.closes; simp
    rw [segWords_cons, if_neg hno, if_pos rfl, advance_fst, if_neg hno]
    simp
  · intro h2
    have hsplit : c.segWords words [] 0
        = [words.dropLast, c.getOverlapWords words.dropLast ++ [words.getLast hw]] := by
      have hd : words.dropLast ≠ [] := by
        intro h0
        have := List.length_dropLast words
        rw [h0, List.length_nil] at this
        omega
      have hsum : sumSize words
          = sumSize words.dropLast + (len (words.getLast hw) + 1) := by
        conv_lhs => rw [← List.dropLast_append_getLast hw]
        rw [sumSize_append, sumSize_cons, sumSize_nil]
        omega
      have hlen := len_nonneg (words.getLast hw)
      have h := segWords_split_at_last c (words.getLast hw) words.dropLast [] 0
        (by simpa using hd) (by omega) (by omega)
      rw [List.dropLast_append_getLast hw, List.nil_append] at h
      exact h
    rw [hsplit]
    refine ⟨by simp, ?_⟩
    intro h0
    have := congrArg List.length h0
    simp at this

theorem ChunkText_exact_chunkSize_witness :
    Fields "This is exactly 20" ≠ [] ∧
      len (Join (Fields "This is exactly 20") " ") = (NewChunker 18 5).chunkSize ∧
      (((Fields "This is exactly 20").length = 1 →
          (NewChunker 18 5).ChunkText "This is exactly 20"
            = [Join (Fields "This is exactly 20") " "]) ∧
        (2 ≤ (Fields "This is exactly 20").length →
          (NewChunker 18 5).ChunkText "This is exactly 20"
              = [Join (Fields "This is exactly 20").dropLast " ",
                 Join ((NewChunker 18 5).getOverlapWords (Fields "This is exactly 20").dropLast
                   ++ [(Fields "This is exactly 20").getLast (by decide)]) " "] ∧
            (NewChunker 18 5).ChunkText "This is exactly 20"
              ≠ [Join (Fields "This is exactly 20") " "])) ∧
      (NewChunker 18 5).ChunkText "This is exactly 20"
        = ["This is exactly", "This is exactly 20"] :=
  ⟨by decide, by decide,
    ChunkText_exact_chunkSize (NewChunker 18 5) "This is exactly 20" (by decide) (by decide),
    by decide⟩

/-! ## Segments and their predecessors -/

theorem mem_withPrev_of_getElem {α : Type} :
    ∀ (xs : List α) (first : Option α) (k : Nat) (x : α), xs[k]? = some x →
      ((match k with | 0 => first | j + 1 => xs[j]?), x) ∈ withPrev first xs := by
  intro xs
  induction xs with
  | nil => intro first k x h; simp at h
  | cons y ys ih =>
    intro first k x h
    cases k with
    | zero =>
      have : y = x := by simpa using h
      subst this
      simp [withPrev]
    | succ j =>
      have h1 : ys[j]? = some x := by simpa using h
      have h2 := ih (some y) j x h1
      rw [withPrev]
      refine List.mem_cons_of_mem _ ?_
      cases j with
      | zero => simpa using h2
      | succ i => simpa using h2

theorem withPrev_segWords_cons (c : Chunker) (p : Option (List String)) (w : String)
    (rest cur : List String) (sz : Int) :
    withPrev p (c.segWords (w :: rest) cur sz)
      = (if c.closes w cur sz then [(p, cur)] else []) ++
          withPrev (if c.closes w cur sz then some cur else p)
            (if rest = [] then [(c.advance w cur sz).1]
             else c.segWords rest (c.advance w cur sz).1 (c.advance w cur sz).2) := by
  rw [segWords_cons]
  by_cases h : c.closes w cur sz
  · simp [h, withPrev]
  · simp [h]

/-- An invariant of the loop state that every step keeps, and that implies `Q` for
a non-empty pending segment, gives `Q` for every segment and its predecessor. -/
theorem segWords_invariant (c : Chunker)
    (Inv : Option (List String) → List String → Int → Prop)
    (Q : Option (List String) → List String → Prop)
    (hstep : ∀ p cur sz w, Inv p cur sz →
      Inv (if c.closes w cur sz then some cur else p)
        (c.advance w cur sz).1 (c.advance w cur sz).2)
    (hemit : ∀ p cur sz, Inv p cur sz → cur ≠ [] → Q p cur) :
    ∀ (ws : List String) (p : Option (List String)) (cur : List String) (sz : Int),
      Inv p cur sz → ∀ pr ∈ withPrev p (c.segWords ws cur sz), Q pr.1 pr.2 := by
  intro ws
  induction ws with
  | nil => intro p cur sz _ pr hpr; simp [segWords_nil, withPrev] at hpr
  | cons w rest ih =>
    intro p cur sz hinv pr hpr
    rw [withPrev_segWords_cons] at hpr
    rcases List.mem_append.mp hpr with h1 | h1
    · by_cases h : c.closes w cur sz
      · rw [if_pos h] at h1
        have h2 : pr = (p, cur) := by simpa using h1
        subst h2
        exact hemit p cur sz hinv (List.length_pos.mp h.2)
      · rw [if_neg h] at h1; simp at h1
    · have hnext := hstep p cur sz w hinv
      by_cases hr : rest = []
      · rw [if_pos hr] at h1
        have h2 : pr = ((if c.closes w cur sz then some cur else p), (c.advance w cur sz).1) := by
          simpa [withPrev] using h1
        subst h2
        exact hemit _ _ _ hnext (advance_fst_ne_nil c w cur sz)
      · rw [if_neg hr] at h1
        exact ih _ _ _ hnext pr h1

/-! ## Reconstruction of the word stream -/

theorem remainders_eq_stripped (chunkOverlap : Int) (previous : List String)
    (Ls : List (List String)) :
    remainders chunkOverlap previous Ls
      = stripped chunkOverlap (min chunkOverlap (previous.length : Int)).toNat Ls := by
  cases Ls <;> rfl

theorem withoutOverlaps_eq_stripped (chunkOverlap : Int) (Ls : List (List String)) :
    withoutOverlaps chunkOverlap Ls = stripped chunkOverlap 0 Ls := by
  cases Ls <;> simp [withoutOverlaps, stripped]

theorem stripped_segWords (c : Chunker) :
    ∀ (ws cur : List String) (sz : Int) (n : Nat), ws ≠ [] → n ≤ cur.length →
      stripped c.chunkOverlap n (c.segWords ws cur sz) = cur.drop n ++ ws := by
  intro ws
  induction ws with
  | nil => intro cur sz n h; exact absurd rfl h
  | cons w rest ih =>
    intro cur sz n _ hn
    rw [segWords_cons, advance_fst, advance_snd]
    by_cases h : c.closes w cur sz
    · simp only [if_pos h, List.singleton_append, stripped]
      rw [remainders_eq_stripped, ← getOverlapWords_length]
      by_cases hr : rest = []
      · rw [if_pos hr, hr]; simp [stripped, remainders]
      · rw [if_neg hr, ih _ _ _ hr (by simp)]; simp
    · simp only [if_neg h, List.nil_append]
      by_cases hr : rest = []
      · rw [if_pos hr, hr]
        simp [stripped, remainders, List.drop_append_of_le_length hn]
      · rw [if_neg hr, ih _ _ _ hr (by simp; omega)]
        simp [List.drop_append_of_le_length hn]

/-- C2: let W be the (non-empty) list of whitespace-delimited words of the text
and L_0 .. L_{m-1} the word lists of the segments returned by `ChunkText`.
Removing from each L_k, k >= 1, its first min(chunkOverlap, len(L_{k-1})) words and
concatenating L_0 with the remainders, in order, gives exactly W.  (This holds for
every chunkSize and every chunkOverlap; nothing is removed when chunkOverlap is
not positive.) -/
theorem ChunkText_reconstructs_words (c : Chunker) (text : String)
    (hw : Fields text ≠ []) :
    withoutOverlaps c.chunkOverlap ((c.ChunkText text).map Fields) = Fields text := by
  have h := stripped_segWords c (Fields text) [] 0 0 hw (Nat.le_refl _)
  rw [map_Fields_ChunkText c text hw, withoutOverlaps_eq_stripped, h]
  simp

theorem ChunkText_reconstructs_words_witness :
    Fields "one two three four five six seven eight" ≠ [] ∧
      withoutOverlaps (NewChunker 15 2).chunkOverlap
          (((NewChunker 15 2).ChunkText "one two three four five six seven eight").map Fields)
        = Fields "one two three four five six seven eight" :=
  ⟨by decide,
    ChunkText_reconstructs_words (NewChunker 15 2) "one two three four five six seven eight"
      (by decide)⟩

/-! ## Overlap between consecutive segments -/

theorem segWords_carried (c : Chunker) (ws : List String) :
    ∀ pr ∈ withPrev none (c.segWords ws [] 0), ∀ prev, pr.1 = some prev →
      ∃ r, r ≠ [] ∧ pr.2 = c.getOverlapWords prev ++ r := by
  refine segWords_invariant c
    (fun p cur _ => ∀ prev, p = some prev → ∃ r, r ≠ [] ∧ cur = c.getOverlapWords prev ++ r)
    (fun p L => ∀ prev, p = some prev → ∃ r, r ≠ [] ∧ L = c.getOverlapWords prev ++ r)
    ?_ ?_ ws none [] 0 ?_
  · intro p cur sz w hinv prev hprev
    rw [advance_fst]
    by_cases h : c.closes w cur sz
    · rw [if_pos h] at hprev ⊢
      have : cur = prev := by simpa using hprev
      subst this
      exact ⟨[w], by simp, rfl⟩
    · rw [if_neg h] at hprev ⊢
      obtain ⟨r, _, hr⟩ := hinv prev hprev
      exact ⟨r ++ [w], by simp, by rw [hr, List.append_assoc]⟩
  · intro p cur sz hinv _
    exact hinv
  · intro prev hprev
    simp at hprev

/-- The pair of word lists of two consecutive segments of `ChunkText` is a pair of
consecutive entries of the word-level view. -/
theorem consecutive_segments (c : Chunker) (text : String) (k : Nat) (prev next : String)
    (hp : (c.ChunkText text)[k]? = some prev)
    (hn : (c.ChunkText text)[k + 1]? = some next) :
    Fields text ≠ [] ∧
      (some (Fields prev), Fields next) ∈ withPrev none (c.segWords (Fields text) [] 0) := by
  have hw : Fields text ≠ [] := by
    intro h0
    rw [ChunkText_of_no_words c text h0] at hn
    by_cases ht : text = ""
    · rw [if_pos ht] at hn; simp at hn
    · rw [if_neg ht] at hn; simp at hn
  refine ⟨hw, ?_⟩
  have h1 : ((c.ChunkText text).map Fields)[k + 1]? = some (Fields next) := by
    rw [List.getElem?_map, hn]; rfl
  have h2 : ((c.ChunkText text).map Fields)[k]? = some (Fields prev) := by
    rw [List.getElem?_map, hp]; rfl
  have h3 := mem_withPrev_of_getElem _ none (k + 1) _ h1
  simp only [h2] at h3
  rw [map_Fields_ChunkText c text hw] at h3
  exact h3

/-- C4: whenever `ChunkText` returns more than one segment, each segment after
the first begins with exactly the last min(chunkOverlap, number of words of the
previous segment) words of the previous segment, in the same order, and goes on
with at least one more word.  (Stated for every chunkOverlap; the overlap is empty
when chunkOverlap is not positive.) -/
theorem ChunkText_overlap_carried (c : Chunker) (text : String) (k : Nat)
    (prev next : String)
    (hp : (c.ChunkText text)[k]? = some prev)
    (hn : (c.ChunkText text)[k + 1]? = some next) :
    (Fields next).take (min c.chunkOverlap.toNat (Fields prev).length)
        = (Fields prev).drop
            ((Fields prev).length - min c.chunkOverlap.toNat (Fields prev).length) ∧
      min c.chunkOverlap.toNat (Fields prev).length < (Fields next).length := by
  obtain ⟨_, hmem⟩ := consecutive_segments c text k prev next hp hn
  obtain ⟨r, hr, hnext⟩ := segWords_carried c (Fields text) _ hmem (Fields prev) rfl
  have hlen := getOverlapWords_length c (Fields prev)
  have hm : min c.chunkOverlap.toNat (Fields prev).length
      = (c.getOverlapWords (Fields prev)).length := by
    rw [hlen]; omega
  have hr2 : 0 < r.length := List.length_pos.mpr hr
  have hdrop := getOverlapWords_eq_drop c (Fields prev)
  rw [← hlen] at hdrop
  simp only at hnext
  rw [hm, hnext]
  refine ⟨?_, ?_⟩
  · rw [List.take_left', ← hdrop]
    rfl
  · rw [List.length_append]; omega

theorem ChunkText_overlap_carried_witness :
    ((NewChunker 15 2).ChunkText "one two three four five six seven eight")[1]?
        = some "two three four" ∧
      ((NewChunker 15 2).ChunkText "one two three four five six seven eight")[1 + 1]?
        = some "three four five" ∧
      ((Fields "three four five").take
            (min (NewChunker 15 2).chunkOverlap.toNat (Fields "two three four").length)
          = (Fields "two three four").drop
              ((Fields "two three four").length
                - min (NewChunker 15 2).chunkOverlap.toNat (Fields "two three four").length) ∧
        min (NewChunker 15 2).chunkOverlap.toNat (Fields "two three four").length
          < (Fields "three four five").length) :=
  ⟨by decide, by decide,
    ChunkText_overlap_carried (NewChunker 15 2) "one two three four five six seven eight" 1
      "two three four" "three four five" (by decide) (by decide)⟩

/-! ## The size bound -/

/-- A segment of a text with words is the single-space join of its own words. -/
theorem segment_eq_Join (c : Chunker) (text : String) (hw : Fields text ≠ [])
    (seg : String) (hs : seg ∈ c.ChunkText text) :
    seg = Join (Fields seg) " " ∧ Fields seg ∈ c.segWords (Fields text) [] 0 := by
  rw [ChunkText_eq_map_Join c text hw] at hs
  obtain ⟨L, hL, rfl⟩ := List.mem_map.mp hs
  have h := Fields_Join L (segWords_Fields_isWord c text L hL)
  rw [h]
  exact ⟨rfl, hL⟩

/-- The word list of the `k`-th segment, paired with the word list of the segment
before it, is an entry of the word-level view. -/
theorem segment_with_previous (c : Chunker) (text : String) (hw : Fields text ≠ [])
    (k : Nat) (seg : String) (hs : (c.ChunkText text)[k]? = some seg) :
    (previousWords (c.ChunkText text) k, Fields seg)
      ∈ withPrev none (c.segWords (Fields text) [] 0) := by
  have h1 : ((c.ChunkText text).map Fields)[k]? = some (Fields seg) := by
    rw [List.getElem?_map, hs]; rfl
  have h3 := mem_withPrev_of_getElem _ none k _ h1
  rw [map_Fields_ChunkText c text hw] at h3
  cases k with
  | zero => exact h3
  | succ j =>
    have h4 : (c.segWords (Fields text) [] 0)[j]? = ((c.ChunkText text)[j]?).map Fields := by
      rw [← map_Fields_ChunkText c text hw, List.getElem?_map]
    simp only at h3
    show (((c.ChunkText text)[j]?).map Fields, Fields seg) ∈ _
    rw [← h4]
    exact h3

theorem segWords_size (c : Chunker) (ws : List String) :
    ∀ pr ∈ withPrev none (c.segWords ws [] 0),
      c.calculateSize pr.2 ≤ c.chunkSize ∨ ∃ w, pr.2 = c.carried pr.1 ++ [w] := by
  refine segWords_invariant c
    (fun p cur sz => (cur = [] → sz = 0 ∧ p = none) ∧
      (cur ≠ [] → sumSize cur - 1 ≤ sz ∧ (sz ≤ c.chunkSize ∨ ∃ w, cur = c.carried p ++ [w])))
    (fun p L => c.calculateSize L ≤ c.chunkSize ∨ ∃ w, L = c.carried p ++ [w])
    ?_ ?_ ws none [] 0 ?_
  · intro p cur sz w hinv
    have hlw := len_nonneg w
    refine ⟨fun h0 => absurd h0 (advance_fst_ne_nil c w cur sz), fun _ => ?_⟩
    rw [advance_fst, advance_snd]
    by_cases h : c.closes w cur sz
    · simp only [if_pos h]
      refine ⟨?_, Or.inr ⟨w, rfl⟩⟩
      rw [sumSize_append, sumSize_cons, sumSize_nil, calculateSize_eq]
      by_cases he : c.getOverlapWords cur = []
      · rw [if_pos he, he, sumSize_nil]; omega
      · rw [if_neg he]; omega
    · simp only [if_neg h]
      rw [sumSize_append, sumSize_cons, sumSize_nil]
      by_cases hc : cur = []
      · obtain ⟨hsz, hp⟩ := hinv.1 hc
        subst hc
        refine ⟨by rw [sumSize_nil]; omega, Or.inr ⟨w, ?_⟩⟩
        rw [hp]; rfl
      · obtain ⟨hsz, _⟩ := hinv.2 hc
        have hpos : cur.length > 0 := List.length_pos.mpr hc
        have hfit : ¬ (sz + (len w + 1) > c.chunkSize) := fun hgt => h ⟨hgt, hpos⟩
        exact ⟨by omega, Or.inl (by omega)⟩
  · intro p cur sz hinv hc
    obtain ⟨hsz, hor⟩ := hinv.2 hc
    rcases hor with h1 | h1
    · left
      rw [calculateSize_of_ne_nil c cur hc]; omega
    · right; exact h1
  · exact ⟨fun _ => ⟨rfl, rfl⟩, fun h => absurd rfl h⟩

/-- C3 (as stated, refuted): with chunkSize 15 and chunkOverlap 5 the text
"one two three four five six seven eight" has a segment of more than one word
whose `calculateSize` exceeds chunkSize. -/
theorem ChunkText_size_bound_fails_with_overlap :
    ¬ (∀ seg ∈ (NewChunker 15 5).ChunkText "one two three four five six seven eight",
        ((Fields seg).length = 1 ∧ (NewChunker 15 5).chunkSize < len seg) ∨
          (NewChunker 15 5).calculateSize (Fields seg) ≤ (NewChunker 15 5).chunkSize) := by
  decide

/-- C3 (amended): for every text, chunkOverlap and chunkSize (chunkSize
non-negative, or the text has at least one word), each segment returned by
`ChunkText` has calculateSize(words of the segment) <= chunkSize, or is a single
word longer than chunkSize (only for the first segment or when chunkOverlap <= 0),
or (only when chunkOverlap > 0, after the first segment) consists of the overlap
words of the previous segment followed by exactly one more word. -/
theorem ChunkText_size_bound (c : Chunker) (text : String)
    (hc : 0 ≤ c.chunkSize ∨ Fields text ≠ [])
    (k : Nat) (seg : String) (hs : (c.ChunkText text)[k]? = some seg) :
    c.calculateSize (Fields seg) ≤ c.chunkSize ∨
      ((Fields seg).length = 1 ∧ c.chunkSize < len seg ∧ (k = 0 ∨ c.chunkOverlap ≤ 0)) ∨
      (0 < c.chunkOverlap ∧ ∃ j prev w, k = j + 1 ∧ (c.ChunkText text)[j]? = some prev ∧
        Fields seg = c.getOverlapWords (Fields prev) ++ [w]) := by
  by_cases hw : Fields text = []
  · left
    rw [ChunkText_of_no_words c text hw] at hs
    by_cases ht : text = ""
    · rw [if_pos ht] at hs; simp at hs
    · rw [if_neg ht] at hs
      have hseg : seg = text := by
        cases k with
        | zero => simpa using hs.symm
        | succ j => simp at hs
      rw [hseg, hw, calculateSize_nil]
      rcases hc with h1 | h1
      · exact h1
      · exact absurd hw h1
  · have hmem := segment_with_previous c text hw k seg hs
    have hseg := (segment_eq_Join c text hw seg (List.getElem?_mem hs)).1
    rcases segWords_size c (Fields text) _ hmem with h1 | ⟨w, h1⟩
    · exact Or.inl h1
    · by_cases hle : c.calculateSize (Fields seg) ≤ c.chunkSize
      · exact Or.inl hle
      · right
        have hlen : c.chunkSize < len seg := by
          rw [hseg, len_Join c]; omega
        simp only at h1
        cases k with
        | zero =>
          left
          have h2 : Fields seg = [w] := h1
          exact ⟨by rw [h2]; rfl, hlen, Or.inl rfl⟩
        | succ j =>
          have hj : j < (c.ChunkText text).length := by
            have := (List.getElem?_eq_some_iff.mp hs).1
            omega
          have h2 : Fields seg = c.getOverlapWords (Fields (c.ChunkText text)[j]) ++ [w] := by
            rw [h1, previousWords, List.getElem?_eq_getElem hj]; rfl
          by_cases ho : c.chunkOverlap ≤ 0
          · left
            rw [getOverlapWords_of_nonpos c _ ho] at h2
            exact ⟨by rw [h2]; rfl, hlen, Or.inr ho⟩
          · right
            exact ⟨by omega, j, (c.ChunkText text)[j], w, rfl, List.getElem?_eq_getElem hj, h2⟩

theorem ChunkText_size_bound_witness :
    (0 ≤ (NewChunker 15 5).chunkSize ∨
        Fields "one two three four five six seven eight" ≠ []) ∧
      ((NewChunker 15 5).ChunkText "one two three four five six seven eight")[1]?
        = some "one two three four" ∧
      ((NewChunker 15 5).calculateSize (Fields "one two three four")
          ≤ (NewChunker 15 5).chunkSize ∨
        ((Fields "one two three four").length = 1 ∧
          (NewChunker 15 5).chunkSize < len "one two three four" ∧
          (1 = 0 ∨ (NewChunker 15 5).chunkOverlap ≤ 0)) ∨
        (0 < (NewChunker 15 5).chunkOverlap ∧ ∃ j prev w, 1 = j + 1 ∧
          ((NewChunker 15 5).ChunkText "one two three four five six seven eight")[j]?
            = some prev ∧
          Fields "one two three four"
            = (NewChunker 15 5).getOverlapWords (Fields prev) ++ [w])) :=
  ⟨by decide, by decide,
    ChunkText_size_bound (NewChunker 15 5) "one two three four five six seven eight"
      (by decide) 1 "one two three four" (by decide)⟩

/-! ## Words longer than chunkSize -/

theorem getElem_of_mem_withPrev {α : Type} :
    ∀ (xs : List α) (first : Option α) (pr : Option α × α), pr ∈ withPrev first xs →
      ∃ k, xs[k]? = some pr.2 ∧ pr.1 = (match k with | 0 => first | j + 1 => xs[j]?) := by
  intro xs
  induction xs with
  | nil => intro first pr h; simp [withPrev] at h
  | cons y ys ih =>
    intro first pr h
    rw [withPrev] at h
    rcases List.mem_cons.mp h with h1 | h1
    · subst h1
      exact ⟨0, by simp, rfl⟩
    · obtain ⟨k, hk1, hk2⟩ := ih (some y) pr h1
      refine ⟨k + 1, by simpa using hk1, ?_⟩
      cases k with
      | zero => simpa using hk2
      | succ i => simpa using hk2

theorem calculateSize_nonneg (c : Chunker) (ws : List String) : 0 ≤ c.calculateSize ws := by
  rw [calculateSize_eq]
  by_cases h : ws = []
  · rw [if_pos h]
  · rw [if_neg h]; have := sumSize_pos ws h; omega

theorem advance_snd_nonneg (c : Chunker) (w : String) (cur : List String) (sz : Int)
    (hsz : 0 ≤ sz) : len w + 1 ≤ (c.advance w cur sz).2 := by
  rw [advance_snd]
  by_cases h : c.closes w cur sz
  · rw [if_pos h]; have := calculateSize_nonneg c (c.getOverlapWords cur); omega
  · rw [if_neg h]; omega

/-- A pending segment whose running size exceeds chunkSize is closed as it is. -/
theorem segWords_pending (c : Chunker) (p : Option (List String)) (ws cur : List String)
    (sz : Int) (hws : ws ≠ []) (hcur : cur ≠ []) (hsz : c.chunkSize < sz) :
    (p, cur) ∈ withPrev p (c.segWords ws cur sz) := by
  cases ws with
  | nil => exact absurd rfl hws
  | cons v rest =>
    have hv := len_nonneg v
    have hcl : c.closes v cur sz := ⟨by omega, List.length_pos.mpr hcur⟩
    rw [withPrev_segWords_cons, if_pos hcl]
    simp

theorem segWords_long_word (c : Chunker) (w : String) (hl : c.chunkSize < len w) :
    ∀ (ws : List String) (p : Option (List String)) (cur : List String) (sz : Int),
      0 ≤ sz → (cur = [] → p = none) → w ∈ ws →
        ∃ pr ∈ withPrev p (c.segWords ws cur sz), pr.2 = c.carried pr.1 ++ [w] := by
  intro ws
  induction ws with
  | nil => intro p cur sz _ _ hw; simp at hw
  | cons v rest ih =>
    intro p cur sz hsz hp hw
    rw [withPrev_segWords_cons]
    have hadv := advance_snd_nonneg c v cur sz hsz
    have hv := len_nonneg v
    rcases List.mem_cons.mp hw with h1 | h1
    · subst h1
      have hshape : (c.advance w cur sz).1
          = c.carried (if c.closes w cur sz then some cur else p) ++ [w] := by
        rw [advance_fst]
        by_cases h : c.closes w cur sz
        · rw [if_pos h, if_pos h]; rfl
        · rw [if_neg h, if_neg h]
          have hc : cur = [] := by
            by_contra hne
            exact h ⟨by omega, List.length_pos.mpr hne⟩
          rw [hp hc, hc]; rfl
      refine ⟨((if c.closes w cur sz then some cur else p), (c.advance w cur sz).1), ?_, hshape⟩
      refine List.mem_append_right _ ?_
      by_cases hr : rest = []
      · rw [if_pos hr]; simp [withPrev]
      · rw [if_neg hr]
        exact segWords_pending c _ rest _ _ hr (advance_fst_ne_nil c w cur sz) (by omega)
    · have hr : rest ≠ [] := List.ne_nil_of_mem h1
      rw [if_neg hr]
      obtain ⟨pr, hpr, hshape⟩ := ih (if c.closes v cur sz then some cur else p)
        (c.advance v cur sz).1 (c.advance v cur sz).2 (by omega)
        (fun h0 => absurd h0 (advance_fst_ne_nil c v cur sz)) h1
      exact ⟨pr, List.mem_append_right _ hpr, hshape⟩

/-- C5 (as stated, refuted): with chunkSize 5 and chunkOverlap 1 the word
"verylongword" of the text "ab verylongword" is longer than chunkSize, and no
segment of the output equals it. -/
theorem ChunkText_long_word_not_own_segment :
    ¬ (∀ w ∈ Fields "ab verylongword", (NewChunker 5 1).chunkSize < len w →
        w ∈ (NewChunker 5 1).ChunkText "ab verylongword") := by
  decide

/-- C5 (amended): each word of the text whose length exceeds chunkSize is never
split: the output of `ChunkText` has a segment that ends with that word, and the
words before it in the segment are exactly the overlap words of the previous
segment (none in the first segment).  When chunkOverlap <= 0 the word is emitted
as its own segment: the output contains a segment equal to the word verbatim. -/
theorem ChunkText_long_word (c : Chunker) (text : String) (w : String)
    (hw : w ∈ Fields text) (hl : c.chunkSize < len w) :
    (∃ k seg, (c.ChunkText text)[k]? = some seg ∧
        ((k = 0 ∧ seg = w) ∨
          ∃ j prev, k = j + 1 ∧ (c.ChunkText text)[j]? = some prev ∧
            Fields seg = c.getOverlapWords (Fields prev) ++ [w])) ∧
      (c.chunkOverlap ≤ 0 → w ∈ c.ChunkText text) := by
  have hne : Fields text ≠ [] := List.ne_nil_of_mem hw
  obtain ⟨pr, hpr, hshape⟩ :=
    segWords_long_word c w hl (Fields text) none [] 0 (le_refl _) (fun _ => rfl) hw
  obtain ⟨k, hk1, hk2⟩ := getElem_of_mem_withPrev _ none pr hpr
  rw [← map_Fields_ChunkText c text hne, List.getElem?_map] at hk1
  obtain ⟨seg, hseg, hF⟩ := Option.map_eq_some'.mp hk1
  have hJ := (segment_eq_Join c text hne seg (List.getElem?_mem hseg)).1
  have hone : Fields seg = [w] → seg = w := by
    intro h; rw [hJ, h]; rfl
  cases k with
  | zero =>
    have hp : pr.1 = none := hk2
    rw [hp] at hshape
    have h1 : Fields seg = [w] := by rw [hF, hshape]; rfl
    exact ⟨⟨0, seg, hseg, Or.inl ⟨rfl, hone h1⟩⟩,
      fun _ => by rw [← hone h1]; exact List.getElem?_mem hseg⟩
  | succ j =>
    have hj : j < (c.ChunkText text).length := by
      have := (List.getElem?_eq_some_iff.mp hseg).1
      omega
    have hp : pr.1 = some (Fields (c.ChunkText text)[j]) := by
      rw [hk2]
      show (c.segWords (Fields text) [] 0)[j]? = _
      rw [← map_Fields_ChunkText c text hne, List.getElem?_map, List.getElem?_eq_getElem hj]
      rfl
    rw [hp] at hshape
    have h1 : Fields seg = c.getOverlapWords (Fields (c.ChunkText text)[j]) ++ [w] := by
      rw [hF, hshape]; rfl
    refine ⟨⟨j + 1, seg, hseg, Or.inr ⟨j, _, rfl, List.getElem?_eq_getElem hj, h1⟩⟩, ?_⟩
    intro ho
    rw [getOverlapWords_of_nonpos c _ ho] at h1
    rw [← hone h1]; exact List.getElem?_mem hseg

theorem ChunkText_long_word_witness :
    "verylongword" ∈ Fields "ab verylongword cd" ∧
      (NewChunker 5 1).chunkSize < len "verylongword" ∧
      ((∃ k seg, ((NewChunker 5 1).ChunkText "ab verylongword cd")[k]? = some seg ∧
          ((k = 0 ∧ seg = "verylongword") ∨
            ∃ j prev, k = j + 1 ∧
              ((NewChunker 5 1).ChunkText "ab verylongword cd")[j]? = some prev ∧
              Fields seg = (NewChunker 5 1).getOverlapWords (Fields prev) ++ ["verylongword"])) ∧
        ((NewChunker 5 1).chunkOverlap ≤ 0 →
          "verylongword" ∈ (NewChunker 5 1).ChunkText "ab verylongword cd")) :=
  ⟨by decide, by decide,
    ChunkText_long_word (NewChunker 5 1) "ab verylongword cd" "verylongword"
      (by decide) (by decide)⟩

/-! ## Greedy packing without overlap -/

theorem remainders_eq_flatten (chunkOverlap : Int) (h : chunkOverlap ≤ 0) :
    ∀ (Ls : List (List String)) (previous : List String),
      remainders chunkOverlap previous Ls = Ls.flatten := by
  intro Ls
  induction Ls with
  | nil => intro previous; rfl
  | cons L Ls ih =>
    intro previous
    have h1 : (min chunkOverlap (previous.length : Int)).toNat = 0 := by omega
    rw [remainders, h1, ih]; simp

theorem segWords_flatten (c : Chunker) (h : c.chunkOverlap ≤ 0) (ws : List String)
    (hws : ws ≠ []) : (c.segWords ws [] 0).flatten = ws := by
  have h1 := stripped_segWords c ws [] 0 0 hws (Nat.le_refl _)
  rw [← withoutOverlaps_eq_stripped] at h1
  cases hL : c.segWords ws [] 0 with
  | nil => exact absurd hL (segWords_ne_nil c ws [] 0 hws)
  | cons L Ls =>
    rw [hL, withoutOverlaps, remainders_eq_flatten _ h] at h1
    simpa using h1

theorem segWords_greedy (c : Chunker) (h0 : c.chunkOverlap ≤ 0) (ws : List String) :
    ∀ pr ∈ withPrev none (c.segWords ws [] 0),
      (pr.2.length = 1 ∨ sumSize pr.2 ≤ c.chunkSize) ∧
        ∀ prev, pr.1 = some prev →
          ∃ v r, pr.2 = v :: r ∧ c.chunkSize < sumSize prev + (len v + 1) := by
  refine segWords_invariant c
    (fun p cur sz => sz = sumSize cur ∧ (cur.length ≤ 1 ∨ sumSize cur ≤ c.chunkSize) ∧
      ∀ prev, p = some prev → ∃ v r, cur = v :: r ∧ c.chunkSize < sumSize prev + (len v + 1))
    (fun p L => (L.length = 1 ∨ sumSize L ≤ c.chunkSize) ∧
      ∀ prev, p = some prev → ∃ v r, L = v :: r ∧ c.chunkSize < sumSize prev + (len v + 1))
    ?_ ?_ ws none [] 0 ?_
  · intro p cur sz w hinv
    obtain ⟨hsz, hfit, hprev⟩ := hinv
    rw [advance_fst, advance_snd]
    by_cases h : c.closes w cur sz
    · simp only [if_pos h, getOverlapWords_of_nonpos c cur h0, calculateSize_nil,
        List.nil_append]
      refine ⟨by rw [sumSize_cons, sumSize_nil]; omega, Or.inl (by simp), ?_⟩
      intro prev hp
      have : cur = prev := by simpa using hp
      subst this
      have h1 := h.1
      exact ⟨w, [], rfl, by omega⟩
    · simp only [if_neg h]
      refine ⟨by rw [sumSize_append, sumSize_cons, sumSize_nil]; omega, ?_, ?_⟩
      · by_cases hc : cur = []
        · left; rw [hc]; simp
        · right
          have hpos : cur.length > 0 := List.length_pos.mpr hc
          have hfit2 : ¬ (sz + (len w + 1) > c.chunkSize) := fun hgt => h ⟨hgt, hpos⟩
          rw [sumSize_append, sumSize_cons, sumSize_nil]; omega
      · intro prev hp
        obtain ⟨v, r, hv, hgt⟩ := hprev prev hp
        exact ⟨v, r ++ [w], by rw [hv]; rfl, hgt⟩
  · intro p cur sz hinv hc
    obtain ⟨_, hfit, hprev⟩ := hinv
    refine ⟨?_, hprev⟩
    rcases hfit with h1 | h1
    · left
      have : 0 < cur.length := List.length_pos.mpr hc
      omega
    · right; exact h1
  · exact ⟨rfl, Or.inl (by simp), fun prev hp => by simp at hp⟩

/-- C6: with chunkOverlap = 0, `ChunkText` is the greedy packing of the word
stream: the word lists of the segments, concatenated in order, are the words of
the text; every segment is a single word or has sum(len(word)+1) over its words
<= chunkSize (chunkSize non-negative, or the text has a word); and for every
segment but the last, adding the first word of the next segment would make that
sum exceed chunkSize.  In particular
`NewChunker(10, 0).ChunkText("one two three four five six")` is
`["one two", "three", "four five", "six"]`. -/
theorem ChunkText_greedy_packing (chunkSize : Int) (text : String) :
    (((NewChunker chunkSize 0).ChunkText text).map Fields).flatten = Fields text ∧
      (0 ≤ chunkSize ∨ Fields text ≠ [] →
        ∀ seg ∈ (NewChunker chunkSize 0).ChunkText text,
          (Fields seg).length = 1 ∨ sumSize (Fields seg) ≤ chunkSize) ∧
      (∀ k prev next, ((NewChunker chunkSize 0).ChunkText text)[k]? = some prev →
        ((NewChunker chunkSize 0).ChunkText text)[k + 1]? = some next →
          ∃ v rest, Fields next = v :: rest ∧
            chunkSize < sumSize (Fields prev) + (len v + 1)) ∧
      (NewChunker 10 0).ChunkText "one two three four five six"
        = ["one two", "three", "four five", "six"] := by
  have h0 : (NewChunker chunkSize 0).chunkOverlap ≤ 0 := le_refl _
  refine ⟨?_, ?_, ?_, by decide⟩
  · by_cases hw : Fields text = []
    · rw [ChunkText_of_no_words _ text hw]
      by_cases ht : text = ""
      · rw [if_pos ht, hw]; rfl
      · rw [if_neg ht]; simp [hw]
    · rw [map_Fields_ChunkText _ text hw]
      exact segWords_flatten _ h0 _ hw
  · intro hc seg hseg
    by_cases hw : Fields text = []
    · right
      rw [ChunkText_of_no_words _ text hw] at hseg
      by_cases ht : text = ""
      · rw [if_pos ht] at hseg; simp at hseg
      · rw [if_neg ht] at hseg
        have h1 : seg = text := by simpa using hseg
        rw [h1, hw, sumSize_nil]
        rcases hc with h2 | h2
        · exact h2
        · exact absurd hw h2
    · obtain ⟨k, hk⟩ := List.getElem?_of_mem hseg
      have hmem := segment_with_previous _ text hw k seg hk
      exact (segWords_greedy _ h0 _ _ hmem).1
  · intro k prev next hp hn
    obtain ⟨_, hmem⟩ := consecutive_segments _ text k prev next hp hn
    exact (segWords_greedy _ h0 _ _ hmem).2 (Fields prev) rfl

theorem ChunkText_greedy_packing_witness :
    (((NewChunker 10 0).ChunkText "one two three four five six").map Fields).flatten
        = Fields "one two three four five six" ∧
      (0 ≤ (10 : Int) ∨ Fields "one two three four five six" ≠ [] →
        ∀ seg ∈ (NewChunker 10 0).ChunkText "one two three four five six",
          (Fields seg).length = 1 ∨ sumSize (Fields seg) ≤ 10) ∧
      (∀ k prev next,
        ((NewChunker 10 0).ChunkText "one two three four five six")[k]? = some prev →
        ((NewChunker 10 0).ChunkText "one two three four five six")[k + 1]? = some next →
          ∃ v rest, Fields next = v :: rest ∧
            (10 : Int) < sumSize (Fields prev) + (len v + 1)) ∧
      (NewChunker 10 0).ChunkText "one two three four five six"
        = ["one two", "three", "four five", "six"] :=
  ⟨(ChunkText_greedy_packing 10 "one two three four five six").1,
    fun _ => (ChunkText_greedy_packing 10 "one two three four five six").2.1
      (Or.inl (by decide)),
    (ChunkText_greedy_packing 10 "one two three four five six").2.2⟩


/-! ## The loop of `Ingest` -/

theorem ingestLoop_nil {σ F : Type} (p : Pipeline σ F) (now : σ → Int × σ) (docID : String)
    (i : Nat) (pts : List (PointStruct F)) (s : σ) :
    p.ingestLoop now docID [] i pts s = { value := .ok pts, state := s, events := [] } := rfl

theorem ingestLoop_cons_error {σ F : Type} (p : Pipeline σ F) (now : σ → Int × σ)
    (docID chunk : String) (rest : List String) (i : Nat) (pts : List (PointStruct F))
    (s s1 : σ) (err : Error)
    (hg : p.llmClient.GenerateEmbedding chunk s = (.error err, s1)) :
    p.ingestLoop now docID (chunk :: rest) i pts s =
      { value := .error ("failed to generate embedding for chunk " ++ toString i ++ ": " ++ err)
        state := s1
        events := [Event.GenerateEmbedding chunk (.error err)] } := by
  rw [Pipeline.ingestLoop]
  simp only [hg]

theorem ingestLoop_cons_ok_docID {σ F : Type} (p : Pipeline σ F) (now : σ → Int × σ)
    (docID chunk : String) (rest : List String) (i : Nat) (pts : List (PointStruct F))
    (s s1 : σ) (emb : List F)
    (hg : p.llmClient.GenerateEmbedding chunk s = (.ok emb, s1)) (hd : docID ≠ "") :
    p.ingestLoop now docID (chunk :: rest) i pts s =
      { value := (p.ingestLoop now docID rest (i + 1)
          (pts ++ [{ Id := i, Vectors := emb, Payload := pointPayload chunk docID i }]) s1).value
        state := (p.ingestLoop now docID rest (i + 1)
          (pts ++ [{ Id := i, Vectors := emb, Payload := pointPayload chunk docID i }]) s1).state
        events := Event.GenerateEmbedding chunk (.ok emb) ::
          (p.ingestLoop now docID rest (i + 1)
            (pts ++ [{ Id := i, Vectors := emb, Payload := pointPayload chunk docID i }])
            s1).events } := by
  rw [Pipeline.ingestLoop]
  simp only [hg, if_pos hd, List.nil_append]

theorem ingestLoop_cons_ok_clock {σ F : Type} (p : Pipeline σ F) (now : σ → Int × σ)
    (chunk : String) (rest : List String) (i : Nat) (pts : List (PointStruct F))
    (s s1 : σ) (emb : List F)
    (hg : p.llmClient.GenerateEmbedding chunk s = (.ok emb, s1)) :
    p.ingestLoop now "" (chunk :: rest) i pts s =
      { value := (p.ingestLoop now "" rest (i + 1)
          (pts ++ [{ Id := (uint64 (now s1).1 + i) % 2 ^ 64, Vectors := emb,
                     Payload := pointPayload chunk "" i }]) (now s1).2).value
        state := (p.ingestLoop now "" rest (i + 1)
          (pts ++ [{ Id := (uint64 (now s1).1 + i) % 2 ^ 64, Vectors := emb,
                     Payload := pointPayload chunk "" i }]) (now s1).2).state
        events := Event.GenerateEmbedding chunk (.ok emb) :: Event.Now (now s1).1 ::
          (p.ingestLoop now "" rest (i + 1)
            (pts ++ [{ Id := (uint64 (now s1).1 + i) % 2 ^ 64, Vectors := emb,
                       Payload := pointPayload chunk "" i }]) (now s1).2).events } := by
  rw [Pipeline.ingestLoop]
  simp only [hg, ne_eq, not_true_eq_false, if_false, List.singleton_append]

theorem embedCalls_cons_embed {F : Type} (text : String) (result : Except Error (List F))
    (es : List (Event F)) :
    embedCalls (Event.GenerateEmbedding text result :: es) = (text, result) :: embedCalls es :=
  rfl

theorem embedCalls_cons_now {F : Type} (t : Int) (es : List (Event F)) :
    embedCalls (Event.Now t :: es) = embedCalls es := rfl

theorem upsertCalls_cons_embed {F : Type} (text : String) (result : Except Error (List F))
    (es : List (Event F)) :
    upsertCalls (Event.GenerateEmbedding text result :: es) = upsertCalls es := rfl

theorem upsertCalls_cons_now {F : Type} (t : Int) (es : List (Event F)) :
    upsertCalls (Event.Now t :: es) = upsertCalls es := rfl

theorem clockReadings_cons_embed {F : Type} (text : String) (result : Except Error (List F))
    (es : List (Event F)) :
    clockReadings (Event.GenerateEmbedding text result :: es) = clockReadings es := rfl

theorem clockReadings_cons_now {F : Type} (t : Int) (es : List (Event F)) :
    clockReadings (Event.Now t :: es) = t :: clockReadings es := rfl

/-- The loop of `Ingest` never calls `UpsertPoints`. -/
theorem ingestLoop_upsertCalls {σ F : Type} (p : Pipeline σ F) (now : σ → Int × σ)
    (docID : String) :
    ∀ (chunks : List String) (i : Nat) (pts : List (PointStruct F)) (s : σ),
      upsertCalls (p.ingestLoop now docID chunks i pts s).events = [] := by
  intro chunks
  induction chunks with
  | nil => intro i pts s; rfl
  | cons chunk rest ih =>
    intro i pts s
    cases hg : p.llmClient.GenerateEmbedding chunk s with
    | mk res s1 =>
      cases res with
      | error err => rw [ingestLoop_cons_error p now docID chunk rest i pts s s1 err hg]; rfl
      | ok emb =>
        by_cases hd : docID = ""
        · subst hd
          rw [ingestLoop_cons_ok_clock p now chunk rest i pts s s1 emb hg]
          simp only [upsertCalls_cons_embed, upsertCalls_cons_now]
          exact ih _ _ _
        · rw [ingestLoop_cons_ok_docID p now docID chunk rest i pts s s1 emb hg hd]
          simp only [upsertCalls_cons_embed]
          exact ih _ _ _

/-- A run of the loop that ends with an error: the embeddings of the chunks before
some chunk were given, the embedding of that chunk failed and was the last one
requested, and the error names the index of that chunk. -/
theorem ingestLoop_error {σ F : Type} (p : Pipeline σ F) (now : σ → Int × σ)
    (docID : String) :
    ∀ (chunks : List String) (i : Nat) (pts : List (PointStruct F)) (s : σ) (msg : Error),
      (p.ingestLoop now docID chunks i pts s).value = .error msg →
      ∃ pre seg post embs err, chunks = pre ++ seg :: post ∧ embs.length = pre.length ∧
        embedCalls (p.ingestLoop now docID chunks i pts s).events
          = okCalls pre embs ++ [(seg, .error err)] ∧
        msg = "failed to generate embedding for chunk " ++ toString (i + pre.length)
                ++ ": " ++ err := by
  intro chunks
  induction chunks with
  | nil => intro i pts s msg h; rw [ingestLoop_nil] at h; cases h
  | cons chunk rest ih =>
    intro i pts s msg h
    cases hg : p.llmClient.GenerateEmbedding chunk s with
    | mk res s1 =>
      cases res with
      | error err =>
        rw [ingestLoop_cons_error p now docID chunk rest i pts s s1 err hg] at h ⊢
        have hm : msg = "failed to generate embedding for chunk " ++ toString i ++ ": " ++ err := by
          simp only [Except.error.injEq] at h
          exact h.symm
        exact ⟨[], chunk, rest, [], err, rfl, rfl, rfl, by simpa using hm⟩
      | ok emb =>
        by_cases hd : docID = ""
        · subst hd
          rw [ingestLoop_cons_ok_clock p now chunk rest i pts s s1 emb hg] at h ⊢
          obtain ⟨pre, seg, post, embs, err, h1, h2, h3, h4⟩ := ih _ _ _ msg h
          refine ⟨chunk :: pre, seg, post, emb :: embs, err, by rw [h1]; rfl, by simp [h2], ?_, ?_⟩
          · simp only [embedCalls_cons_embed, embedCalls_cons_now]
            rw [h3]; rfl
          · rw [h4, List.length_cons]
            have : i + 1 + pre.length = i + (pre.length + 1) := by omega
            rw [this]
        · rw [ingestLoop_cons_ok_docID p now docID chunk rest i pts s s1 emb hg hd] at h ⊢
          obtain ⟨pre, seg, post, embs, err, h1, h2, h3, h4⟩ := ih _ _ _ msg h
          refine ⟨chunk :: pre, seg, post, emb :: embs, err, by rw [h1]; rfl, by simp [h2], ?_, ?_⟩
          · simp only [embedCalls_cons_embed]
            rw [h3]; rfl
          · rw [h4, List.length_cons]
            have : i + 1 + pre.length = i + (pre.length + 1) := by omega
            rw [this]

/-- A run of the loop that ends without error: one point was added for every
chunk, in order, with the embedding given for the chunk, its payload, and its id. -/
theorem ingestLoop_ok {σ F : Type} (p : Pipeline σ F) (now : σ → Int × σ)
    (docID : String) :
    ∀ (chunks : List String) (i : Nat) (pts : List (PointStruct F)) (s : σ)
      (out : List (PointStruct F)),
      (p.ingestLoop now docID chunks i pts s).value = .ok out →
      ∃ new, out = pts ++ new ∧ new.length = chunks.length ∧
        embedCalls (p.ingestLoop now docID chunks i pts s).events
          = okCalls chunks (new.map (fun point => point.Vectors)) ∧
        new.map (fun point => point.Payload)
          = List.zipWith (fun chunk k => pointPayload chunk docID k) chunks
              (List.range' i chunks.length) ∧
        (docID ≠ "" → new.map (fun point => point.Id) = List.range' i chunks.length ∧
          clockReadings (p.ingestLoop now docID chunks i pts s).events = []) ∧
        (docID = "" →
          (clockReadings (p.ingestLoop now docID chunks i pts s).events).length
            = chunks.length ∧
          new.map (fun point => point.Id)
            = List.zipWith (fun t k => (uint64 t + k) % 2 ^ 64)
                (clockReadings (p.ingestLoop now docID chunks i pts s).events)
                (List.range' i chunks.length)) := by
  intro chunks
  induction chunks with
  | nil =>
    intro i pts s out h
    rw [ingestLoop_nil] at h ⊢
    have h1 : pts = out := by simpa using h
    subst h1
    exact ⟨[], by simp, rfl, rfl, rfl, fun _ => ⟨rfl, rfl⟩, fun _ => ⟨rfl, rfl⟩⟩
  | cons chunk rest ih =>
    intro i pts s out h
    cases hg : p.llmClient.GenerateEmbedding chunk s with
    | mk res s1 =>
      cases res with
      | error err =>
        rw [ingestLoop_cons_error p now docID chunk rest i pts s s1 err hg] at h
        cases h
      | ok emb =>
        by_cases hd : docID = ""
        · subst hd
          rw [ingestLoop_cons_ok_clock p now chunk rest i pts s s1 emb hg] at h ⊢
          obtain ⟨new, h1, h2, h3, h4, _, h6⟩ := ih _ _ _ out h
          obtain ⟨h6a, h6b⟩ := h6 rfl
          refine ⟨{ Id := (uint64 (now s1).1 + i) % 2 ^ 64, Vectors := emb,
                    Payload := pointPayload chunk "" i } :: new,
            by rw [h1]; simp, by simp [h2], ?_, ?_,
            fun hne => absurd rfl hne, fun _ => ⟨?_, ?_⟩⟩
          · simp only [embedCalls_cons_embed, embedCalls_cons_now, h3]
            rfl
          · simp only [List.map_cons, h4, List.length_cons, List.range'_succ, List.zipWith_cons_cons]
          · simp only [clockReadings_cons_embed, clockReadings_cons_now, List.length_cons, h6a]
          · simp only [List.map_cons, h6b, clockReadings_cons_embed, clockReadings_cons_now,
              List.length_cons, List.range'_succ, List.zipWith_cons_cons]
        · rw [ingestLoop_cons_ok_docID p now docID chunk rest i pts s s1 emb hg hd] at h ⊢
          obtain ⟨new, h1, h2, h3, h4, h5, _⟩ := ih _ _ _ out h
          obtain ⟨h5a, h5b⟩ := h5 hd
          refine ⟨{ Id := i, Vectors := emb, Payload := pointPayload chunk docID i } :: new,
            by rw [h1]; simp, by simp [h2], ?_, ?_,
            fun _ => ⟨?_, ?_⟩, fun he => absurd he hd⟩
          · simp only [embedCalls_cons_embed, h3]
            rfl
          · simp only [List.map_cons, h4, List.length_cons, List.range'_succ, List.zipWith_cons_cons]
          · simp only [List.map_cons, h5a, List.length_cons, List.range'_succ]
          · simp only [clockReadings_cons_embed, h5b]

/-! ## The three ways `Ingest` can run -/

theorem Ingest_no_chunks {σ F : Type} (p : Pipeline σ F) (now : σ → Int × σ)
    (text docID : String) (s : σ) (h : (p.chunker.ChunkText text s).1 = []) :
    p.Ingest now text docID s =
      { value := some "no chunks created from text"
        state := (p.chunker.ChunkText text s).2
        events := [Event.ChunkText text []] } := by
  unfold Pipeline.Ingest
  simp [h]

theorem Ingest_loop_error {σ F : Type} (p : Pipeline σ F) (now : σ → Int × σ)
    (text docID : String) (s : σ) (msg : Error)
    (h : (p.chunker.ChunkText text s).1 ≠ [])
    (hl : (p.ingestLoop now docID (p.chunker.ChunkText text s).1 0 []
            (p.chunker.ChunkText text s).2).value = .error msg) :
    (p.Ingest now text docID s).value = some msg ∧
      (p.Ingest now text docID s).events
        = Event.ChunkText text (p.chunker.ChunkText text s).1 ::
            (p.ingestLoop now docID (p.chunker.ChunkText text s).1 0 []
              (p.chunker.ChunkText text s).2).events := by
  have hlen : ¬ (p.chunker.ChunkText text s).1.length = 0 :=
    fun h0 => h (List.length_eq_zero.mp h0)
  unfold Pipeline.Ingest
  simp only [if_neg hlen, hl]
  exact ⟨trivial, trivial⟩

theorem Ingest_loop_ok {σ F : Type} (p : Pipeline σ F) (now : σ → Int × σ)
    (text docID : String) (s : σ) (out : List (PointStruct F))
    (h : (p.chunker.ChunkText text s).1 ≠ [])
    (hl : (p.ingestLoop now docID (p.chunker.ChunkText text s).1 0 []
            (p.chunker.ChunkText text s).2).value = .ok out) :
    ∃ uerr : Option Error,
      (p.Ingest now text docID s).value = uerr.map (fun err => "failed to upsert points: " ++ err) ∧
      (p.Ingest now text docID s).events
        = Event.ChunkText text (p.chunker.ChunkText text s).1 ::
            ((p.ingestLoop now docID (p.chunker.ChunkText text s).1 0 []
              (p.chunker.ChunkText text s).2).events ++ [Event.UpsertPoints out uerr]) := by
  have hlen : ¬ (p.chunker.ChunkText text s).1.length = 0 :=
    fun h0 => h (List.length_eq_zero.mp h0)
  unfold Pipeline.Ingest
  simp only [if_neg hlen, hl]
  cases hu : p.qdrantClient.UpsertPoints out
      (p.ingestLoop now docID (p.chunker.ChunkText text s).1 0 []
        (p.chunker.ChunkText text s).2).state with
  | mk uerr s2 =>
    cases uerr with
    | none => exact ⟨none, rfl, rfl⟩
    | some err => exact ⟨some err, rfl, rfl⟩

theorem mem_okCalls {F : Type} :
    ∀ (chunks : List String) (embs : List (List F)) (call : String × Except Error (List F)),
      call ∈ okCalls chunks embs → ∃ emb, call.2 = .ok emb := by
  intro chunks
  induction chunks with
  | nil => intro embs call h; simp [okCalls] at h
  | cons c cs ih =>
    intro embs call h
    cases embs with
    | nil => simp [okCalls] at h
    | cons e es =>
      have h' : call = (c, Except.ok e) ∨ call ∈ okCalls cs es := by
        simpa [okCalls] using h
      rcases h' with h1 | h1
      · exact ⟨e, by rw [h1]⟩
      · exact ih es call h1

theorem okCalls_length {F : Type} (chunks : List String) (embs : List (List F))
    (h : embs.length = chunks.length) : (okCalls chunks embs).length = chunks.length := by
  simp [okCalls, h]

theorem okCalls_map_fst {F : Type} :
    ∀ (chunks : List String) (embs : List (List F)), embs.length = chunks.length →
      (okCalls chunks embs).map Prod.fst = chunks := by
  intro chunks
  induction chunks with
  | nil => intro embs _; simp [okCalls]
  | cons c cs ih =>
    intro embs h
    cases embs with
    | nil => simp at h
    | cons e es =>
      have h2 : es.length = cs.length := by simpa using h
      have h3 := ih es h2
      simp only [okCalls] at h3 ⊢
      simp [h3]

theorem embedCalls_append {F : Type} (xs ys : List (Event F)) :
    embedCalls (xs ++ ys) = embedCalls xs ++ embedCalls ys := by
  simp [embedCalls]

theorem upsertCalls_append {F : Type} (xs ys : List (Event F)) :
    upsertCalls (xs ++ ys) = upsertCalls xs ++ upsertCalls ys := by
  simp [upsertCalls]

theorem clockReadings_append {F : Type} (xs ys : List (Event F)) :
    clockReadings (xs ++ ys) = clockReadings xs ++ clockReadings ys := by
  simp [clockReadings]

/-- The calls of a run of `Ingest` that stops in the loop. -/
theorem Ingest_calls_of_loop_error {σ F : Type} (p : Pipeline σ F) (now : σ → Int × σ)
    (text docID : String) (s : σ) (msg : Error)
    (h : (p.chunker.ChunkText text s).1 ≠ [])
    (hl : (p.ingestLoop now docID (p.chunker.ChunkText text s).1 0 []
            (p.chunker.ChunkText text s).2).value = .error msg) :
    (p.Ingest now text docID s).value = some msg ∧
      upsertCalls (p.Ingest now text docID s).events = [] ∧
      ∃ pre seg post embs err, (p.chunker.ChunkText text s).1 = pre ++ seg :: post ∧
        embs.length = pre.length ∧
        embedCalls (p.Ingest now text docID s).events = okCalls pre embs ++ [(seg, .error err)] ∧
        msg = "failed to generate embedding for chunk " ++ toString pre.length ++ ": " ++ err := by
  obtain ⟨hv, he⟩ := Ingest_loop_error p now text docID s msg h hl
  obtain ⟨pre, seg, post, embs, err, h1, h2, h3, h4⟩ := ingestLoop_error p now docID _ _ _ _ msg hl
  refine ⟨hv, ?_, pre, seg, post, embs, err, h1, h2, ?_, by simpa using h4⟩
  · rw [he]
    exact ingestLoop_upsertCalls p now docID _ _ _ _
  · rw [he]
    exact h3

/-- The calls of a run of `Ingest` that reaches `UpsertPoints`. -/
theorem Ingest_calls_of_loop_ok {σ F : Type} (p : Pipeline σ F) (now : σ → Int × σ)
    (text docID : String) (s : σ) (out : List (PointStruct F))
    (h : (p.chunker.ChunkText text s).1 ≠ [])
    (hl : (p.ingestLoop now docID (p.chunker.ChunkText text s).1 0 []
            (p.chunker.ChunkText text s).2).value = .ok out) :
    ∃ uerr : Option Error,
      (p.Ingest now text docID s).value = uerr.map (fun err => "failed to upsert points: " ++ err) ∧
      upsertCalls (p.Ingest now text docID s).events = [(out, uerr)] ∧
      embedCalls (p.Ingest now text docID s).events
        = embedCalls (p.ingestLoop now docID (p.chunker.ChunkText text s).1 0 []
            (p.chunker.ChunkText text s).2).events ∧
      clockReadings (p.Ingest now text docID s).events
        = clockReadings (p.ingestLoop now docID (p.chunker.ChunkText text s).1 0 []
            (p.chunker.ChunkText text s).2).events := by
  obtain ⟨uerr, hv, he⟩ := Ingest_loop_ok p now text docID s out h hl
  refine ⟨uerr, hv, ?_, ?_, ?_⟩
  · rw [he]
    show upsertCalls (_ ++ [Event.UpsertPoints out uerr]) = _
    rw [upsertCalls_append, ingestLoop_upsertCalls]
    rfl
  · rw [he]
    show embedCalls (_ ++ [Event.UpsertPoints out uerr]) = _
    rw [embedCalls_append]
    exact List.append_nil _
  · rw [he]
    show clockReadings (_ ++ [Event.UpsertPoints out uerr]) = _
    rw [clockReadings_append]
    exact List.append_nil _

/-! ## Ingest: failures -/

/-- C11: `Ingest` is all-or-nothing with respect to embeddings.  If, in a run of
`Ingest`, the request number N for an embedding (counted from 0, after the
successful requests for the segments 0..N-1) fails, then `Ingest` returns an error
whose message names the index N, the embeddings requested are exactly those of the
segments 0..N (none is requested after segment N), and `UpsertPoints` is never
called. -/
theorem Ingest_all_or_nothing {σ F : Type} (p : Pipeline σ F) (now : σ → Int × σ)
    (text docID : String) (s : σ) (N : Nat) (seg : String) (err : Error)
    (hfail : (embedCalls (p.Ingest now text docID s).events)[N]? = some (seg, .error err)) :
    (∀ k, k < N → ∃ c emb, (embedCalls (p.Ingest now text docID s).events)[k]? = some (c, .ok emb)) ∧
      (p.Ingest now text docID s).value
        = some ("failed to generate embedding for chunk " ++ toString N ++ ": " ++ err) ∧
      (embedCalls (p.Ingest now text docID s).events).map Prod.fst
        = (p.chunker.ChunkText text s).1.take (N + 1) ∧
      upsertCalls (p.Ingest now text docID s).events = [] := by
  by_cases hc : (p.chunker.ChunkText text s).1 = []
  · rw [Ingest_no_chunks p now text docID s hc] at hfail
    simp [embedCalls] at hfail
  · cases hl : (p.ingestLoop now docID (p.chunker.ChunkText text s).1 0 []
        (p.chunker.ChunkText text s).2).value with
    | error msg =>
      obtain ⟨hv, hu, pre, seg2, post, embs, err2, h1, h2, h3, h4⟩ :=
        Ingest_calls_of_loop_error p now text docID s msg hc hl
      have hlen : (okCalls pre embs).length = pre.length := okCalls_length pre embs h2
      rw [h3] at hfail
      have hN : N = pre.length := by
        by_contra hne
        by_cases hlt : N < pre.length
        · rw [List.getElem?_append_left (by omega)] at hfail
          obtain ⟨emb, hemb⟩ := mem_okCalls pre embs _ (List.getElem?_mem hfail)
          simp at hemb
        · rw [List.getElem?_append_right (by omega)] at hfail
          have h5 : N - (okCalls pre embs).length = (N - pre.length - 1) + 1 := by omega
          rw [h5] at hfail
          simp at hfail
      have hlast : (seg2, Except.error err2) = (seg, (Except.error err : Except Error (List F))) := by
        rw [List.getElem?_append_right (by omega), hN, hlen] at hfail
        simpa using hfail
      have hseg : seg2 = seg := congrArg Prod.fst hlast
      have herr : err2 = err := by
        have := congrArg Prod.snd hlast
        simpa using this
      subst hseg herr
      refine ⟨?_, ?_, ?_, hu⟩
      · intro k hk
        rw [h3, List.getElem?_append_left (by omega)]
        have hk2 : k < (okCalls pre embs).length := by omega
        rw [List.getElem?_eq_getElem hk2]
        obtain ⟨emb, hemb⟩ := mem_okCalls pre embs _ (List.getElem_mem hk2)
        exact ⟨((okCalls pre embs)[k]).1, emb, by rw [← hemb]⟩
      · rw [hv, h4, hN]
      · rw [h3, h1, hN, List.map_append, okCalls_map_fst pre embs h2]
        simp [List.take_append_eq_append_take]
    | ok out =>
      obtain ⟨uerr, _, _, he, _⟩ := Ingest_calls_of_loop_ok p now text docID s out hc hl
      obtain ⟨new, _, _, h3, _⟩ := ingestLoop_ok p now docID _ _ _ _ out hl
      rw [he, h3] at hfail
      obtain ⟨emb, hemb⟩ := mem_okCalls _ _ _ (List.getElem?_mem hfail)
      simp at hemb

theorem Ingest_all_or_nothing_witness :
    (embedCalls (samplePipeline.Ingest scriptedNow "one two bad longword five" "doc1" []).events)[1]?
        = some ("bad", .error "API error") ∧
      ((∀ k, k < 1 → ∃ c emb,
          (embedCalls
            (samplePipeline.Ingest scriptedNow "one two bad longword five" "doc1" []).events)[k]?
            = some (c, .ok emb)) ∧
        (samplePipeline.Ingest scriptedNow "one two bad longword five" "doc1" []).value
          = some ("failed to generate embedding for chunk " ++ toString 1 ++ ": " ++ "API error") ∧
        (embedCalls
            (samplePipeline.Ingest scriptedNow "one two bad longword five" "doc1" []).events).map
          Prod.fst
          = (samplePipeline.chunker.ChunkText "one two bad longword five" []).1.take (1 + 1) ∧
        upsertCalls
          (samplePipeline.Ingest scriptedNow "one two bad longword five" "doc1" []).events = []) :=
  ⟨rfl, Ingest_all_or_nothing samplePipeline scriptedNow "one two bad longword five" "doc1" []
    1 "bad" "API error" rfl⟩

/-- C12: `Ingest` returns an error if and only if the chunker returns zero
segments, or some request for an embedding fails, or `UpsertPoints` fails; when
the chunker returns zero segments the error is "no chunks created from text" and
neither `GenerateEmbedding` nor `UpsertPoints` is called. -/
theorem Ingest_error_iff {σ F : Type} (p : Pipeline σ F) (now : σ → Int × σ)
    (text docID : String) (s : σ) :
    ((p.Ingest now text docID s).value ≠ none ↔
        (p.chunker.ChunkText text s).1 = [] ∨
        (∃ c err, (c, Except.error err) ∈ embedCalls (p.Ingest now text docID s).events) ∨
        (∃ pts err, (pts, some err) ∈ upsertCalls (p.Ingest now text docID s).events)) ∧
      ((p.chunker.ChunkText text s).1 = [] →
        (p.Ingest now text docID s).value = some "no chunks created from text" ∧
        embedCalls (p.Ingest now text docID s).events = [] ∧
        upsertCalls (p.Ingest now text docID s).events = []) := by
  by_cases hc : (p.chunker.ChunkText text s).1 = []
  · have hrun := Ingest_no_chunks p now text docID s hc
    refine ⟨⟨fun _ => Or.inl hc, fun _ => by rw [hrun]; simp⟩, fun _ => ?_⟩
    rw [hrun]
    exact ⟨rfl, rfl, rfl⟩
  · refine ⟨?_, fun h => absurd h hc⟩
    cases hl : (p.ingestLoop now docID (p.chunker.ChunkText text s).1 0 []
        (p.chunker.ChunkText text s).2).value with
    | error msg =>
      obtain ⟨hv, _, pre, seg, post, embs, err, _, _, h3, _⟩ :=
        Ingest_calls_of_loop_error p now text docID s msg hc hl
      refine ⟨fun _ => Or.inr (Or.inl ⟨seg, err, ?_⟩), fun _ => by rw [hv]; simp⟩
      rw [h3]; simp
    | ok out =>
      obtain ⟨uerr, hv, hu, he, _⟩ := Ingest_calls_of_loop_ok p now text docID s out hc hl
      obtain ⟨new, _, _, h3, _⟩ := ingestLoop_ok p now docID _ _ _ _ out hl
      cases uerr with
      | some uerr =>
        refine ⟨fun _ => Or.inr (Or.inr ⟨out, uerr, ?_⟩), fun _ => by rw [hv]; simp⟩
        rw [hu]; simp
      | none =>
        refine ⟨fun h => absurd (by rw [hv]; rfl) h, fun h => ?_⟩
        rcases h with h1 | ⟨c, err, h1⟩ | ⟨pts, err, h1⟩
        · exact absurd h1 hc
        · rw [he, h3] at h1
          obtain ⟨emb, hemb⟩ := mem_okCalls _ _ _ h1
          simp at hemb
        · rw [hu] at h1
          simp at h1

/-! ## Ingest: the points -/

/-- C13: when the chunker returns n >= 1 segments and every embedding succeeds,
`Ingest` calls `UpsertPoints` exactly once, with exactly n points in segment
order; the vector of point i is the embedding returned for segment i, and its
payload is text = segment i, doc_id = docID, chunk_index = i. -/
theorem Ingest_upserts_all_points {σ F : Type} (p : Pipeline σ F) (now : σ → Int × σ)
    (text docID : String) (s : σ)
    (hn : (p.chunker.ChunkText text s).1 ≠ [])
    (hall : ∀ call ∈ embedCalls (p.Ingest now text docID s).events, ∃ emb, call.2 = .ok emb) :
    ∃ points uerr,
      upsertCalls (p.Ingest now text docID s).events = [(points, uerr)] ∧
      points.length = (p.chunker.ChunkText text s).1.length ∧
      embedCalls (p.Ingest now text docID s).events
        = List.zipWith (fun chunk point => (chunk, Except.ok point.Vectors))
            (p.chunker.ChunkText text s).1 points ∧
      points.map (fun point => point.Payload)
        = List.zipWith
            (fun chunk (i : Nat) =>
              [("text", Value.StringValue chunk), ("doc_id", Value.StringValue docID),
               ("chunk_index", Value.IntegerValue (i : Int))])
            (p.chunker.ChunkText text s).1 (List.range (p.chunker.ChunkText text s).1.length) := by
  cases hl : (p.ingestLoop now docID (p.chunker.ChunkText text s).1 0 []
      (p.chunker.ChunkText text s).2).value with
  | error msg =>
    obtain ⟨_, _, pre, seg, post, embs, err, _, _, h3, _⟩ :=
      Ingest_calls_of_loop_error p now text docID s msg hn hl
    obtain ⟨emb, hemb⟩ := hall (seg, .error err) (by rw [h3]; simp)
    simp at hemb
  | ok out =>
    obtain ⟨uerr, _, hu, he, _⟩ := Ingest_calls_of_loop_ok p now text docID s out hn hl
    obtain ⟨new, h1, h2, h3, h4, _⟩ := ingestLoop_ok p now docID _ _ _ _ out hl
    have hout : out = new := by simpa using h1
    subst hout
    refine ⟨out, uerr, hu, h2, ?_, ?_⟩
    · rw [he, h3]
      simp [okCalls, List.zipWith_map_right]
    · rw [h4, List.range_eq_range']
      rfl

theorem Ingest_upserts_all_points_witness :
    (samplePipeline.chunker.ChunkText "one two three four" []).1 ≠ [] ∧
      (∀ call ∈ embedCalls (samplePipeline.Ingest scriptedNow "one two three four" "doc1" []).events,
        ∃ emb, call.2 = .ok emb) ∧
      ∃ points uerr,
        upsertCalls (samplePipeline.Ingest scriptedNow "one two three four" "doc1" []).events
          = [(points, uerr)] ∧
        points.length = (samplePipeline.chunker.ChunkText "one two three four" []).1.length ∧
        embedCalls (samplePipeline.Ingest scriptedNow "one two three four" "doc1" []).events
          = List.zipWith (fun chunk point => (chunk, Except.ok point.Vectors))
              (samplePipeline.chunker.ChunkText "one two three four" []).1 points ∧
        points.map (fun point => point.Payload)
          = List.zipWith
              (fun chunk (i : Nat) =>
                [("text", Value.StringValue chunk), ("doc_id", Value.StringValue "doc1"),
                 ("chunk_index", Value.IntegerValue (i : Int))])
              (samplePipeline.chunker.ChunkText "one two three four" []).1
              (List.range (samplePipeline.chunker.ChunkText "one two three four" []).1.length) :=
  have hn : (samplePipeline.chunker.ChunkText "one two three four" []).1 ≠ [] := by decide
  have hall : ∀ call ∈
      embedCalls (samplePipeline.Ingest scriptedNow "one two three four" "doc1" []).events,
      ∃ emb, call.2 = .ok emb := by
    intro call hcall
    have h : call = ("one two", .ok [7]) ∨ call = ("three", .ok [5]) ∨ call = ("four", .ok [4]) := by
      have he : embedCalls (samplePipeline.Ingest scriptedNow "one two three four" "doc1" []).events
          = [("one two", .ok [7]), ("three", .ok [5]), ("four", .ok [4])] := rfl
      rw [he] at hcall
      simpa using hcall
    rcases h with h | h | h <;> exact ⟨_, by rw [h]⟩
  ⟨hn, hall,
    Ingest_upserts_all_points samplePipeline scriptedNow "one two three four" "doc1" [] hn hall⟩

/-- The points handed to `UpsertPoints` by a run of `Ingest` are the points built
by the loop, and `UpsertPoints` is called once. -/
theorem Ingest_upsert_points {σ F : Type} (p : Pipeline σ F) (now : σ → Int × σ)
    (text docID : String) (s : σ) (pts : List (PointStruct F)) (uerr : Option Error)
    (h : (pts, uerr) ∈ upsertCalls (p.Ingest now text docID s).events) :
    (p.ingestLoop now docID (p.chunker.ChunkText text s).1 0 []
        (p.chunker.ChunkText text s).2).value = .ok pts ∧
      upsertCalls (p.Ingest now text docID s).events = [(pts, uerr)] ∧
      clockReadings (p.Ingest now text docID s).events
        = clockReadings (p.ingestLoop now docID (p.chunker.ChunkText text s).1 0 []
            (p.chunker.ChunkText text s).2).events := by
  by_cases hc : (p.chunker.ChunkText text s).1 = []
  · rw [Ingest_no_chunks p now text docID s hc] at h
    simp [upsertCalls] at h
  · cases hl : (p.ingestLoop now docID (p.chunker.ChunkText text s).1 0 []
        (p.chunker.ChunkText text s).2).value with
    | error msg =>
      obtain ⟨_, hu, _⟩ := Ingest_calls_of_loop_error p now text docID s msg hc hl
      rw [hu] at h
      simp at h
    | ok out =>
      obtain ⟨uerr2, _, hu, _, hr⟩ := Ingest_calls_of_loop_ok p now text docID s out hc hl
      rw [hu] at h
      have h2 : pts = out ∧ uerr = uerr2 := by simpa using h
      rw [h2.1, h2.2]
      exact ⟨rfl, hu, hr⟩

/-- C15: for a non-empty docID, the point id of the segment at chunk index i is
i: on every call, the ids of the points which `Ingest` hands to `UpsertPoints` are
exactly 0..n-1 in order, n being the number of segments. -/
theorem Ingest_ids_with_docID {σ F : Type} (p : Pipeline σ F) (now : σ → Int × σ)
    (text docID : String) (s : σ) (hd : docID ≠ "")
    (pts : List (PointStruct F)) (uerr : Option Error)
    (h : (pts, uerr) ∈ upsertCalls (p.Ingest now text docID s).events) :
    pts.map (fun point => point.Id) = List.range (p.chunker.ChunkText text s).1.length ∧
      ∀ (i : Nat) (point : PointStruct F), pts[i]? = some point → point.Id = i := by
  obtain ⟨hl, _, _⟩ := Ingest_upsert_points p now text docID s pts uerr h
  obtain ⟨new, h1, _, _, _, h5, _⟩ := ingestLoop_ok p now docID _ _ _ _ pts hl
  have hout : pts = new := by simpa using h1
  subst hout
  have hids := (h5 hd).1
  rw [← List.range_eq_range'] at hids
  refine ⟨hids, ?_⟩
  intro i point hi
  have h6 : (pts.map (fun point => point.Id))[i]? = some point.Id := by
    rw [List.getElem?_map, hi]; rfl
  rw [hids] at h6
  have h7 := List.getElem?_eq_some_iff.mp h6
  obtain ⟨hlt, h8⟩ := h7
  rw [List.getElem_range] at h8
  exact h8.symm

theorem Ingest_ids_with_docID_witness :
    ("doc1" : String) ≠ "" ∧
      (samplePoints, (none : Option Error))
        ∈ upsertCalls (samplePipeline.Ingest scriptedNow "one two three" "doc1" []).events ∧
      (samplePoints.map (fun point => point.Id)
          = List.range (samplePipeline.chunker.ChunkText "one two three" []).1.length ∧
        ∀ (i : Nat) (point : PointStruct Nat), samplePoints[i]? = some point → point.Id = i) :=
  ⟨by decide, List.Mem.head _,
    Ingest_ids_with_docID samplePipeline scriptedNow "one two three" "doc1" [] (by decide)
      samplePoints none (List.Mem.head _)⟩

/-! ## Point ids taken from the clock -/

theorem mem_zipWith_exists {α β γ : Type} (f : α → β → γ) :
    ∀ (xs : List α) (ys : List β) (z : γ), z ∈ List.zipWith f xs ys →
      ∃ x ∈ xs, ∃ y ∈ ys, z = f x y := by
  intro xs
  induction xs with
  | nil => intro ys z h; simp at h
  | cons x xs ih =>
    intro ys z h
    cases ys with
    | nil => simp at h
    | cons y ys =>
      rw [List.zipWith_cons_cons] at h
      rcases List.mem_cons.mp h with h1 | h1
      · exact ⟨x, List.mem_cons_self _ _, y, List.mem_cons_self _ _, h1⟩
      · obtain ⟨a, ha, b, hb, hz⟩ := ih ys z h1
        exact ⟨a, List.mem_cons_of_mem _ ha, b, List.mem_cons_of_mem _ hb, hz⟩

/-- Without wrap-around the id is the clock reading plus the chunk index. -/
theorem clock_id_eq (t : Int) (k : Nat) (h0 : 0 ≤ t) (h1 : t < 2 ^ 63) (hk : k < 2 ^ 63) :
    (uint64 t + k) % 2 ^ 64 = t.toNat + k := by
  unfold uint64
  have h2 : t % 2 ^ 64 = t := Int.emod_eq_of_lt h0 (by omega)
  rw [h2]
  exact Nat.mod_eq_of_lt (by omega)

/-- For an empty docID the ids handed to `UpsertPoints` are, in order, the clock
reading taken for each chunk plus the index of the chunk, modulo `2^64`. -/
theorem Ingest_clock_ids {σ F : Type} (p : Pipeline σ F) (now : σ → Int × σ)
    (text : String) (s : σ) (pts : List (PointStruct F)) (uerr : Option Error)
    (h : (pts, uerr) ∈ upsertCalls (p.Ingest now text "" s).events) :
    pts.map (fun point => point.Id)
      = List.zipWith (fun t k => (uint64 t + k) % 2 ^ 64)
          (clockReadings (p.Ingest now text "" s).events)
          (List.range (p.chunker.ChunkText text s).1.length) := by
  obtain ⟨hl, _, hr⟩ := Ingest_upsert_points p now text "" s pts uerr h
  obtain ⟨new, h1, _, _, _, _, h6⟩ := ingestLoop_ok p now "" _ _ _ _ pts hl
  have hout : pts = new := by simpa using h1
  subst hout
  rw [hr, List.range_eq_range']
  exact (h6 rfl).2

theorem mem_upsertedIds {F : Type} (events : List (Event F)) (id : Nat)
    (h : id ∈ upsertedIds events) :
    ∃ pts uerr, (pts, uerr) ∈ upsertCalls events ∧ id ∈ pts.map (fun point => point.Id) := by
  unfold upsertedIds at h
  obtain ⟨l, hl, hid⟩ := List.mem_flatten.mp h
  obtain ⟨call, hcall, rfl⟩ := List.mem_map.mp hl
  exact ⟨call.1, call.2, hcall, hid⟩

/-- An id assigned by an `Ingest` with empty docID lies between a clock reading of
the run and that reading plus the number of segments. -/
theorem Ingest_clock_id_bounds {σ F : Type} (p : Pipeline σ F) (now : σ → Int × σ)
    (text : String) (s : σ)
    (hr : ∀ t ∈ clockReadings (p.Ingest now text "" s).events, 0 ≤ t ∧ t < 2 ^ 63)
    (hn : (p.chunker.ChunkText text s).1.length < 2 ^ 63)
    (id : Nat) (h : id ∈ upsertedIds (p.Ingest now text "" s).events) :
    ∃ t ∈ clockReadings (p.Ingest now text "" s).events,
      t ≤ (id : Int) ∧ (id : Int) < t + (p.chunker.ChunkText text s).1.length := by
  obtain ⟨pts, uerr, hcall, hid⟩ := mem_upsertedIds _ id h
  rw [Ingest_clock_ids p now text s pts uerr hcall] at hid
  obtain ⟨t, ht, k, hk, hz⟩ := mem_zipWith_exists _ _ _ id hid
  have hk2 : k < (p.chunker.ChunkText text s).1.length := List.mem_range.mp hk
  obtain ⟨h0, h1⟩ := hr t ht
  rw [clock_id_eq t k h0 h1 (by omega)] at hz
  exact ⟨t, ht, by omega, by omega⟩

/-- C14 (as stated, refuted): two ingests with empty docID whose clock readings
all differ (100 and 105 for the first, 106 and 110 for the second) both assign the
point id 106. -/
theorem Ingest_ids_collide_at_different_times :
    ¬ ((∀ a ∈ clockReadings (samplePipeline.Ingest scriptedNow "one two three" "" [100, 105]).events,
          ∀ b ∈ clockReadings
              (samplePipeline.Ingest scriptedNow "four five six" "" [106, 110]).events,
            a ≠ b) →
        ∀ id ∈ upsertedIds (samplePipeline.Ingest scriptedNow "one two three" "" [100, 105]).events,
          id ∉ upsertedIds
            (samplePipeline.Ingest scriptedNow "four five six" "" [106, 110]).events) := by
  decide

/-- C14 (amended): for an empty docID the id of the point of chunk index i is the
clock reading taken for that chunk plus i (modulo 2^64), and two `Ingest` calls
never assign the same point id when the clock readings are non-negative 64-bit
values, each call has fewer than 2^63 segments, and every clock reading of the
second call is at least any clock reading of the first plus the number of segments
of the first. -/
theorem Ingest_ids_disjoint {σ F : Type} (p q : Pipeline σ F) (now now2 : σ → Int × σ)
    (textA textB : String) (sA sB : σ)
    (hA : ∀ t ∈ clockReadings (p.Ingest now textA "" sA).events, 0 ≤ t ∧ t < 2 ^ 63)
    (hB : ∀ t ∈ clockReadings (q.Ingest now2 textB "" sB).events, 0 ≤ t ∧ t < 2 ^ 63)
    (hnA : (p.chunker.ChunkText textA sA).1.length < 2 ^ 63)
    (hnB : (q.chunker.ChunkText textB sB).1.length < 2 ^ 63)
    (hsep : ∀ a ∈ clockReadings (p.Ingest now textA "" sA).events,
      ∀ b ∈ clockReadings (q.Ingest now2 textB "" sB).events,
        a + (p.chunker.ChunkText textA sA).1.length ≤ b) :
    (∀ pts uerr, (pts, uerr) ∈ upsertCalls (p.Ingest now textA "" sA).events →
        pts.map (fun point => point.Id)
          = List.zipWith (fun t i => (uint64 t + i) % 2 ^ 64)
              (clockReadings (p.Ingest now textA "" sA).events)
              (List.range (p.chunker.ChunkText textA sA).1.length)) ∧
      ∀ id ∈ upsertedIds (p.Ingest now textA "" sA).events,
        id ∉ upsertedIds (q.Ingest now2 textB "" sB).events := by
  refine ⟨fun pts uerr h => Ingest_clock_ids p now textA sA pts uerr h, ?_⟩
  intro id hidA hidB
  obtain ⟨a, ha, ha1, ha2⟩ := Ingest_clock_id_bounds p now textA sA hA hnA id hidA
  obtain ⟨b, hb, hb1, hb2⟩ := Ingest_clock_id_bounds q now2 textB sB hB hnB id hidB
  have := hsep a ha b hb
  omega

theorem Ingest_ids_disjoint_witness :
    (∀ t ∈ clockReadings (samplePipeline.Ingest scriptedNow "one two three" "" [100, 105]).events,
        0 ≤ t ∧ t < 2 ^ 63) ∧
      (∀ t ∈ clockReadings (samplePipeline.Ingest scriptedNow "four five six" "" [107, 110]).events,
        0 ≤ t ∧ t < 2 ^ 63) ∧
      (samplePipeline.chunker.ChunkText "one two three" [100, 105]).1.length < 2 ^ 63 ∧
      (samplePipeline.chunker.ChunkText "four five six" [107, 110]).1.length < 2 ^ 63 ∧
      (∀ a ∈ clockReadings (samplePipeline.Ingest scriptedNow "one two three" "" [100, 105]).events,
        ∀ b ∈ clockReadings
            (samplePipeline.Ingest scriptedNow "four five six" "" [107, 110]).events,
          a + (samplePipeline.chunker.ChunkText "one two three" [100, 105]).1.length ≤ b) ∧
      ((∀ pts uerr,
          (pts, uerr)
            ∈ upsertCalls (samplePipeline.Ingest scriptedNow "one two three" "" [100, 105]).events →
          pts.map (fun point => point.Id)
            = List.zipWith (fun t i => (uint64 t + i) % 2 ^ 64)
                (clockReadings
                  (samplePipeline.Ingest scriptedNow "one two three" "" [100, 105]).events)
                (List.range
                  (samplePipeline.chunker.ChunkText "one two three" [100, 105]).1.length)) ∧
        ∀ id ∈ upsertedIds (samplePipeline.Ingest scriptedNow "one two three" "" [100, 105]).events,
          id ∉ upsertedIds
            (samplePipeline.Ingest scriptedNow "four five six" "" [107, 110]).events) :=
  ⟨by decide, by decide, by decide, by decide, by decide,
    Ingest_ids_disjoint samplePipeline samplePipeline scriptedNow scriptedNow
      "one two three" "four five six" [100, 105] [107, 110]
      (by decide) (by decide) (by decide) (by decide) (by decide)⟩

/-- C16: the code at two ingests with different non-empty docIDs: the points of the
documents "doc1" and "doc2" get the same ids 0 and 1, the docID taking no part in
the id. -/
theorem Ingest_ids_ignore_docID :
    upsertedIds (samplePipeline.Ingest scriptedNow "one two three" "doc1" []).events = [0, 1] ∧
      upsertedIds (samplePipeline.Ingest scriptedNow "four five six" "doc2" []).events = [0, 1] := by
  decide

/-! ## Construction of the pipeline -/

/-- C19: `NewPipeline` calls `EnsureCollection` exactly once, with vector size
3072, before it returns; if the call fails, `NewPipeline` returns no pipeline and
the error "failed to ensure collection: ..." wrapping the failure; if it succeeds,
`NewPipeline` returns a pipeline whose searchLimit is the argument given. -/
theorem NewPipeline_ensures_collection {σ F : Type} (chunker : TextChunker σ)
    (llmClient : LLMClient σ F) (qdrantClient : VectorDatabase σ F) (searchLimit : Int) (s : σ) :
    (NewPipeline chunker llmClient qdrantClient searchLimit s).events
        = [Event.EnsureCollection 3072 (qdrantClient.EnsureCollection 3072 s).1] ∧
      (∀ err, (qdrantClient.EnsureCollection 3072 s).1 = some err →
        (NewPipeline chunker llmClient qdrantClient searchLimit s).value
          = (none, some ("failed to ensure collection: " ++ err))) ∧
      ((qdrantClient.EnsureCollection 3072 s).1 = none →
        ∃ pipeline, (NewPipeline chunker llmClient qdrantClient searchLimit s).value
            = (some pipeline, none) ∧
          pipeline.searchLimit = searchLimit ∧ pipeline.qdrantClient = qdrantClient ∧
          pipeline.llmClient = llmClient ∧ pipeline.chunker = chunker) := by
  cases h : qdrantClient.EnsureCollection 3072 s with
  | mk err s1 =>
    cases err with
    | none =>
      have hrun : NewPipeline chunker llmClient qdrantClient searchLimit s =
          { value := (some { chunker := chunker, llmClient := llmClient,
                             qdrantClient := qdrantClient, searchLimit := searchLimit }, none)
            state := s1
            events := [Event.EnsureCollection 3072 none] } := by
        unfold NewPipeline
        simp only [h]
      rw [hrun]
      exact ⟨rfl, fun err he => by simp at he, fun _ => ⟨_, rfl, rfl, rfl, rfl, rfl⟩⟩
    | some e =>
      have hrun : NewPipeline chunker llmClient qdrantClient searchLimit s =
          { value := (none, some ("failed to ensure collection: " ++ e))
            state := s1
            events := [Event.EnsureCollection 3072 (some e)] } := by
        unfold NewPipeline
        simp only [h]
      rw [hrun]
      refine ⟨rfl, fun err he => ?_, fun he => by simp at he⟩
      have : e = err := by simpa using he
      subst this
      rfl

/-! ## Provisioning of the collection -/

/-- C20: the code at a store that already holds the collection with another
configuration: `EnsureCollection` with vector size 3072 returns without error, and
the collection keeps its dimensionality 1536. -/
theorem EnsureCollection_keeps_other_size :
    (QdrantClient.EnsureCollection { client := storeClient, collection := "documents" } 3072
        [("documents", { Size := 1536, Distance := Distance.Cosine })]).1 = none ∧
      Store.vectorSize
        (QdrantClient.EnsureCollection { client := storeClient, collection := "documents" } 3072
          [("documents", { Size := 1536, Distance := Distance.Cosine })]).2 "documents"
        = some 1536 ∧
      Store.vectorSize
        (QdrantClient.EnsureCollection { client := storeClient, collection := "documents" } 3072
          []).2 "documents"
        = some 3072 := by
  decide

/-! ## Retrieve -/

theorem Retrieve_of_embed_error {σ F : Type} (p : Pipeline σ F) (fmtScore : F → String)
    (query : String) (s s1 : σ) (err : Error)
    (hg : p.llmClient.GenerateEmbedding query s = (.error err, s1)) :
    p.Retrieve fmtScore query s =
      { value := some ("", some ("failed to generate query embedding: " ++ err))
        state := s1
        events := [Event.GenerateEmbedding query (.error err)] } := by
  unfold Pipeline.Retrieve
  simp only [hg]

theorem Retrieve_of_search_error {σ F : Type} (p : Pipeline σ F) (fmtScore : F → String)
    (query : String) (s s1 s2 : σ) (emb : List F) (err : Error)
    (hg : p.llmClient.GenerateEmbedding query s = (.ok emb, s1))
    (hs : p.qdrantClient.Search emb (uint64 p.searchLimit) s1 = (.error err, s2)) :
    p.Retrieve fmtScore query s =
      { value := some ("", some ("failed to search: " ++ err))
        state := s2
        events := [Event.GenerateEmbedding query (.ok emb),
                   Event.Search emb (uint64 p.searchLimit) (.error err)] } := by
  unfold Pipeline.Retrieve
  simp only [hg, hs]

theorem Retrieve_of_search_ok {σ F : Type} (p : Pipeline σ F) (fmtScore : F → String)
    (query : String) (s s1 s2 : σ) (emb : List F) (texts : List String) (scores : List F)
    (hg : p.llmClient.GenerateEmbedding query s = (.ok emb, s1))
    (hs : p.qdrantClient.Search emb (uint64 p.searchLimit) s1 = (.ok (texts, scores), s2)) :
    p.Retrieve fmtScore query s =
      { value :=
          if texts.length = 0 then some ("", some "no relevant documents found")
          else
            match renderLoop fmtScore scores texts 0 "" with
            | none => none
            | some contextBuilder => some (TrimSpace contextBuilder, none)
        state := s2
        events := [Event.GenerateEmbedding query (.ok emb),
                   Event.Search emb (uint64 p.searchLimit) (.ok (texts, scores))] } := by
  unfold Pipeline.Retrieve
  simp only [hg, hs]

theorem TrimSpace_data (s : String) :
    (TrimSpace s).data = trimRight (s.data.dropWhile isSpace) := rfl

theorem trimRight_cons_ne_nil (c : Char) (cs : List Char) (hc : isSpace c = false) :
    trimRight (c :: cs) ≠ [] := by
  unfold trimRight
  intro h
  have h1 : (c :: cs).reverse.dropWhile isSpace = [] := by
    simpa using h
  rw [List.dropWhile_eq_nil_iff] at h1
  have := h1 c (by simp)
  rw [hc] at this
  cases this

/-- Trimming a string that begins with a character other than white space leaves
a non-empty string. -/
theorem TrimSpace_ne_empty (s : String) (c : Char) (cs : List Char)
    (hs : s.data = c :: cs) (hc : isSpace c = false) : TrimSpace s ≠ "" := by
  intro h
  have h1 : (TrimSpace s).data = [] := by rw [h]
  rw [TrimSpace_data, hs, List.dropWhile_cons_of_neg (by simp [hc])] at h1
  exact trimRight_cons_ne_nil c cs hc h1

theorem renderLoop_extends {F : Type} (fmtScore : F → String) (scores : List F) :
    ∀ (texts : List String) (i : Nat) (acc b : String),
      renderLoop fmtScore scores texts i acc = some b → ∃ tail, b = acc ++ tail := by
  intro texts
  induction texts with
  | nil =>
    intro i acc b h
    have : acc = b := by simpa [renderLoop] using h
    exact ⟨"", by rw [← this]; simp⟩
  | cons text rest ih =>
    intro i acc b h
    rw [renderLoop] at h
    cases hsc : scores[i]? with
    | none => simp [hsc] at h
    | some score =>
      simp only [hsc] at h
      obtain ⟨tail, ht⟩ := ih _ _ _ h
      exact ⟨renderEntry fmtScore i score text ++ tail, by rw [ht, String.append_assoc]⟩

theorem renderEntry_data {F : Type} (fmtScore : F → String) (i : Nat) (score : F)
    (text : String) :
    ∃ cs, (renderEntry fmtScore i score text).data = '[' :: cs := by
  unfold renderEntry
  simp only [String.data_append]
  exact ⟨_, rfl⟩

/-- A context written for at least one text trims to a non-empty string. -/
theorem renderLoop_TrimSpace_ne_empty {F : Type} (fmtScore : F → String) (scores : List F)
    (texts : List String) (b : String) (hne : texts ≠ [])
    (h : renderLoop fmtScore scores texts 0 "" = some b) : TrimSpace b ≠ "" := by
  cases texts with
  | nil => exact absurd rfl hne
  | cons text rest =>
    rw [renderLoop] at h
    cases hsc : scores[0]? with
    | none => simp [hsc] at h
    | some score =>
      simp only [hsc] at h
      obtain ⟨tail, ht⟩ := renderLoop_extends fmtScore scores _ _ _ _ h
      obtain ⟨cs, hcs⟩ := renderEntry_data fmtScore 0 score text
      have hb : b.data = '[' :: (cs ++ tail.data) := by
        rw [ht]
        simp only [String.data_append, hcs]
        rfl
      exact TrimSpace_ne_empty b '[' _ hb (by decide)

/-- C17: `Retrieve` returns an error, together with the empty string, if and only
if the embedding of the query fails, or `Search` fails, or `Search` returns zero
texts; when the store returns zero neighbours `Retrieve` fails with "no relevant
documents found" instead of returning an empty blob, and a blob returned without
error is not empty. -/
theorem Retrieve_error_iff {σ F : Type} (p : Pipeline σ F) (fmtScore : F → String)
    (query : String) (s : σ) :
    (∀ b err, (p.Retrieve fmtScore query s).value = some (b, some err) → b = "") ∧
      ((∃ err, (p.Retrieve fmtScore query s).value = some ("", some err)) ↔
        (∃ q e, (q, Except.error e) ∈ embedCalls (p.Retrieve fmtScore query s).events) ∨
        (∃ v l e, (v, l, Except.error e) ∈ searchCalls (p.Retrieve fmtScore query s).events) ∨
        (∃ v l sc, (v, l, Except.ok ([], sc))
          ∈ searchCalls (p.Retrieve fmtScore query s).events)) ∧
      ((∃ v l sc, (v, l, Except.ok ([], sc))
          ∈ searchCalls (p.Retrieve fmtScore query s).events) →
        (p.Retrieve fmtScore query s).value = some ("", some "no relevant documents found")) ∧
      (∀ b, (p.Retrieve fmtScore query s).value = some (b, none) → b ≠ "") := by
  cases hg : p.llmClient.GenerateEmbedding query s with
  | mk res s1 =>
    cases res with
    | error err =>
      rw [Retrieve_of_embed_error p fmtScore query s s1 err hg]
      refine ⟨?_, ⟨fun _ => Or.inl ⟨query, err, by simp [embedCalls]⟩, fun _ => ⟨_, rfl⟩⟩, ?_, ?_⟩
      · intro b e h
        simp only [Option.some.injEq, Prod.mk.injEq] at h
        exact h.1.symm
      · intro h
        obtain ⟨v, l, sc, h1⟩ := h
        simp [searchCalls] at h1
      · intro b h
        simp at h
    | ok emb =>
      cases hs : p.qdrantClient.Search emb (uint64 p.searchLimit) s1 with
      | mk res2 s2 =>
        cases res2 with
        | error err =>
          rw [Retrieve_of_search_error p fmtScore query s s1 s2 emb err hg hs]
          refine ⟨?_, ⟨fun _ => Or.inr (Or.inl ⟨emb, uint64 p.searchLimit, err, by simp [searchCalls]⟩),
            fun _ => ⟨_, rfl⟩⟩, ?_, ?_⟩
          · intro b e h
            simp only [Option.some.injEq, Prod.mk.injEq] at h
            exact h.1.symm
          · intro h
            obtain ⟨v, l, sc, h1⟩ := h
            simp [searchCalls] at h1
          · intro b h
            simp at h
        | ok found =>
          obtain ⟨texts, scores⟩ := found
          rw [Retrieve_of_search_ok p fmtScore query s s1 s2 emb texts scores hg hs]
          by_cases ht : texts = []
          · subst ht
            refine ⟨?_, ⟨fun _ => Or.inr (Or.inr ⟨emb, uint64 p.searchLimit, scores, by simp [searchCalls]⟩),
              fun _ => ⟨_, rfl⟩⟩, fun _ => rfl, ?_⟩
            · intro b e h
              simp only [List.length_nil, if_true, Option.some.injEq, Prod.mk.injEq] at h
              exact h.1.symm
            · intro b h
              simp at h
          · have hlen : ¬ texts.length = 0 := fun h0 => ht (List.length_eq_zero.mp h0)
            have hnoerr : ¬ ((∃ q e, (q, Except.error e) ∈ embedCalls
                    [Event.GenerateEmbedding query (Except.ok emb),
                     Event.Search emb (uint64 p.searchLimit) (Except.ok (texts, scores))]) ∨
                (∃ v l e, (v, l, Except.error e) ∈ searchCalls
                    [Event.GenerateEmbedding query (Except.ok emb),
                     Event.Search emb (uint64 p.searchLimit) (Except.ok (texts, scores))]) ∨
                (∃ v l sc, (v, l, Except.ok ([], sc)) ∈ searchCalls
                    [Event.GenerateEmbedding query (Except.ok emb),
                     Event.Search emb (uint64 p.searchLimit) (Except.ok (texts, scores))])) := by
              intro h
              rcases h with ⟨q, e, h1⟩ | ⟨v, l, e, h1⟩ | ⟨v, l, sc, h1⟩
              · simp [embedCalls] at h1
              · simp [searchCalls] at h1
              · simp only [searchCalls, List.filterMap_cons, List.filterMap_nil,
                  List.mem_singleton, Prod.mk.injEq, Except.ok.injEq] at h1
                exact ht h1.2.2.1.symm
            simp only [if_neg hlen]
            cases hr : renderLoop fmtScore scores texts 0 "" with
            | none =>
              refine ⟨?_, ⟨?_, fun h => absurd h hnoerr⟩, fun h => absurd (Or.inr (Or.inr h)) hnoerr, ?_⟩
              · intro b e h; simp at h
              · intro h; obtain ⟨e, h1⟩ := h; simp at h1
              · intro b h; simp at h
            | some b0 =>
              refine ⟨?_, ⟨?_, fun h => absurd h hnoerr⟩, fun h => absurd (Or.inr (Or.inr h)) hnoerr, ?_⟩
              · intro b e h; simp at h
              · intro h; obtain ⟨e, h1⟩ := h; simp at h1
              · intro b h
                have hb : TrimSpace b0 = b := by simpa using h
                rw [← hb]
                exact renderLoop_TrimSpace_ne_empty fmtScore scores texts b0 ht hr

/-! ## The rendering of the context -/

theorem renderEntry_eq {F : Type} (fmtScore : F → String) (i : Nat) (score : F)
    (text : String) :
    renderEntry fmtScore i score text
      = renderHeader fmtScore (i + 1) score ++ "\n" ++ text ++ "\n\n" := by
  apply String.ext
  simp only [renderEntry, renderHeader, String.data_append, List.append_assoc]
  rfl

theorem renderLoop_cons {F : Type} (fmtScore : F → String) (scores : List F)
    (text : String) (rest : List String) (i : Nat) (acc : String) (score : F)
    (h : scores[i]? = some score) :
    renderLoop fmtScore scores (text :: rest) i acc
      = renderLoop fmtScore scores rest (i + 1) (acc ++ renderEntry fmtScore i score text) := by
  rw [renderLoop]
  simp only [h]

/-- The loop of `Retrieve` on the texts and scores of a list of results writes
the entries of the results one after the other. -/
theorem renderLoop_pairs {F : Type} (fmtScore : F → String) :
    ∀ (pairs : List (String × F)) (done : List F) (acc : String),
      renderLoop fmtScore (done ++ pairs.map Prod.snd) (pairs.map Prod.fst) done.length acc
        = some (acc ++ renderAll fmtScore (done.length + 1) pairs) := by
  intro pairs
  induction pairs with
  | nil =>
    intro done acc
    simp [renderLoop, renderAll]
  | cons pr rest ih =>
    intro done acc
    obtain ⟨text, score⟩ := pr
    have hsc : (done ++ List.map Prod.snd ((text, score) :: rest))[done.length]? = some score := by
      rw [List.getElem?_append_right (Nat.le_refl _)]
      simp
    have hscores : done ++ List.map Prod.snd ((text, score) :: rest)
        = (done ++ [score]) ++ List.map Prod.snd rest := by simp
    have hlen : done.length + 1 = (done ++ [score]).length := by simp
    have hstep := renderLoop_cons fmtScore _ text (List.map Prod.fst rest) done.length acc
      score hsc
    show renderLoop fmtScore (done ++ List.map Prod.snd ((text, score) :: rest))
      (text :: List.map Prod.fst rest) done.length acc = _
    rw [hstep, hscores, hlen, ih (done ++ [score]) _, renderAll, renderEntry_eq,
      ← hlen, String.append_assoc]

theorem renderAll_append {F : Type} (fmtScore : F → String) :
    ∀ (xs ys : List (String × F)) (k : Nat),
      renderAll fmtScore k (xs ++ ys)
        = renderAll fmtScore k xs ++ renderAll fmtScore (k + xs.length) ys := by
  intro xs
  induction xs with
  | nil => intro ys k; simp [renderAll]
  | cons x xs ih =>
    intro ys k
    obtain ⟨text, score⟩ := x
    rw [List.cons_append, renderAll, renderAll, ih, List.length_cons]
    have : k + 1 + xs.length = k + (xs.length + 1) := by omega
    rw [this]
    simp only [String.append_assoc]

theorem trimRight_append_cons (xs ys : List Char) (c : Char) (hc : isSpace c = false) :
    trimRight (xs ++ c :: ys) = xs ++ c :: trimRight ys := by
  unfold trimRight
  rw [List.reverse_append, List.reverse_cons, List.append_assoc, List.dropWhile_append]
  by_cases he : (List.dropWhile isSpace ys.reverse).isEmpty = true
  · rw [if_pos he]
    have he2 : List.dropWhile isSpace ys.reverse = [] := List.isEmpty_iff.mp he
    rw [he2]
    simp [List.dropWhile_cons, hc]
  · rw [if_neg he]
    simp

/-- The result of `TrimSpace` does not begin with white space. -/
theorem TrimSpace_head (s : String) (c : Char)
    (h : (TrimSpace s).data.head? = some c) : isSpace c = false := by
  rw [TrimSpace_data] at h
  have hnot := List.head?_dropWhile_not isSpace s.data
  cases hM : List.dropWhile isSpace s.data with
  | nil => rw [hM] at h; simp [trimRight] at h
  | cons m ms =>
    rw [hM] at h hnot
    have hm : isSpace m = false := by simpa using hnot
    have h2 := trimRight_append_cons [] ms m hm
    rw [List.nil_append] at h2
    rw [h2] at h
    have : m = c := by simpa using h
    rw [← this]; exact hm

/-- The result of `TrimSpace` does not end with white space. -/
theorem TrimSpace_last (s : String) (c : Char)
    (h : (TrimSpace s).data.getLast? = some c) : isSpace c = false := by
  rw [TrimSpace_data] at h
  unfold trimRight at h
  rw [List.getLast?_reverse] at h
  have hnot := List.head?_dropWhile_not isSpace (List.dropWhile isSpace s.data).reverse
  rw [h] at hnot
  exact hnot

theorem renderHeader_data {F : Type} (fmtScore : F → String) (k : Nat) (score : F) :
    ∃ cs, (renderHeader fmtScore k score).data = '[' :: cs ∧
      (renderHeader fmtScore k score).data
        = ("[Document " ++ toString k ++ ", Score: " ++ fmtScore score).data ++ [']'] := by
  unfold renderHeader
  refine ⟨("Document " ++ toString k ++ ", Score: " ++ fmtScore score ++ "]").data, ?_, ?_⟩
  · simp only [String.data_append]
    rfl
  · rw [String.data_append]

theorem renderAll_data_cons {F : Type} (fmtScore : F → String) (k : Nat)
    (pairs : List (String × F)) (hne : pairs ≠ []) :
    ∃ cs, (renderAll fmtScore k pairs).data = '[' :: cs := by
  cases pairs with
  | nil => exact absurd rfl hne
  | cons pr rest =>
    obtain ⟨text, score⟩ := pr
    obtain ⟨cs, hcs, _⟩ := renderHeader_data fmtScore k score
    rw [renderAll]
    simp only [String.data_append, hcs]
    exact ⟨_, rfl⟩

/-- The trimmed rendering of a list of results keeps every header: it begins with
the entries before result `k`, the header of result `k`, the rest of its entry,
and the header of result `k + 1`. -/
theorem TrimSpace_renderAll_headers {F : Type} (fmtScore : F → String)
    (pairs : List (String × F)) (k : Nat) (t1 t2 : String) (sc1 sc2 : F)
    (h1 : pairs[k]? = some (t1, sc1)) (h2 : pairs[k + 1]? = some (t2, sc2)) :
    ∃ mid post, TrimSpace (renderAll fmtScore 1 pairs)
      = renderAll fmtScore 1 (pairs.take k) ++ renderHeader fmtScore (k + 1) sc1 ++ mid
          ++ renderHeader fmtScore (k + 2) sc2 ++ post := by
  have hk1 : k < pairs.length := (List.getElem?_eq_some_iff.mp h1).1
  have hk2 : k + 1 < pairs.length := (List.getElem?_eq_some_iff.mp h2).1
  have hsplit : pairs = pairs.take k ++ (t1, sc1) :: (t2, sc2) :: pairs.drop (k + 2) := by
    have e1 : pairs.drop k = (t1, sc1) :: pairs.drop (k + 1) := by
      rw [List.drop_eq_getElem_cons hk1]
      have := (List.getElem?_eq_some_iff.mp h1).2
      rw [this]
    have e2 : pairs.drop (k + 1) = (t2, sc2) :: pairs.drop (k + 2) := by
      rw [List.drop_eq_getElem_cons hk2]
      have := (List.getElem?_eq_some_iff.mp h2).2
      rw [this]
    rw [← e2, ← e1, List.take_append_drop]
  have hne : pairs ≠ [] := by
    intro h0; rw [h0] at hk1; simp at hk1
  obtain ⟨cs, hcs⟩ := renderAll_data_cons fmtScore 1 pairs hne
  obtain ⟨_, _, hH2⟩ := renderHeader_data fmtScore (k + 2) sc2
  have htake : (pairs.take k).length = k := by
    rw [List.length_take]; omega
  have hfull : renderAll fmtScore 1 pairs
      = renderAll fmtScore 1 (pairs.take k) ++
          ((renderHeader fmtScore (k + 1) sc1 ++ "\n" ++ t1 ++ "\n\n") ++
            ((renderHeader fmtScore (k + 2) sc2 ++ "\n" ++ t2 ++ "\n\n") ++
              renderAll fmtScore (k + 3) (pairs.drop (k + 2)))) := by
    have h3 : renderAll fmtScore 1 (pairs.take k ++ (t1, sc1) :: (t2, sc2) :: pairs.drop (k + 2))
        = renderAll fmtScore 1 (pairs.take k) ++
          ((renderHeader fmtScore (k + 1) sc1 ++ "\n" ++ t1 ++ "\n\n") ++
            ((renderHeader fmtScore (k + 2) sc2 ++ "\n" ++ t2 ++ "\n\n") ++
              renderAll fmtScore (k + 3) (pairs.drop (k + 2)))) := by
      rw [renderAll_append, htake, renderAll, renderAll]
      have e1 : 1 + k = k + 1 := by omega
      have e2 : 1 + k + 1 = k + 2 := by omega
      have e3 : 1 + k + 1 + 1 = k + 3 := by omega
      rw [e3, e2, e1]
    rw [← hsplit] at h3
    exact h3
  refine ⟨"\n" ++ t1 ++ "\n\n",
    String.mk (trimRight ("\n" ++ t2 ++ "\n\n" ++
      renderAll fmtScore (k + 3) (pairs.drop (k + 2))).data), ?_⟩
  have hdata : (renderAll fmtScore 1 pairs).data
      = (renderAll fmtScore 1 (pairs.take k) ++ renderHeader fmtScore (k + 1) sc1
            ++ ("\n" ++ t1 ++ "\n\n")
            ++ ("[Document " ++ toString (k + 2) ++ ", Score: " ++ fmtScore sc2)).data
          ++ ']' :: ("\n" ++ t2 ++ "\n\n" ++
              renderAll fmtScore (k + 3) (pairs.drop (k + 2))).data := by
    rw [hfull]
    simp only [String.data_append, hH2, List.append_assoc, List.singleton_append]
    rfl
  apply String.ext
  rw [TrimSpace_data, hcs, List.dropWhile_cons_of_neg (by decide), ← hcs, hdata,
    trimRight_append_cons _ _ ']' (by decide)]
  simp only [String.data_append, hH2, List.append_assoc, List.singleton_append]

/-- The value of a `Retrieve` whose `Search` returned the results `pairs`. -/
theorem Retrieve_of_results {σ F : Type} (p : Pipeline σ F) (fmtScore : F → String)
    (query : String) (s : σ) (v : List F) (l : Nat) (pairs : List (String × F))
    (hne : pairs ≠ [])
    (hs : (v, l, Except.ok (pairs.map Prod.fst, pairs.map Prod.snd))
      ∈ searchCalls (p.Retrieve fmtScore query s).events) :
    (p.Retrieve fmtScore query s).value
      = some (TrimSpace (renderAll fmtScore 1 pairs), none) := by
  cases hg : p.llmClient.GenerateEmbedding query s with
  | mk res s1 =>
    cases res with
    | error err =>
      rw [Retrieve_of_embed_error p fmtScore query s s1 err hg] at hs
      simp [searchCalls] at hs
    | ok emb =>
      cases hsr : p.qdrantClient.Search emb (uint64 p.searchLimit) s1 with
      | mk res2 s2 =>
        cases res2 with
        | error err =>
          rw [Retrieve_of_search_error p fmtScore query s s1 s2 emb err hg hsr] at hs
          simp [searchCalls] at hs
        | ok found =>
          obtain ⟨texts, scores⟩ := found
          rw [Retrieve_of_search_ok p fmtScore query s s1 s2 emb texts scores hg hsr] at hs ⊢
          simp only [searchCalls, List.filterMap_cons, List.filterMap_nil, List.mem_singleton,
            Prod.mk.injEq, Except.ok.injEq] at hs
          obtain ⟨_, _, ht, hsc⟩ := hs
          subst ht hsc
          have hlen : ¬ (List.map Prod.fst pairs).length = 0 := by
            rw [List.length_map]
            exact fun h0 => hne (List.length_eq_zero.mp h0)
          have hloop := renderLoop_pairs fmtScore pairs [] ""
          simp only [List.nil_append, List.length_nil, Nat.zero_add] at hloop
          simp only [if_neg hlen, hloop]
          simp

/-- C18: for every non-empty list of results (text_1, score_1) .. (text_n, score_n)
returned by `Search`, `Retrieve` returns the concatenation, in the returned order,
of the entries "[Document k, Score: <score_k>]" + newline + text_k + two newlines
with k counted from 1, with leading and trailing white space trimmed; the blob
begins and ends with a character that is not white space, and the header of entry
k precedes the header of entry k+1 in it.  The rendering of a score with 4 decimal
places is the parameter `fmtScore`. -/
theorem Retrieve_renders_results {σ F : Type} (p : Pipeline σ F) (fmtScore : F → String)
    (query : String) (s : σ) (v : List F) (l : Nat) (pairs : List (String × F))
    (hne : pairs ≠ [])
    (hs : (v, l, Except.ok (pairs.map Prod.fst, pairs.map Prod.snd))
      ∈ searchCalls (p.Retrieve fmtScore query s).events) :
    ∃ blob, (p.Retrieve fmtScore query s).value = some (blob, none) ∧
      blob = TrimSpace (renderAll fmtScore 1 pairs) ∧
      blob ≠ "" ∧
      (∀ c, blob.data.head? = some c → isSpace c = false) ∧
      (∀ c, blob.data.getLast? = some c → isSpace c = false) ∧
      (∀ k t1 sc1 t2 sc2, pairs[k]? = some (t1, sc1) → pairs[k + 1]? = some (t2, sc2) →
        ∃ mid post, blob
          = renderAll fmtScore 1 (pairs.take k) ++ renderHeader fmtScore (k + 1) sc1 ++ mid
              ++ renderHeader fmtScore (k + 2) sc2 ++ post) := by
  refine ⟨TrimSpace (renderAll fmtScore 1 pairs),
    Retrieve_of_results p fmtScore query s v l pairs hne hs, rfl, ?_,
    TrimSpace_head _, TrimSpace_last _, ?_⟩
  · obtain ⟨cs, hcs⟩ := renderAll_data_cons fmtScore 1 pairs hne
    exact TrimSpace_ne_empty _ '[' cs hcs (by decide)
  · intro k t1 sc1 t2 sc2 h1 h2
    exact TrimSpace_renderAll_headers fmtScore pairs k t1 t2 sc1 sc2 h1 h2

theorem Retrieve_renders_results_witness :
    [("Document 1", 9000), ("Document 2", 8000)] ≠ ([] : List (String × Nat)) ∧
      (([5] : List Nat), 3,
          (Except.ok (([("Document 1", 9000), ("Document 2", 8000)] : List (String × Nat)).map
              Prod.fst,
            ([("Document 1", 9000), ("Document 2", 8000)] : List (String × Nat)).map Prod.snd) :
            Except Error (List String × List Nat)))
        ∈ searchCalls (samplePipeline.Retrieve sampleFmtScore "query" []).events ∧
      ∃ blob, (samplePipeline.Retrieve sampleFmtScore "query" []).value = some (blob, none) ∧
        blob = TrimSpace (renderAll sampleFmtScore 1 [("Document 1", 9000), ("Document 2", 8000)]) ∧
        blob ≠ "" ∧
        (∀ c, blob.data.head? = some c → isSpace c = false) ∧
        (∀ c, blob.data.getLast? = some c → isSpace c = false) ∧
        (∀ k t1 sc1 t2 sc2,
          ([("Document 1", 9000), ("Document 2", 8000)] : List (String × Nat))[k]? = some (t1, sc1) →
          ([("Document 1", 9000), ("Document 2", 8000)] : List (String × Nat))[k + 1]?
            = some (t2, sc2) →
          ∃ mid post, blob
            = renderAll sampleFmtScore 1
                (([("Document 1", 9000), ("Document 2", 8000)] : List (String × Nat)).take k)
              ++ renderHeader sampleFmtScore (k + 1) sc1 ++ mid
              ++ renderHeader sampleFmtScore (k + 2) sc2 ++ post) :=
  ⟨List.cons_ne_nil _ _, List.Mem.head _,
    Retrieve_renders_results samplePipeline sampleFmtScore "query" [] [5] 3
      [("Document 1", 9000), ("Document 2", 8000)] (List.cons_ne_nil _ _) (List.Mem.head _)⟩

/-! ## The helpers of the chunker -/

/-- C22: for every chunkOverlap and every word list, `getOverlapWords` returns the
last min(chunkOverlap, len(words)) words in their original order when
chunkOverlap > 0, and the empty list when chunkOverlap <= 0; with overlap 2,
[one two three four five] gives [four five]. -/
theorem getOverlapWords_spec (c : Chunker) (words : List String) :
    (0 < c.chunkOverlap →
      c.getOverlapWords words
          = words.drop (words.length - min c.chunkOverlap.toNat words.length) ∧
        (c.getOverlapWords words).length = min c.chunkOverlap.toNat words.length ∧
        ∃ before, words = before ++ c.getOverlapWords words) ∧
      (c.chunkOverlap ≤ 0 → c.getOverlapWords words = []) ∧
      (NewChunker 100 2).getOverlapWords ["one", "two", "three", "four", "five"]
        = ["four", "five"] := by
  refine ⟨fun ho => ?_, fun ho => getOverlapWords_of_nonpos c words ho, by decide⟩
  have hm : (min c.chunkOverlap (words.length : Int)).toNat
      = min c.chunkOverlap.toNat words.length := by omega
  refine ⟨?_, ?_, ?_⟩
  · rw [getOverlapWords_eq_drop, hm]
  · rw [getOverlapWords_length, hm]
  · obtain ⟨before, hb⟩ := getOverlapWords_suffix c words
    exact ⟨before, hb.symm⟩

/-- C23: for every word list, `calculateSize(words)` is sum(len(word)+1) - 1 when
the list is not empty and 0 when it is empty, which is the length of the words
joined by single spaces with no trailing separator; calculateSize([]) = 0,
calculateSize([hello]) = 5, calculateSize([one, two, three]) = 13. -/
theorem calculateSize_spec (c : Chunker) (words : List String) :
    (words ≠ [] → c.calculateSize words = (words.map (fun word => len word + 1)).sum - 1) ∧
      (words = [] → c.calculateSize words = 0) ∧
      c.calculateSize words = len (Join words " ") ∧
      (NewChunker 100 20).calculateSize [] = 0 ∧
      (NewChunker 100 20).calculateSize ["hello"] = 5 ∧
      (NewChunker 100 20).calculateSize ["one", "two", "three"] = 13 ∧
      (NewChunker 100 20).calculateSize ["hello", "world"] = 11 := by
  refine ⟨fun h => calculateSize_of_ne_nil c words h, fun h => ?_, (len_Join c words).symm,
    by decide, by decide, by decide, by decide⟩
  rw [h]
  exact calculateSize_nil c

/-! ## An overlap that covers the whole text -/

theorem advance_fst_full_overlap (c : Chunker) (w : String) (cur : List String) (sz : Int)
    (h : (cur.length : Int) ≤ c.chunkOverlap) : (c.advance w cur sz).1 = cur ++ [w] := by
  rw [advance_fst]
  by_cases hcl : c.closes w cur sz
  · rw [if_pos hcl, getOverlapWords_eq_drop]
    have h0 : cur.length - (min c.chunkOverlap (cur.length : Int)).toNat = 0 := by omega
    rw [h0, List.drop_zero]
  · rw [if_neg hcl]

/-- When the overlap covers all the words, the pending segment never loses a
word: every segment is a beginning of the word list and is longer than the
segment before it. -/
theorem segWords_full_overlap (c : Chunker) :
    ∀ (ws : List String) (p : Option (List String)) (cur : List String) (sz : Int),
      (((cur.length + ws.length : Nat) : Int) ≤ c.chunkOverlap) →
      (∀ prev, p = some prev → prev.length < cur.length) →
      ∀ pr ∈ withPrev p (c.segWords ws cur sz),
        pr.2 <+: cur ++ ws ∧ ∀ prev, pr.1 = some prev → prev.length < pr.2.length := by
  intro ws
  induction ws with
  | nil => intro p cur sz _ _ pr hpr; simp [segWords_nil, withPrev] at hpr
  | cons w rest ih =>
    intro p cur sz ho hp pr hpr
    have hcur : (cur.length : Int) ≤ c.chunkOverlap := by
      have : cur.length ≤ cur.length + (w :: rest).length := Nat.le_add_right _ _
      omega
    rw [withPrev_segWords_cons, advance_fst_full_overlap c w cur sz hcur] at hpr
    have hp2 : ∀ prev, (if c.closes w cur sz then some cur else p) = some prev →
        prev.length < (cur ++ [w]).length := by
      intro prev hprev
      rw [List.length_append, List.length_singleton]
      by_cases hcl : c.closes w cur sz
      · rw [if_pos hcl] at hprev
        have : cur = prev := by simpa using hprev
        rw [← this]; omega
      · rw [if_neg hcl] at hprev
        have := hp prev hprev
        omega
    rcases List.mem_append.mp hpr with h1 | h1
    · by_cases hcl : c.closes w cur sz
      · rw [if_pos hcl] at h1
        have h2 : pr = (p, cur) := by simpa using h1
        subst h2
        exact ⟨List.prefix_append _ _, hp⟩
      · rw [if_neg hcl] at h1; simp at h1
    · by_cases hr : rest = []
      · rw [if_pos hr] at h1
        have h2 : pr = ((if c.closes w cur sz then some cur else p), cur ++ [w]) := by
          simpa [withPrev] using h1
        subst h2
        rw [hr]
        exact ⟨List.prefix_refl _, hp2⟩
      · rw [if_neg hr] at h1
        have ho2 : (((cur ++ [w]).length + rest.length : Nat) : Int) ≤ c.chunkOverlap := by
          rw [List.length_append, List.length_singleton]
          rw [List.length_cons] at ho
          omega
        have h3 := ih _ (cur ++ [w]) _ ho2 hp2 pr h1
        rw [List.append_assoc] at h3
        exact h3

theorem segWords_full_overlap_last (c : Chunker) :
    ∀ (ws cur : List String) (sz : Int), ws ≠ [] →
      (((cur.length + ws.length : Nat) : Int) ≤ c.chunkOverlap) →
      (c.segWords ws cur sz).getLast? = some (cur ++ ws) := by
  intro ws
  induction ws with
  | nil => intro cur sz h; exact absurd rfl h
  | cons w rest ih =>
    intro cur sz _ ho
    have hcur : (cur.length : Int) ≤ c.chunkOverlap := by
      have : cur.length ≤ cur.length + (w :: rest).length := Nat.le_add_right _ _
      omega
    rw [segWords_cons, advance_fst_full_overlap c w cur sz hcur, List.getLast?_append]
    by_cases hr : rest = []
    · rw [if_pos hr, hr]; simp
    · rw [if_neg hr]
      have ho2 : (((cur ++ [w]).length + rest.length : Nat) : Int) ≤ c.chunkOverlap := by
        rw [List.length_append, List.length_singleton]
        rw [List.length_cons] at ho
        omega
      rw [ih (cur ++ [w]) _ hr ho2]
      simp

/-- C24: for every chunkSize and every text with n >= 1 words, if
chunkOverlap >= n then every segment returned by `ChunkText` is the single-space
join of a beginning of the word list of the text, each segment has strictly more
words than the one before it, and the last segment is the whole normalized
text. -/
theorem ChunkText_full_overlap (c : Chunker) (text : String)
    (hn : Fields text ≠ [])
    (ho : ((Fields text).length : Int) ≤ c.chunkOverlap) :
    (∀ seg ∈ c.ChunkText text, ∃ pre, pre <+: Fields text ∧ seg = Join pre " ") ∧
      (∀ k prev next, (c.ChunkText text)[k]? = some prev →
        (c.ChunkText text)[k + 1]? = some next →
          (Fields prev).length < (Fields next).length) ∧
      (c.ChunkText text).getLast? = some (Join (Fields text) " ") := by
  have hgen := segWords_full_overlap c (Fields text) none [] 0
    (by simpa using ho) (fun prev hp => by simp at hp)
  refine ⟨?_, ?_, ?_⟩
  · intro seg hseg
    obtain ⟨k, hk⟩ := List.getElem?_of_mem hseg
    have hmem := segment_with_previous c text hn k seg hk
    have hJ := (segment_eq_Join c text hn seg hseg).1
    have hpre := (hgen _ hmem).1
    rw [List.nil_append] at hpre
    exact ⟨Fields seg, hpre, hJ⟩
  · intro k prev next hp hnx
    obtain ⟨_, hmem⟩ := consecutive_segments c text k prev next hp hnx
    exact (hgen _ hmem).2 (Fields prev) rfl
  · rw [ChunkText_eq_map_Join c text hn, List.getLast?_map,
      segWords_full_overlap_last c (Fields text) [] 0 hn (by simpa using ho)]
    rfl

theorem ChunkText_full_overlap_witness :
    Fields "one two three four five six" ≠ [] ∧
      ((Fields "one two three four five six").length : Int) ≤ (NewChunker 10 6).chunkOverlap ∧
      ((∀ seg ∈ (NewChunker 10 6).ChunkText "one two three four five six",
          ∃ pre, pre <+: Fields "one two three four five six" ∧ seg = Join pre " ") ∧
        (∀ k prev next,
          ((NewChunker 10 6).ChunkText "one two three four five six")[k]? = some prev →
          ((NewChunker 10 6).ChunkText "one two three four five six")[k + 1]? = some next →
            (Fields prev).length < (Fields next).length) ∧
        ((NewChunker 10 6).ChunkText "one two three four five six").getLast?
          = some (Join (Fields "one two three four five six") " ")) :=
  ⟨by decide, by decide,
    ChunkText_full_overlap (NewChunker 10 6) "one two three four five six"
      (by decide) (by decide)⟩

/-! ## Search results and the indexing of the scores -/

theorem searchLoop_cons {F : Type} (result : ScoredPoint F) (rest : List (ScoredPoint F))
    (texts : List String) (scores : List F) :
    searchLoop (result :: rest) texts scores
      = if result.text ≠ "" then
          searchLoop rest (texts ++ [result.text]) (scores ++ [result.Score])
        else searchLoop rest texts scores := by
  obtain ⟨score, payload⟩ := result
  cases payload with
  | none => simp [searchLoop, ScoredPoint.text]
  | some payload =>
    cases hl : payload.lookup "text" with
    | none => simp [searchLoop, ScoredPoint.text, hl]
    | some v =>
      cases v with
      | none => simp [searchLoop, ScoredPoint.text, hl]
      | some textValue => simp [searchLoop, ScoredPoint.text, hl]

/-- The loop of `Search` adds, in order, the text and the score of every result
whose text is not empty. -/
theorem searchLoop_zip {F : Type} :
    ∀ (results : List (ScoredPoint F)) (texts : List String) (scores : List F),
      texts.length = scores.length →
      (searchLoop results texts scores).1.length = (searchLoop results texts scores).2.length ∧
        List.zip (searchLoop results texts scores).1 (searchLoop results texts scores).2
          = List.zip texts scores ++
              (results.filter (fun r => decide (r.text ≠ ""))).map (fun r => (r.text, r.Score)) := by
  intro results
  induction results with
  | nil => intro texts scores h; simp [searchLoop, h]
  | cons r rest ih =>
    intro texts scores h
    rw [searchLoop_cons]
    by_cases ht : r.text ≠ ""
    · rw [if_pos ht]
      have h2 : (texts ++ [r.text]).length = (scores ++ [r.Score]).length := by simp [h]
      obtain ⟨h3, h4⟩ := ih _ _ h2
      refine ⟨h3, ?_⟩
      rw [h4, List.zip_append h, List.filter_cons_of_pos (by simpa using ht)]
      simp
    · rw [if_neg ht]
      obtain ⟨h3, h4⟩ := ih _ _ h
      refine ⟨h3, ?_⟩
      rw [h4, List.filter_cons_of_neg (by simpa using ht)]

theorem mem_of_zip_eq_map {F : Type} (texts : List String) (scores : List F)
    (kept : List (ScoredPoint F)) (hlen : texts.length = scores.length)
    (hz : List.zip texts scores = kept.map (fun r => (r.text, r.Score))) :
    texts = kept.map (fun r => r.text) := by
  have h1 : (List.zip texts scores).map Prod.fst = texts :=
    List.map_fst_zip _ _ (by omega)
  rw [← h1, hz, List.map_map]
  rfl

/-- The answer of `Search` to the results of a query. -/
theorem Search_of_results {σ F : Type} (qc : QdrantClient σ F) (vector : List F) (limit : Nat)
    (s s1 : σ) (results : List (ScoredPoint F))
    (hq : qc.client.Query
        { CollectionName := qc.collection, Query := vector, Limit := limit,
          WithPayload := true } s = (.ok results, s1)) :
    qc.Search vector limit s = (.ok (searchLoop results [] []), s1) := by
  unfold QdrantClient.Search
  simp only [hq]
  by_cases h0 : results.length = 0
  · rw [if_pos h0]
    have : results = [] := List.length_eq_zero.mp h0
    rw [this]
    rfl
  · rw [if_neg h0]

/-- Texts and scores returned by `Search` without error have the same length. -/
theorem Search_lengths {σ F : Type} (qc : QdrantClient σ F) (vector : List F) (limit : Nat)
    (s s2 : σ) (texts : List String) (scores : List F)
    (h : qc.Search vector limit s = (.ok (texts, scores), s2)) :
    texts.length = scores.length := by
  cases hq : qc.client.Query
      { CollectionName := qc.collection, Query := vector, Limit := limit,
        WithPayload := true } s with
  | mk res s1 =>
    cases res with
    | error err =>
      unfold QdrantClient.Search at h
      simp only [hq] at h
      simp at h
    | ok results =>
      rw [Search_of_results qc vector limit s s1 results hq] at h
      have h1 : searchLoop results [] [] = (texts, scores) := by
        simp only [Prod.mk.injEq, Except.ok.injEq] at h
        exact h.1
      have h2 := (searchLoop_zip results [] [] rfl).1
      rw [h1] at h2
      exact h2

theorem renderLoop_in_range {F : Type} (fmtScore : F → String) (scores : List F) :
    ∀ (texts : List String) (i : Nat) (acc : String), i + texts.length ≤ scores.length →
      renderLoop fmtScore scores texts i acc ≠ none := by
  intro texts
  induction texts with
  | nil => intro i acc _; simp [renderLoop]
  | cons text rest ih =>
    intro i acc h
    rw [List.length_cons] at h
    have hi : i < scores.length := by omega
    rw [renderLoop_cons fmtScore scores text rest i acc scores[i] (List.getElem?_eq_getElem hi)]
    exact ih _ _ (by omega)

/-- `Retrieve` panics only after a `Search` that returned fewer scores than
texts. -/
theorem Retrieve_panics_only {σ F : Type} (p : Pipeline σ F) (fmtScore : F → String)
    (query : String) (s : σ) (h : (p.Retrieve fmtScore query s).value = none) :
    ∃ emb s1 s2 texts scores,
      p.qdrantClient.Search emb (uint64 p.searchLimit) s1 = (.ok (texts, scores), s2) ∧
      (emb, uint64 p.searchLimit, Except.ok (texts, scores))
        ∈ searchCalls (p.Retrieve fmtScore query s).events ∧
      scores.length < texts.length := by
  cases hg : p.llmClient.GenerateEmbedding query s with
  | mk res s1 =>
    cases res with
    | error err =>
      rw [Retrieve_of_embed_error p fmtScore query s s1 err hg] at h
      simp at h
    | ok emb =>
      cases hs : p.qdrantClient.Search emb (uint64 p.searchLimit) s1 with
      | mk res2 s2 =>
        cases res2 with
        | error err =>
          rw [Retrieve_of_search_error p fmtScore query s s1 s2 emb err hg hs] at h
          simp at h
        | ok found =>
          obtain ⟨texts, scores⟩ := found
          rw [Retrieve_of_search_ok p fmtScore query s s1 s2 emb texts scores hg hs] at h ⊢
          refine ⟨emb, s1, s2, texts, scores, hs, by simp [searchCalls], ?_⟩
          by_contra hle
          have hin := renderLoop_in_range fmtScore scores texts 0 "" (by omega)
          by_cases h0 : texts.length = 0
          · simp only [if_pos h0] at h
            simp at h
          · simp only [if_neg h0] at h
            cases hr : renderLoop fmtScore scores texts 0 "" with
            | none => exact hin hr
            | some b => rw [hr] at h; simp at h

/-- C25: for every list of query results, `QdrantClient.Search` returns a list of
texts and a list of scores of equal length in which every text is non-empty, the
pairs being, in order, the results that have a non-empty string under "text" (an
order-preserving sub-sequence of the results; the other results are skipped).
Whenever `Search` gives at least as many scores as texts, the access `scores[i]`
of `Retrieve` is in range and `Retrieve` does not panic; this holds for every
pipeline whose vector database is a `QdrantClient`. -/
theorem Search_pairs_and_Retrieve_in_range {σ F : Type} :
    (∀ (qc : QdrantClient σ F) (vector : List F) (limit : Nat) (s s1 : σ)
        (results : List (ScoredPoint F)),
        qc.client.Query
            { CollectionName := qc.collection, Query := vector, Limit := limit,
              WithPayload := true } s = (.ok results, s1) →
        ∃ texts scores, qc.Search vector limit s = (.ok (texts, scores), s1) ∧
          texts.length = scores.length ∧
          (∀ t ∈ texts, t ≠ "") ∧
          List.zip texts scores
            = (results.filter (fun r => decide (r.text ≠ ""))).map (fun r => (r.text, r.Score)) ∧
          List.Sublist (List.zip texts scores) (results.map (fun r => (r.text, r.Score)))) ∧
      (∀ (p : Pipeline σ F) (fmtScore : F → String) (query : String) (s : σ),
        (∀ v l texts scores,
          (v, l, Except.ok (texts, scores)) ∈ searchCalls (p.Retrieve fmtScore query s).events →
            texts.length ≤ scores.length) →
        (p.Retrieve fmtScore query s).value ≠ none) ∧
      (∀ (p : Pipeline σ F) (qc : QdrantClient σ F) (fmtScore : F → String) (query : String)
        (s : σ), p.qdrantClient = qc.toVectorDatabase →
        (p.Retrieve fmtScore query s).value ≠ none) ∧
      sampleQdrant.Search [5] 3 [] = (.ok (["Document 1", "Document 2"], [9000, 8000]), []) := by
  refine ⟨?_, ?_, ?_, rfl⟩
  · intro qc vector limit s s1 results hq
    obtain ⟨hlen, hzip⟩ := searchLoop_zip results [] [] rfl
    rw [List.zip_nil_left, List.nil_append] at hzip
    refine ⟨(searchLoop results [] []).1, (searchLoop results [] []).2,
      Search_of_results qc vector limit s s1 results hq, hlen, ?_, hzip, ?_⟩
    · intro t ht
      rw [mem_of_zip_eq_map _ _ _ hlen hzip] at ht
      obtain ⟨r, hr, rfl⟩ := List.mem_map.mp ht
      have := (List.mem_filter.mp hr).2
      simpa using this
    · rw [hzip]
      exact (List.filter_sublist results).map _
  · intro p fmtScore query s hpre hnone
    obtain ⟨emb, s1, s2, texts, scores, _, hmem, hlt⟩ :=
      Retrieve_panics_only p fmtScore query s hnone
    have := hpre _ _ _ _ hmem
    omega
  · intro p qc fmtScore query s hqc hnone
    obtain ⟨emb, s1, s2, texts, scores, hs, _, hlt⟩ :=
      Retrieve_panics_only p fmtScore query s hnone
    rw [hqc] at hs
    have := Search_lengths qc emb (uint64 p.searchLimit) s1 s2 texts scores hs
    omega

/-! ## The query handler -/

/-- C21: `QueryHandler` never sends an unanchored question to the answer
generator.  `GenerateAnswer` is called only after a `Retrieve` that succeeded, for
the same query, and is passed exactly the context which `Retrieve` returned;
whenever `Retrieve` fails the handler answers with status 500 and `GenerateAnswer`
is not called; an empty query is answered with status 400 and `Retrieve` is not
called. -/
theorem QueryHandler_anchored {σ : Type} (h : Http.Handler σ)
    (decoded : Except Error Http.QueryReq) (s : σ) :
    (∀ contextText question answer err,
        Http.Call.GenerateAnswer contextText question answer err
          ∈ (h.QueryHandler decoded s).calls →
        (h.QueryHandler decoded s).calls
          = [Http.Call.Retrieve question contextText none,
             Http.Call.GenerateAnswer contextText question answer err] ∧
        ∃ s0, (h.ragPipeline.Retrieve question s).1 = (contextText, none) ∧
          (h.ragPipeline.Retrieve question s).2 = s0 ∧
          (h.llmClient.GenerateAnswer contextText question s0).1 = (answer, err)) ∧
      (∀ query contextText err,
        Http.Call.Retrieve query contextText (some err) ∈ (h.QueryHandler decoded s).calls →
        (h.QueryHandler decoded s).response.Code = 500 ∧
        (h.QueryHandler decoded s).calls = [Http.Call.Retrieve query contextText (some err)]) ∧
      (∀ req contextText err, decoded = .ok req → req.Query ≠ "" →
        (h.ragPipeline.Retrieve req.Query s).1 = (contextText, some err) →
        (h.QueryHandler decoded s).response.Code = 500 ∧
        (h.QueryHandler decoded s).calls = [Http.Call.Retrieve req.Query contextText (some err)]) ∧
      (decoded = .ok { Query := "" } →
        (h.QueryHandler decoded s).response.Code = 400 ∧ (h.QueryHandler decoded s).calls = []) ∧
      (sampleHandler.QueryHandler (.ok { Query := "What is Kubernetes?" }) []).calls
        = [Http.Call.Retrieve "What is Kubernetes?"
             "Kubernetes is a container orchestration system" none,
           Http.Call.GenerateAnswer "Kubernetes is a container orchestration system"
             "What is Kubernetes?" "Kubernetes is a container orchestration platform" none] ∧
      (sampleHandler.QueryHandler (.ok { Query := "unknown" }) []).calls
        = [Http.Call.Retrieve "unknown" "" (some "no relevant documents found")] ∧
      (sampleHandler.QueryHandler (.ok { Query := "unknown" }) []).response.Code = 500 := by
  refine ⟨?_, ?_, ?_, ?_, rfl, rfl, rfl⟩
  · intro contextText question answer err hmem
    cases decoded with
    | error e => simp [Http.Handler.QueryHandler] at hmem
    | ok req =>
      by_cases hq : req.Query = ""
      · simp [Http.Handler.QueryHandler, hq] at hmem
      · cases hr : h.ragPipeline.Retrieve req.Query s with
        | mk res s1 =>
          obtain ⟨ctx, rerr⟩ := res
          cases rerr with
          | some e => simp [Http.Handler.QueryHandler, hq, hr] at hmem
          | none =>
            cases hg : h.llmClient.GenerateAnswer ctx req.Query s1 with
            | mk res2 s2 =>
              obtain ⟨ans, gerr⟩ := res2
              cases gerr with
              | some e =>
                simp only [Http.Handler.QueryHandler, hq, hr, hg, if_false, List.mem_cons,
                  List.mem_singleton, List.not_mem_nil, or_false, false_or,
                  Http.Call.GenerateAnswer.injEq] at hmem ⊢
                rcases hmem with hbad | ⟨h1, h2, h3, h4⟩
                · cases hbad
                · subst h1 h2 h3 h4
                  exact ⟨rfl, s1, by rw [hr], by rw [hr], by rw [hg]⟩
              | none =>
                simp only [Http.Handler.QueryHandler, hq, hr, hg, if_false, List.mem_cons,
                  List.mem_singleton, List.not_mem_nil, or_false, false_or,
                  Http.Call.GenerateAnswer.injEq] at hmem ⊢
                rcases hmem with hbad | ⟨h1, h2, h3, h4⟩
                · cases hbad
                · subst h1 h2 h3 h4
                  exact ⟨rfl, s1, by rw [hr], by rw [hr], by rw [hg]⟩
  · intro query contextText err hmem
    cases decoded with
    | error e => simp [Http.Handler.QueryHandler] at hmem
    | ok req =>
      by_cases hq : req.Query = ""
      · simp [Http.Handler.QueryHandler, hq] at hmem
      · cases hr : h.ragPipeline.Retrieve req.Query s with
        | mk res s1 =>
          obtain ⟨ctx, rerr⟩ := res
          cases rerr with
          | some e =>
            simp only [Http.Handler.QueryHandler, hq, hr, if_false, List.mem_singleton,
              Http.Call.Retrieve.injEq] at hmem ⊢
            obtain ⟨h1, h2, h3⟩ := hmem
            have h4 : err = e := by simpa using h3
            subst h1 h2 h4
            exact ⟨rfl, rfl⟩
          | none =>
            cases hg : h.llmClient.GenerateAnswer ctx req.Query s1 with
            | mk res2 s2 =>
              obtain ⟨ans, gerr⟩ := res2
              cases gerr with
              | some e => simp [Http.Handler.QueryHandler, hq, hr, hg] at hmem
              | none => simp [Http.Handler.QueryHandler, hq, hr, hg] at hmem
  · intro req contextText err hd hq hret
    subst hd
    cases hr : h.ragPipeline.Retrieve req.Query s with
    | mk res s1 =>
      rw [hr] at hret
      simp only at hret
      subst hret
      simp only [Http.Handler.QueryHandler, hq, hr, if_false]
      exact ⟨rfl, trivial⟩
  · intro hd
    subst hd
    simp only [Http.Handler.QueryHandler, if_true]
    exact ⟨rfl, trivial⟩

end Rag
